import Mathlib

/-! # DES block cipher (`des.c`): shallow embedding and verification

The C program keeps every DES bit as one character, `'0'` or `'1'`, in a
`char` buffer and moves bits around with indexed stores and `strncpy`.

Embedding conventions:

* a `char` buffer holding bit characters is a `List Char`;
* a byte of a key or of a data block is a `Nat` below 256, the bit pattern
  of the C `char` (so the codec is independent of the signedness of `char`);
* a C `int` is a `Nat` or an `Int`; the values that occur stay below
  `2 ^ 31` when the lengths passed to the conversion helpers are at most 30
  and `atol` reads at most 10 digits (see `binchars64_to_char8`);
* memory that a function reads outside its own buffers is a parameter;
* an out-parameter is passed in and the updated buffer is returned;
* the global `PERMUTED_KEYS` is passed in and returned explicitly;
* `for (i = 0; i < n; i++)` is a left fold over `List.range n`;
* `print_debug`, `sprintf` and `printf` only produce output and are left out.

The file has three layers of definitions: the C functions, statement by
statement; the steps of the cipher on whole bit vectors, as the
specification words them; and the same steps on numbers, used to evaluate
the cipher on given inputs. The theorems relate the layers and then state
the properties of the specification about the C functions.
-/

namespace DES

/-! ## Constant tables -/

/-- Table `PC_1` (permuted choice 1 of the key schedule). -/
def PC_1 : List Nat :=
  [57, 49, 41, 33, 25, 17, 9,
   1, 58, 50, 42, 34, 26, 18,
   10, 2, 59, 51, 43, 35, 27,
   19, 11, 3, 60, 52, 44, 36,
   63, 55, 47, 39, 31, 23, 15,
   7, 62, 54, 46, 38, 30, 22,
   14, 6, 61, 53, 45, 37, 29,
   21, 13, 5, 28, 20, 12, 4]

/-- Table `LEFT_SHIFTS`: the rotation amount of each round. -/
def LEFT_SHIFTS : List Nat :=
  [1, 1, 2, 2, 2, 2, 2, 2, 1, 2, 2, 2, 2, 2, 2, 1]

/-- Table `PC_2` (permuted choice 2 of the key schedule). -/
def PC_2 : List Nat :=
  [14, 17, 11, 24, 1, 5,
   3, 28, 15, 6, 21, 10,
   23, 19, 12, 4, 26, 8,
   16, 7, 27, 20, 13, 2,
   41, 52, 31, 37, 47, 55,
   30, 40, 51, 45, 33, 48,
   44, 49, 39, 56, 34, 53,
   46, 42, 50, 36, 29, 32]

/-- Table `IP` (initial permutation). -/
def IP : List Nat :=
  [58, 50, 42, 34, 26, 18, 10, 2,
   60, 52, 44, 36, 28, 20, 12, 4,
   62, 54, 46, 38, 30, 22, 14, 6,
   64, 56, 48, 40, 32, 24, 16, 8,
   57, 49, 41, 33, 25, 17, 9, 1,
   59, 51, 43, 35, 27, 19, 11, 3,
   61, 53, 45, 37, 29, 21, 13, 5,
   63, 55, 47, 39, 31, 23, 15, 7]

/-- Table `E` (expansion of a half block to 48 bits). -/
def E : List Nat :=
  [32, 1, 2, 3, 4, 5,
   4, 5, 6, 7, 8, 9,
   8, 9, 10, 11, 12, 13,
   12, 13, 14, 15, 16, 17,
   16, 17, 18, 19, 20, 21,
   20, 21, 22, 23, 24, 25,
   24, 25, 26, 27, 28, 29,
   28, 29, 30, 31, 32, 1]

/-- Table `S`: the eight substitution boxes, 64 entries each. -/
def S : List (List Nat) :=
  [[14, 4, 13, 1, 2, 15, 11, 8, 3, 10, 6, 12, 5, 9, 0, 7,
    0, 15, 7, 4, 14, 2, 13, 1, 10, 6, 12, 11, 9, 5, 3, 8,
    4, 1, 14, 8, 13, 6, 2, 11, 15, 12, 9, 7, 3, 10, 5, 0,
    15, 12, 8, 2, 4, 9, 1, 7, 5, 11, 3, 14, 10, 0, 6, 13],
   [15, 1, 8, 14, 6, 11, 3, 4, 9, 7, 2, 13, 12, 0, 5, 10,
    3, 13, 4, 7, 15, 2, 8, 14, 12, 0, 1, 10, 6, 9, 11, 5,
    0, 14, 7, 11, 10, 4, 13, 1, 5, 8, 12, 6, 9, 3, 2, 15,
    13, 8, 10, 1, 3, 15, 4, 2, 11, 6, 7, 12, 0, 5, 14, 9],
   [10, 0, 9, 14, 6, 3, 15, 5, 1, 13, 12, 7, 11, 4, 2, 8,
    13, 7, 0, 9, 3, 4, 6, 10, 2, 8, 5, 14, 12, 11, 15, 1,
    13, 6, 4, 9, 8, 15, 3, 0, 11, 1, 2, 12, 5, 10, 14, 7,
    1, 10, 13, 0, 6, 9, 8, 7, 4, 15, 14, 3, 11, 5, 2, 12],
   [7, 13, 14, 3, 0, 6, 9, 10, 1, 2, 8, 5, 11, 12, 4, 15,
    13, 8, 11, 5, 6, 15, 0, 3, 4, 7, 2, 12, 1, 10, 14, 9,
    10, 6, 9, 0, 12, 11, 7, 13, 15, 1, 3, 14, 5, 2, 8, 4,
    3, 15, 0, 6, 10, 1, 13, 8, 9, 4, 5, 11, 12, 7, 2, 14],
   [2, 12, 4, 1, 7, 10, 11, 6, 8, 5, 3, 15, 13, 0, 14, 9,
    14, 11, 2, 12, 4, 7, 13, 1, 5, 0, 15, 10, 3, 9, 8, 6,
    4, 2, 1, 11, 10, 13, 7, 8, 15, 9, 12, 5, 6, 3, 0, 14,
    11, 8, 12, 7, 1, 14, 2, 13, 6, 15, 0, 9, 10, 4, 5, 3],
   [12, 1, 10, 15, 9, 2, 6, 8, 0, 13, 3, 4, 14, 7, 5, 11,
    10, 15, 4, 2, 7, 12, 9, 5, 6, 1, 13, 14, 0, 11, 3, 8,
    9, 14, 15, 5, 2, 8, 12, 3, 7, 0, 4, 10, 1, 13, 11, 6,
    4, 3, 2, 12, 9, 5, 15, 10, 11, 14, 1, 7, 6, 0, 8, 13],
   [4, 11, 2, 14, 15, 0, 8, 13, 3, 12, 9, 7, 5, 10, 6, 1,
    13, 0, 11, 7, 4, 9, 1, 10, 14, 3, 5, 12, 2, 15, 8, 6,
    1, 4, 11, 13, 12, 3, 7, 14, 10, 15, 6, 8, 0, 5, 9, 2,
    6, 11, 13, 8, 1, 4, 10, 7, 9, 5, 0, 15, 14, 2, 3, 12],
   [13, 2, 8, 4, 6, 15, 11, 1, 10, 9, 3, 14, 5, 0, 12, 7,
    1, 15, 13, 8, 10, 3, 7, 4, 12, 5, 6, 11, 0, 14, 9, 2,
    7, 11, 4, 1, 9, 12, 14, 2, 0, 6, 10, 13, 15, 3, 5, 8,
    2, 1, 14, 7, 4, 10, 8, 13, 15, 12, 9, 0, 3, 5, 6, 11]]

/-- Table `P` (permutation closing the round function). -/
def P : List Nat :=
  [16, 7, 20, 21,
   29, 12, 28, 17,
   1, 15, 23, 26,
   5, 18, 31, 10,
   2, 8, 24, 14,
   32, 27, 3, 9,
   19, 13, 30, 6,
   22, 11, 4, 25]

/-- Table `IP_REVERSED` (final permutation). -/
def IP_REVERSED : List Nat :=
  [40, 8, 48, 16, 56, 24, 64, 32,
   39, 7, 47, 15, 55, 23, 63, 31,
   38, 6, 46, 14, 54, 22, 62, 30,
   37, 5, 45, 13, 53, 21, 61, 29,
   36, 4, 44, 12, 52, 20, 60, 28,
   35, 3, 43, 11, 51, 19, 59, 27,
   34, 2, 42, 10, 50, 18, 58, 26,
   33, 1, 41, 9, 49, 17, 57, 25]

/-! ## C library and buffers -/

/-- The C character with code 0, which ends a string. -/
def NUL : Char := Char.ofNat 0

/-- A local `char buf[n]` before anything is stored in it. Its content is
indeterminate in C; the functions below store to every element they later
read, and the model fills the fresh buffer with `NUL`. -/
def uninit (n : Nat) : List Char := List.replicate n NUL

/-- The `n` characters that `strncpy(_, src, n)` stores: the characters of
`src` in order, and once a `NUL` is met (or the modelled source ends),
`NUL` up to the count `n`. -/
def strncpy_chars : List Char → Nat → List Char
  | _, 0 => []
  | [], n + 1 => List.replicate (n + 1) NUL
  | c :: cs, n + 1 =>
    if c = NUL then List.replicate (n + 1) NUL else c :: strncpy_chars cs n

/-- Stores the characters `data` in `dst` from index `off` on. -/
def store (dst : List Char) (off : Nat) (data : List Char) : List Char :=
  dst.take off ++ data ++ dst.drop (off + data.length)

/-- The call `strncpy(dst + off, src, n)`; a source `buf + k` is passed as
`buf.drop k`. -/
def strncpy (dst : List Char) (off : Nat) (src : List Char) (n : Nat) : List Char :=
  store dst off (strncpy_chars src n)

/-- The C predicate `isspace` in the C locale. -/
def isspace (c : Char) : Bool := c.toNat = 32 || (9 ≤ c.toNat && c.toNat ≤ 13)

/-- Digit loop of `atol`: accumulates decimal digits until the first
character that is not a digit. -/
def atol_digits : List Char → Int → Int
  | [], acc => acc
  | c :: cs, acc =>
    if 48 ≤ c.toNat ∧ c.toNat ≤ 57 then atol_digits cs (acc * 10 + (c.toNat - 48 : Nat)) else acc

/-- The C library function `atol` on the characters found in memory from
its argument on: leading white space, an optional sign, then decimal
digits up to the first character that is not a digit. The list holds the
characters in memory order; its end stands for a character that is not a
digit. -/
def atol (s : List Char) : Int :=
  match s.dropWhile isspace with
  | [] => 0
  | c :: cs =>
    if c = '-' then - atol_digits cs 0
    else if c = '+' then atol_digits cs 0
    else atol_digits (c :: cs) 0

/-! ## Utilities -/

/-- Loop of `binchars_to_unsigned`; the first counter is `i + 1` for the C
loop variable `i`, which runs from `length - 1` down to `0`. -/
def binchars_to_unsigned_loop (binchars : List Char) (length : Nat) : Nat → Nat → Nat
  | 0, total => total
  | i + 1, total =>
    binchars_to_unsigned_loop binchars length i
      (if binchars.getD i NUL = '1' then total + 2 ^ (length - (i + 1)) else total)

/-- C function `binchars_to_unsigned`: `total += pow(2, length - (i+1))` for
every index `i` holding `'1'`. -/
def binchars_to_unsigned (binchars : List Char) (length : Nat) : Nat :=
  binchars_to_unsigned_loop binchars length length 0

/-- C function `unsigned_to_binchars` for a non-negative `unsigned_int`:
element `length - (i+1)` receives `'1'` when `unsigned_int & (int)pow(2,i)`
is non-zero and `'0'` otherwise. -/
def unsigned_to_binchars (unsigned_int : Nat) (binchars : List Char) (length : Nat) :
    List Char :=
  (List.range length).foldl
    (fun binchars i =>
      binchars.set (length - (i + 1)) (if unsigned_int &&& 2 ^ i ≠ 0 then '1' else '0'))
    binchars

/-- Loop of `binary_to_int`: `while (n != 0)` with state `(n, i, decimal)`.
The first argument bounds the number of iterations; an `int` has at most
10 decimal digits, so 10 iterations always reach `n = 0`. -/
def binary_to_int_loop : Nat → Int → Nat → Int → Int
  | 0, _, _, decimal => decimal
  | fuel + 1, n, i, decimal =>
    if n = 0 then decimal
    else binary_to_int_loop fuel (n.tdiv 10) (i + 1) (decimal + n.tmod 10 * 2 ^ i)

/-- C function `binary_to_int`: reads the decimal digits of `n` as binary
digits. -/
def binary_to_int (n : Int) : Int := binary_to_int_loop 10 n 0 0

/-- C function `char_to_binchars`: the 8 bits of the byte `c`, most
significant first, as characters `'0' + bit`. -/
def char_to_binchars (c : Nat) (binchars : List Char) : List Char :=
  let mask := 1
  let bits := (List.range 8).foldl
    (fun bits i => bits.set (8 - (i + 1)) (if c &&& (mask <<< i) ≠ 0 then 1 else 0))
    (List.replicate 8 0)
  (List.range 8).foldl
    (fun binchars i => binchars.set i (Char.ofNat ('0'.toNat + bits.getD i 0)))
    binchars

/-- C function `chars8_to_binchars`; the fold state is the local buffer
`char8` and the output buffer `binchars64`. -/
def chars8_to_binchars (chars8 : List Nat) (binchars64 : List Char) : List Char :=
  ((List.range 8).foldl
    (fun st i =>
      let char8 := char_to_binchars (chars8.getD i 0) st.1
      (char8, strncpy st.2 (i * 8) char8 8))
    (uninit 8, binchars64)).2

/-- C function `binchars64_to_char8`. The local buffer `bits` has 8
elements and `strncpy` fills all of them, so it holds no terminating
`NUL` and `atol(bits)` reads on into the memory that follows the buffer,
which the function does not control. The parameter `mem` is that memory:
`mem i` lists the characters that follow `bits` during iteration `i`, in
memory order. The value of `atol` passes from `long` to the `int`
parameter of `binary_to_int` unchanged, which is exact while it is below
`2 ^ 31`, in particular while at most two digits follow the buffer. The
conversion `(char)` of the `int` keeps its low 8 bits. -/
def binchars64_to_char8 (binchars64 : List Char) (plain8 : List Nat)
    (mem : Nat → List Char) : List Nat :=
  (List.range 8).foldl
    (fun plain8 i =>
      let bits := strncpy (uninit 8) 0 (binchars64.drop (i * 8)) 8
      let c := (binary_to_int (atol (bits ++ mem i)) % 256).toNat
      plain8.set i c)
    plain8

/-! ## Round key generation -/

/-- C function `perform_key_permutation`: row `i` of `PERMUTED_KEYS`
receives `PC_2` applied to row `i` of `keys`. -/
def perform_key_permutation (keys : List (List Char)) (PERMUTED_KEYS : List (List Char)) :
    List (List Char) :=
  (List.range 16).foldl
    (fun PERMUTED_KEYS i =>
      let permutedKey := (List.range 48).foldl
        (fun permutedKey k =>
          let permutedPosition := PC_2.getD k 0
          permutedKey.set k ((keys.getD i []).getD (permutedPosition - 1) NUL))
        (uninit 48)
      PERMUTED_KEYS.set i (strncpy (PERMUTED_KEYS.getD i []) 0 permutedKey 48))
    PERMUTED_KEYS

/-- C function `perform_first_permutation`; returns the buffers
`left_des_key` and `right_des_key`. -/
def perform_first_permutation (left_des_key right_des_key bin_des_key : List Char) :
    List Char × List Char :=
  let permuted_key := (List.range 56).foldl
    (fun permuted_key i =>
      let permutedPosition := PC_1.getD i 0
      permuted_key.set i (bin_des_key.getD (permutedPosition - 1) NUL))
    (uninit 56)
  (strncpy left_des_key 0 permuted_key 28, strncpy right_des_key 0 (permuted_key.drop 28) 28)

/-- Body of the loop of `generate_keys` for round index `i`: fills row `i`
of `shifted_keys`. -/
def generate_keys_step (bin_left_des_key bin_right_des_key : List Char)
    (shifted_keys : List (List Char)) (i : Nat) : List (List Char) :=
  let shift := LEFT_SHIFTS.getD i 0
  let shiftedKey := uninit 56
  if i = 0 then
    let shiftedKey := strncpy shiftedKey (28 - shift) bin_left_des_key shift
    let shiftedKey := strncpy shiftedKey 0 (bin_left_des_key.drop shift) (28 - shift)
    let shifted_keys := shifted_keys.set i (strncpy (shifted_keys.getD i []) 0 shiftedKey 28)
    let shiftedKey := strncpy shiftedKey (56 - shift) bin_right_des_key shift
    let shiftedKey := strncpy shiftedKey 28 (bin_right_des_key.drop shift) (28 - shift)
    shifted_keys.set i (strncpy (shifted_keys.getD i []) 28 (shiftedKey.drop 28) 28)
  else
    let shiftedKey := strncpy shiftedKey (28 - shift) (shifted_keys.getD (i - 1) []) shift
    let shiftedKey :=
      strncpy shiftedKey 0 ((shifted_keys.getD (i - 1) []).drop shift) (28 - shift)
    let shifted_keys := shifted_keys.set i (strncpy (shifted_keys.getD i []) 0 shiftedKey 28)
    let shiftedKey :=
      strncpy shiftedKey (56 - shift) ((shifted_keys.getD (i - 1) []).drop 28) shift
    let shiftedKey :=
      strncpy shiftedKey 28 ((shifted_keys.getD (i - 1) []).drop (28 + shift)) (28 - shift)
    shifted_keys.set i (strncpy (shifted_keys.getD i []) 28 (shiftedKey.drop 28) 28)

/-- The local array `shifted_keys` of `generate_keys` after its loop. -/
def generate_keys_shifted (des_key : List Nat) : List (List Char) :=
  let binchar_des_key := chars8_to_binchars des_key (uninit 64)
  let halves := perform_first_permutation (uninit 28) (uninit 28) binchar_des_key
  (List.range 16).foldl (generate_keys_step halves.1 halves.2)
    (List.replicate 16 (uninit 56))

/-- C function `generate_keys`: returns the new content of `PERMUTED_KEYS`. -/
def generate_keys (des_key : List Nat) (PERMUTED_KEYS : List (List Char)) :
    List (List Char) :=
  perform_key_permutation (generate_keys_shifted des_key) PERMUTED_KEYS

/-! ## Encryption -/

/-- C function `perform_ip`. -/
def perform_ip (binchars ip_bin_msg : List Char) : List Char :=
  let permuted_msg := (List.range 64).foldl
    (fun permuted_msg i =>
      let permutedPosition := IP.getD i 0
      permuted_msg.set i (binchars.getD (permutedPosition - 1) NUL))
    (uninit 64)
  strncpy ip_bin_msg 0 permuted_msg 64

/-- C function `expand_data_to_48bits`. -/
def expand_data_to_48bits (last_right buf : List Char) (length : Nat) : List Char :=
  (List.range length).foldl
    (fun buf i =>
      let permutedPosition := E.getD i 0
      buf.set i (last_right.getD (permutedPosition - 1) NUL))
    buf

/-- C function `char_xor`. -/
def char_xor (c1 c2 : Char) : Char := if c1 = c2 then '0' else '1'

/-- Body of the S-box loop of `f` for group `i`: stores four characters in
`sBoxed`. -/
def f_sbox_step (xored : List Char) (sBoxed : List Char) (i : Nat) : List Char :=
  let sixBitChunk := strncpy (uninit 6) 0 (xored.drop (i * 6)) 6
  let sRow := [sixBitChunk.getD 0 NUL, sixBitChunk.getD 5 NUL]
  let row := binchars_to_unsigned sRow 2
  let sCols := [sixBitChunk.getD 1 NUL, sixBitChunk.getD 2 NUL, sixBitChunk.getD 3 NUL,
    sixBitChunk.getD 4 NUL]
  let cols := binchars_to_unsigned sCols 4
  let sValInt := (S.getD i []).getD (row * 16 + cols) 0
  let sValBinChar := unsigned_to_binchars sValInt (uninit 4) 4
  strncpy sBoxed (i * 4) sValBinChar 4

/-- C function `f`: reads row `round` of `PERMUTED_KEYS` and returns the
buffer `fOutput`. -/
def f (PERMUTED_KEYS : List (List Char)) (fOutput last_right : List Char) (round : Nat) :
    List Char :=
  let expaded_data_chunk := expand_data_to_48bits last_right (uninit 48) 48
  let xored := (List.range 48).foldl
    (fun xored i =>
      xored.set i
        (char_xor (expaded_data_chunk.getD i NUL) ((PERMUTED_KEYS.getD round []).getD i NUL)))
    (uninit 48)
  let sBoxed := (List.range 8).foldl (f_sbox_step xored) (uninit 32)
  (List.range 32).foldl
    (fun fOutput i =>
      let permutedPosition := P.getD i 0
      fOutput.set i (sBoxed.getD (permutedPosition - 1) NUL))
    fOutput

/-- Body of the round loop of `crypt` for index `i`; the state is the pair
of buffers `(left, right)`. -/
def crypt_step (PERMUTED_KEYS : List (List Char)) (binchar_msg : List Char)
    (st : List Char × List Char) (i : Nat) : List Char × List Char :=
  if i = 0 then
    let ip_binchars := perform_ip binchar_msg (uninit 64)
    let l0 := strncpy (uninit 32) 0 ip_binchars 32
    let r0 := strncpy (uninit 32) 0 (ip_binchars.drop 32) 32
    let l1 := strncpy (uninit 32) 0 r0 32
    let fResult := f PERMUTED_KEYS (uninit 32) r0 i
    let r1 := (List.range 32).foldl
      (fun r1 z => r1.set z (char_xor (l0.getD z NUL) (fResult.getD z NUL))) (uninit 32)
    (strncpy st.1 0 l1 32, strncpy st.2 0 r1 32)
  else
    let l := strncpy (uninit 32) 0 st.2 32
    let fResult := f PERMUTED_KEYS (uninit 32) st.2 i
    let r := (List.range 32).foldl
      (fun r z => r.set z (char_xor (st.1.getD z NUL) (fResult.getD z NUL))) (uninit 32)
    (strncpy st.1 0 l 32, strncpy st.2 0 r 32)

/-- The 64-character buffer `final_chunk` that `crypt` hands to
`binchars64_to_char8`. -/
def crypt_final_chunk (PERMUTED_KEYS : List (List Char)) (msg : List Nat) : List Char :=
  let binchar_msg := chars8_to_binchars msg (uninit 64)
  let st := (List.range 16).foldl (crypt_step PERMUTED_KEYS binchar_msg)
    (uninit 32, uninit 32)
  let concatenated_chunk := strncpy (uninit 64) 0 st.2 32
  let concatenated_chunk := strncpy concatenated_chunk 32 st.1 32
  (List.range 64).foldl
    (fun final_chunk i =>
      let permutedPosition := IP_REVERSED.getD i 0
      final_chunk.set i (concatenated_chunk.getD (permutedPosition - 1) NUL))
    (uninit 64)

/-- C function `crypt`: returns the buffer `plain`; `mem` is the memory that
`binchars64_to_char8` reads past its buffer. -/
def crypt (PERMUTED_KEYS : List (List Char)) (msg : List Nat) (plain : List Nat)
    (mem : Nat → List Char) : List Nat :=
  binchars64_to_char8 (crypt_final_chunk PERMUTED_KEYS msg) plain mem

/-- Loop of `reverse_keys`: `while (start < end)` swapping rows `start` and
`end` through `temp`. The first argument bounds the number of iterations;
from `start = 0` and `end = 15` the loop body runs 8 times. -/
def reverse_keys_loop : Nat → Nat → Nat → List (List Char) → List (List Char)
  | 0, _, _, PERMUTED_KEYS => PERMUTED_KEYS
  | fuel + 1, start, end_, PERMUTED_KEYS =>
    if start < end_ then
      let temp := strncpy (uninit 48) 0 (PERMUTED_KEYS.getD start []) 48
      let PERMUTED_KEYS := PERMUTED_KEYS.set start
        (strncpy (PERMUTED_KEYS.getD start []) 0 (PERMUTED_KEYS.getD end_ []) 48)
      let PERMUTED_KEYS := PERMUTED_KEYS.set end_
        (strncpy (PERMUTED_KEYS.getD end_ []) 0 temp 48)
      reverse_keys_loop fuel (start + 1) (end_ - 1) PERMUTED_KEYS
    else PERMUTED_KEYS

/-- C function `reverse_keys`. -/
def reverse_keys (PERMUTED_KEYS : List (List Char)) : List (List Char) :=
  reverse_keys_loop 8 0 15 PERMUTED_KEYS

/-- C function `crypt_chunk`: returns the buffer `result` and the content
of `PERMUTED_KEYS` it leaves behind; `mem` is the memory that
`binchars64_to_char8` reads past its buffer during this call. -/
def crypt_chunk (text_8chars key_8chars : List Nat) (enorde : Char) (result : List Nat)
    (PERMUTED_KEYS : List (List Char)) (mem : Nat → List Char) :
    List Nat × List (List Char) :=
  let PERMUTED_KEYS := generate_keys key_8chars PERMUTED_KEYS
  let PERMUTED_KEYS := if enorde = 'd' then reverse_keys PERMUTED_KEYS else PERMUTED_KEYS
  (crypt PERMUTED_KEYS text_8chars result mem, PERMUTED_KEYS)

/-! ## Specification-level functions

The functions below restate the steps of the cipher as operations on whole
bit vectors; the theorems relate the C functions above to them. -/

/-- The buffer `v` holds only the characters `'0'` and `'1'`. -/
def Bits (v : List Char) : Prop := ∀ c ∈ v, c = '0' ∨ c = '1'

instance (v : List Char) : Decidable (Bits v) := by
  unfold Bits
  infer_instance

/-- The global array has 16 rows of 48 characters. -/
def KeysShape (PERMUTED_KEYS : List (List Char)) : Prop :=
  PERMUTED_KEYS.length = 16 ∧ ∀ row ∈ PERMUTED_KEYS, row.length = 48

instance (pk : List (List Char)) : Decidable (KeysShape pk) := by
  unfold KeysShape
  infer_instance

/-- An 8-byte key or data block: 8 values below 256. -/
def Bytes8 (b : List Nat) : Prop := b.length = 8 ∧ ∀ x ∈ b, x < 256

instance (b : List Nat) : Decidable (Bytes8 b) := by
  unfold Bytes8
  infer_instance

/-- The character of a bit. -/
def bit_char (b : Bool) : Char := if b then '1' else '0'

/-- Selection through a permutation table: output position `i` takes the
source element at the 1-based position `table[i]`. -/
def select (table : List Nat) (src : List Char) : List Char :=
  table.map (fun p => src.getD (p - 1) NUL)

/-- Element-wise exclusive or of two bit vectors. -/
def xor_bits (a b : List Char) : List Char := List.zipWith char_xor a b

/-- The unsigned big-endian value of a bit vector. -/
def bits_value (v : List Char) : Nat :=
  v.foldl (fun acc c => 2 * acc + (if c = '1' then 1 else 0)) 0

/-- The `n`-bit big-endian encoding of `x`, most significant bit first. -/
def value_bits (n x : Nat) : List Char :=
  (List.range n).map (fun i => bit_char (x.testBit (n - 1 - i)))

/-- The bits of a byte sequence, each byte most significant bit first. -/
def bytes_bits (bs : List Nat) : List Char := (bs.map (value_bits 8)).flatten

/-- The 8 bytes of a 64-bit vector: each group of 8 bits is one byte, most
significant bit first. -/
def bits_bytes (v : List Char) : List Nat :=
  (List.range 8).map (fun i => bits_value ((v.drop (8 * i)).take 8))

/-- The 4 output bits of S-box `i` for the 48-bit vector `x`: group `i` is
elements `6i .. 6i+5` of `x`; its first and last bits form the row, its
middle four bits the column; the entry `S[i][row*16+col]` is encoded
big-endian on 4 bits. -/
def sbox_bits (x : List Char) (i : Nat) : List Char :=
  let g := (x.drop (6 * i)).take 6
  let row := bits_value [g.getD 0 NUL, g.getD 5 NUL]
  let col := bits_value [g.getD 1 NUL, g.getD 2 NUL, g.getD 3 NUL, g.getD 4 NUL]
  value_bits 4 ((S.getD i []).getD (row * 16 + col) 0)

/-- The round function as the specification words it: expand `R` through
`E`, exclusive-or with the round key `K`, substitute the eight 6-bit
groups, concatenate in group order, permute through `P`. -/
def spec_f (R K : List Char) : List Char :=
  select P ((List.range 8).map (sbox_bits (xor_bits (select E R) K))).flatten

/-- The halves `(L_n, R_n)` of the specification: `(L_0, R_0)` is given and
`L_n = R_(n-1)`, `R_n = L_(n-1) XOR F (n-1) R_(n-1)`, where `F k` is the
round function with the round key of index `k`. -/
def spec_rounds (F : Nat → List Char → List Char) (LR0 : List Char × List Char) :
    Nat → List Char × List Char
  | 0 => LR0
  | n + 1 =>
    ((spec_rounds F LR0 n).2,
      xor_bits (spec_rounds F LR0 n).1 (F n (spec_rounds F LR0 n).2))

/-- The 64 bits that the driver of the specification produces, before they
are grouped into bytes: `IP`, split into `L_0` and `R_0`, 16 rounds,
`IP^-1` applied to `R_16` followed by `L_16`. -/
def spec_crypt_bits (F : Nat → List Char → List Char) (block : List Nat) : List Char :=
  let ip := select IP (bytes_bits block)
  let LR := spec_rounds F (ip.take 32, ip.drop 32) 16
  select IP_REVERSED (LR.2 ++ LR.1)

/-- The block cipher driver of the specification for the round function
family `F`: `IP`, split into `L_0` and `R_0`, 16 rounds, `IP^-1` applied
to `R_16` followed by `L_16`, and the bytes of the result. -/
def spec_crypt (F : Nat → List Char → List Char) (block : List Nat) : List Nat :=
  let ip := select IP (bytes_bits block)
  let LR := spec_rounds F (ip.take 32, ip.drop 32) 16
  bits_bytes (select IP_REVERSED (LR.2 ++ LR.1))

/-- Round key `n` (from 1 to 16) of the specification: `PC_2` applied to
`C_n` followed by `D_n`, where `C_0` and `D_0` are the halves of `PC_1`
applied to the key bits and `C_n`, `D_n` are `C_0`, `D_0` rotated left by
`LEFT_SHIFTS[0] + ... + LEFT_SHIFTS[n-1]` positions. -/
def spec_round_key (key : List Nat) (n : Nat) : List Char :=
  let cd := select PC_1 (bytes_bits key)
  let r := (LEFT_SHIFTS.take n).sum
  select PC_2 ((cd.take 28).rotate r ++ (cd.drop 28).rotate r)

/-- The 16 round keys of the specification in forward order. -/
def spec_keys (key : List Nat) : List (List Char) :=
  (List.range 16).map (fun i => spec_round_key key (i + 1))

/-! ## Internals of `f` named for the range properties -/

/-- The local buffer `xored` of `f`: the expansion of `last_right`
combined by `char_xor` with row `round` of `PERMUTED_KEYS`. -/
def f_xored (PERMUTED_KEYS : List (List Char)) (last_right : List Char) (round : Nat) :
    List Char :=
  let expaded_data_chunk := expand_data_to_48bits last_right (uninit 48) 48
  (List.range 48).foldl
    (fun xored i =>
      xored.set i
        (char_xor (expaded_data_chunk.getD i NUL) ((PERMUTED_KEYS.getD round []).getD i NUL)))
    (uninit 48)

/-- The local `row` of `f` for group `i` of the buffer `xored`. -/
def f_row (xored : List Char) (i : Nat) : Nat :=
  let sixBitChunk := strncpy (uninit 6) 0 (xored.drop (i * 6)) 6
  binchars_to_unsigned [sixBitChunk.getD 0 NUL, sixBitChunk.getD 5 NUL] 2

/-- The local `cols` of `f` for group `i` of the buffer `xored`. -/
def f_cols (xored : List Char) (i : Nat) : Nat :=
  let sixBitChunk := strncpy (uninit 6) 0 (xored.drop (i * 6)) 6
  binchars_to_unsigned
    [sixBitChunk.getD 1 NUL, sixBitChunk.getD 2 NUL, sixBitChunk.getD 3 NUL,
      sixBitChunk.getD 4 NUL] 4

/-- The local `sValInt` of `f` for group `i` of the buffer `xored`. -/
def f_sValInt (xored : List Char) (i : Nat) : Nat :=
  (S.getD i []).getD (f_row xored i * 16 + f_cols xored i) 0

/-! ## Notions used to state the properties -/

/-- The characters do not start with a decimal digit. -/
def no_digit_first : List Char → Bool
  | [] => true
  | c :: _ => !(decide (48 ≤ c.toNat) && decide (c.toNat ≤ 57))

/-- In none of the 8 iterations of `binchars64_to_char8` does a decimal
digit follow the buffer `bits` in memory, so `atol` reads the 8 characters
of the buffer and no more. -/
def NoDigitAfter (mem : Nat → List Char) : Prop := ∀ i < 8, no_digit_first (mem i) = true

instance (mem : Nat → List Char) : Decidable (NoDigitAfter mem) := by
  unfold NoDigitAfter
  infer_instance

/-- The memory that follows the buffer `bits` of `binchars64_to_char8` in
a stack frame that places the variable `c` and then the counter `i` right
after the buffer, as gcc without optimisation does on x86-64 (`bits` at
`-13(%rbp)`, `c` at `-5(%rbp)`, `i` at `-4(%rbp)`). In iteration `i` the
buffer is followed by the byte that the previous iteration stored in `c`,
which is element `i - 1` of the result `out`, and by the low byte of `i`,
which is not a digit; in iteration 0 the variable `c` still holds the byte
`c0` that earlier calls left in its place. A result `out` of the function
in this frame is one that the function returns when the memory is
`frame_mem c0 out`; the arguments and `c0` determine it
(`frame_mem_result_unique`). -/
def frame_mem (c0 : Nat) (out : List Nat) (i : Nat) : List Char :=
  [Char.ofNat (if i = 0 then c0 else out.getD (i - 1) 0), Char.ofNat i]

/-- The bitwise complement of every byte of a byte sequence. -/
def complement (b : List Nat) : List Nat := b.map (fun x => x ^^^ 255)

/-- The complement of a bit vector: `char_xor` of every element with
`'1'`. -/
def not_bits (v : List Char) : List Char := v.map (fun c => char_xor c '1')

/-- The key and the plain text of the demonstration in `main`:
`"12345678"` and `"abcdefgh"` as ASCII codes. -/
def main_key : List Nat := [49, 50, 51, 52, 53, 54, 55, 56]

/-- The plain text of the demonstration in `main`. -/
def main_msg : List Nat := [97, 98, 99, 100, 101, 102, 103, 104]

/-! ## The cipher on numbers

The same steps on bit vectors coded as natural numbers (the vector of
`w` bits is the number with these binary digits, most significant first).
The theorems prove that these functions compute what the C functions
compute; they are used to evaluate the cipher on given inputs. -/

/-- Selection through a table on a `w`-bit number: the accumulator takes
the bits `x / 2 ^ (w - p) % 2` for the positions `p` of the table in
order, `2 * acc + bit` at each step. The arithmetic is written with the
functions `Nat.add`, `Nat.mul`, ... in place of the operators, which
evaluates in fewer steps. -/
def sel_nat (table : List Nat) (w x : Nat) : Nat :=
  table.foldl
    (fun acc p => Nat.add (Nat.mul 2 acc) (Nat.mod (Nat.div x (Nat.pow 2 (Nat.sub w p))) 2)) 0

/-- The rows of table `S` packed as numbers: entry `j` of a row is the
hexadecimal digit of weight `16 ^ j`. -/
def S_packed : List Nat :=
  [96814189655599097371620687601712398328400515539666476879888019367286728170830,
   71608154177466914389989178919092594298762283461946449529719338485381135263775,
   87909910207248203443167647891690555366892194121486108134150201164509176326410,
   102443044014875483921328005256624997924877251524471695727959717713836221939415,
   24104328163535878004496751823396251442047304243963260658256677660334368429250,
   97710962627765439902155343210265982743761516834058903869867576468826613217820,
   88283939270150301278005201776787786734099818343391435244785816680372114547380,
   82467654467772293076264131316473627089544887645478777826194140544751042447405]

/-- The S-box output of group `i` of the 48-bit number `x`, read from
`S_packed`. -/
def sbox_nat (x i : Nat) : Nat :=
  let g := x / 2 ^ (6 * (7 - i)) % 64
  S_packed.getD i 0 / 16 ^ ((g / 32 * 2 + g % 2) * 16 + g / 2 % 16) % 16

/-- The round function on numbers. -/
def f_nat (R K : Nat) : Nat :=
  sel_nat P 32
    ((List.range 8).foldl (fun acc i => 16 * acc + sbox_nat (sel_nat E 32 R ^^^ K) i) 0)

/-- The rounds for the given list of round keys on a pair of halves. -/
def rounds_nat (keys : List Nat) (LR : Nat × Nat) : Nat × Nat :=
  keys.foldl (fun LR K => (LR.2, LR.1 ^^^ f_nat LR.2 K)) LR

/-- The block cipher driver on numbers. -/
def crypt_nat (keys : List Nat) (block : Nat) : Nat :=
  let ip := sel_nat IP 64 block
  let LR := rounds_nat keys (ip / 2 ^ 32, ip % 2 ^ 32)
  sel_nat IP_REVERSED 64 (LR.2 * 2 ^ 32 + LR.1 % 2 ^ 32)

/-- Left rotation of a 28-bit number by `r` positions, `r` at most 28. -/
def rotl28 (x r : Nat) : Nat := x % 2 ^ (28 - r) * 2 ^ r + x / 2 ^ (28 - r)

/-- Round key `n` (from 1 to 16) on numbers. -/
def round_key_nat (key n : Nat) : Nat :=
  let cd := sel_nat PC_1 64 key
  let r := (LEFT_SHIFTS.take n).sum
  sel_nat PC_2 56 (rotl28 (cd / 2 ^ 28) r * 2 ^ 28 + rotl28 (cd % 2 ^ 28) r)

/-- The 16 round keys on numbers. -/
def keys_nat (key : Nat) : List Nat :=
  (List.range 16).map (fun i => round_key_nat key (i + 1))

/-- The number coded by a byte sequence, first byte most significant. -/
def bytes_nat (b : List Nat) : Nat := b.foldl (fun acc x => 256 * acc + x) 0

/-- The 8 bytes of a 64-bit number, most significant first. -/
def nat_bytes (x : Nat) : List Nat :=
  (List.range 8).map (fun i => x / 2 ^ (8 * (7 - i)) % 256)

/-! # Theorems -/

/-! ## Loops that fill a buffer -/

theorem foldl_set_range {α : Type} (g : Nat → α) (n : Nat) (init : List α)
    (h : n ≤ init.length) :
    (List.range n).foldl (fun buf i => buf.set i (g i)) init
      = (List.range n).map g ++ init.drop n := by
  induction n with
  | zero => simp
  | succ n ih =>
    have hn : n < init.length := by omega
    rw [List.range_succ, List.foldl_append, ih (by omega)]
    simp only [List.foldl_cons, List.foldl_nil, List.map_append, List.map_cons, List.map_nil]
    rw [List.set_append_right _ _ (by simp)]
    simp only [List.length_map, List.length_range, Nat.sub_self]
    rw [List.drop_eq_getElem_cons hn, List.set_cons_zero, List.append_assoc]
    rfl

theorem foldl_set_range_full {α : Type} (g : Nat → α) (n : Nat) (init : List α)
    (h : init.length = n) :
    (List.range n).foldl (fun buf i => buf.set i (g i)) init = (List.range n).map g := by
  rw [foldl_set_range g n init (by omega)]
  simp [← h]

/-- A loop storing at the mirrored index `n - (i + 1)` fills the buffer in
reverse order. -/
theorem foldl_set_range_rev_aux {α : Type} (g : Nat → α) (n : Nat) (init : List α)
    (h : init.length = n) (k : Nat) (hk : k ≤ n) :
    (List.range k).foldl (fun buf i => buf.set (n - (i + 1)) (g i)) init
      = init.take (n - k) ++ ((List.range k).map g).reverse := by
  induction k with
  | zero => simp [← h]
  | succ k ih =>
    rw [List.range_succ, List.foldl_append, ih (by omega)]
    simp only [List.foldl_cons, List.foldl_nil, List.map_append, List.map_cons, List.map_nil,
      List.reverse_append, List.reverse_cons, List.reverse_nil, List.nil_append,
      List.singleton_append]
    have hlen : (init.take (n - k)).length = n - k := by simp [h]
    rw [List.set_append_left _ _ (by omega)]
    have h1 : n - k = (n - (k + 1)) + 1 := by omega
    have hlt : n - (k + 1) < init.length := by omega
    rw [h1, List.take_succ, List.getElem?_eq_getElem hlt]
    simp only [Option.toList, List.set_append_right _ _ (show (List.take (n - (k + 1)) init).length ≤ n - (k + 1) by simp)]
    simp [List.length_take, h, Nat.min_eq_left (show n - (k+1) ≤ n by omega)]

theorem foldl_set_range_rev {α : Type} (g : Nat → α) (n : Nat) (init : List α)
    (h : init.length = n) :
    (List.range n).foldl (fun buf i => buf.set (n - (i + 1)) (g i)) init
      = ((List.range n).map g).reverse := by
  rw [foldl_set_range_rev_aux g n init h n (le_refl n)]
  simp

theorem and_two_pow_ne_zero (x i : Nat) : (x &&& 2 ^ i ≠ 0) ↔ x.testBit i = true := by
  rw [Nat.and_two_pow]
  cases x.testBit i <;> simp

theorem value_bits_eq_reverse (n x : Nat) :
    value_bits n x = ((List.range n).map (fun i => bit_char (x.testBit i))).reverse := by
  apply List.ext_getElem
  · simp [value_bits]
  · intro i h1 h2
    simp [value_bits] at h1
    simp [value_bits, List.getElem_reverse]

theorem unsigned_to_binchars_eq (x : Nat) (buf : List Char) (n : Nat) (h : buf.length = n) :
    unsigned_to_binchars x buf n = value_bits n x := by
  unfold unsigned_to_binchars
  rw [foldl_set_range_rev _ n buf h, value_bits_eq_reverse]
  congr 1
  apply List.map_congr_left
  intro i _
  by_cases hb : x.testBit i = true
  · simp [hb, bit_char, (and_two_pow_ne_zero x i).2 hb]
  · have : ¬ (x &&& 2 ^ i ≠ 0) := fun hc => hb ((and_two_pow_ne_zero x i).1 hc)
    simp only [this, if_false]
    simp [bit_char, hb]

theorem map_range_getD {α β : Type} (l : List α) (d : α) (h : α → β) :
    (List.range l.length).map (fun i => h (l.getD i d)) = l.map h := by
  apply List.ext_getElem
  · simp
  · intro n h1 h2
    simp at h1
    simp [List.getD_eq_getElem, h1]

theorem strncpy_chars_take (src : List Char) (n : Nat) (hn : n ≤ src.length)
    (h : ∀ c ∈ src.take n, c ≠ NUL) : strncpy_chars src n = src.take n := by
  induction n generalizing src with
  | zero => simp [strncpy_chars]
  | succ n ih =>
    cases src with
    | nil => simp at hn
    | cons c cs =>
      simp only [List.take_succ_cons, List.mem_cons, forall_eq_or_imp] at h
      simp only [strncpy_chars, h.1, if_false, List.take_succ_cons]
      rw [ih cs (by simpa using hn) h.2]

theorem Bits.ne_NUL {v : List Char} (h : Bits v) : ∀ c ∈ v, c ≠ NUL := by
  intro c hc
  rcases h c hc with rfl | rfl <;> decide

/-! ## Bit vectors and their values -/

theorem Bits.append {a b : List Char} (ha : Bits a) (hb : Bits b) : Bits (a ++ b) := by
  intro c hc
  rcases List.mem_append.1 hc with h | h
  · exact ha c h
  · exact hb c h

theorem Bits.take {a : List Char} (ha : Bits a) (n : Nat) : Bits (a.take n) :=
  fun c hc => ha c (List.mem_of_mem_take hc)

theorem Bits.drop {a : List Char} (ha : Bits a) (n : Nat) : Bits (a.drop n) :=
  fun c hc => ha c (List.mem_of_mem_drop hc)

theorem bit_char_bit (b : Bool) : bit_char b = '0' ∨ bit_char b = '1' := by
  cases b <;> simp [bit_char]

theorem Bits_value_bits (n x : Nat) : Bits (value_bits n x) := by
  intro c hc
  simp only [value_bits, List.mem_map] at hc
  obtain ⟨i, _, rfl⟩ := hc
  exact bit_char_bit _

theorem length_value_bits (n x : Nat) : (value_bits n x).length = n := by
  simp [value_bits]

theorem bits_value_append_singleton (l : List Char) (c : Char) :
    bits_value (l ++ [c]) = 2 * bits_value l + (if c = '1' then 1 else 0) := by
  simp [bits_value, List.foldl_append]

theorem value_bits_succ (n y : Nat) :
    value_bits (n + 1) y = value_bits n (y / 2) ++ [bit_char (y.testBit 0)] := by
  unfold value_bits
  rw [List.range_succ, List.map_append]
  congr 1
  · apply List.map_congr_left
    intro i hi
    have hi : i < n := List.mem_range.1 hi
    have : n + 1 - 1 - i = (n - 1 - i) + 1 := by omega
    rw [this, Nat.testBit_succ]
  · simp

/-- Decoding the `n`-bit encoding of `x` gives `x` modulo `2 ^ n`. -/
theorem bits_value_value_bits (n x : Nat) : bits_value (value_bits n x) = x % 2 ^ n := by
  induction n generalizing x with
  | zero => simp [value_bits, bits_value, Nat.mod_one]
  | succ n ih =>
    rw [value_bits_succ, bits_value_append_singleton, ih, pow_succ, Nat.mul_comm (2 ^ n) 2,
      Nat.mod_mul]
    have : (if bit_char (x.testBit 0) = '1' then 1 else 0) = x % 2 := by
      rw [Nat.testBit_zero]
      rcases Nat.mod_two_eq_zero_or_one x with h | h <;> simp [h, bit_char]
    omega

/-- Encoding the value of a bit vector at its own length gives it back. -/
theorem value_bits_bits_value (v : List Char) (hv : Bits v) :
    value_bits v.length (bits_value v) = v := by
  induction v using List.reverseRecOn with
  | nil => simp [value_bits]
  | append_singleton l c ih =>
    have hl : Bits l := fun d hd => hv d (List.mem_append_left _ hd)
    have hc : c = '0' ∨ c = '1' := hv c (by simp)
    rw [List.length_append, List.length_singleton, value_bits_succ,
      bits_value_append_singleton]
    have h1 : (2 * bits_value l + (if c = '1' then 1 else 0)) / 2 = bits_value l := by
      split <;> omega
    have h2 : bit_char ((2 * bits_value l + (if c = '1' then 1 else 0)).testBit 0) = c := by
      rw [Nat.testBit_zero]
      rcases hc with rfl | rfl
      · have : (2 * bits_value l + (if ('0' : Char) = '1' then 1 else 0)) % 2 = 0 := by
          simp
        rw [this]
        simp [bit_char]
      · have : (2 * bits_value l + (if ('1' : Char) = '1' then 1 else 0)) % 2 = 1 := by
          simp
          omega
        rw [this]
        simp [bit_char]
    rw [h1, h2, ih hl]

/-! ## `binchars_to_unsigned` and `unsigned_to_binchars` -/

theorem binchars_to_unsigned_loop_eq (v : List Char) (n k total : Nat) (hk : k ≤ n)
    (hn : v.length = n) :
    binchars_to_unsigned_loop v n k total = total + bits_value (v.take k) * 2 ^ (n - k) := by
  induction k generalizing total with
  | zero => simp [binchars_to_unsigned_loop, bits_value]
  | succ k ih =>
    have hlt : k < v.length := by omega
    rw [binchars_to_unsigned_loop, ih _ (by omega), List.take_succ,
      List.getElem?_eq_getElem hlt]
    simp only [Option.toList, bits_value_append_singleton, List.getD_eq_getElem _ _ hlt]
    have hp : 2 ^ (n - k) = 2 * 2 ^ (n - (k + 1)) := by
      rw [← pow_succ']
      congr 1
      omega
    rw [hp]
    split <;> ring

theorem binchars_to_unsigned_eq (v : List Char) (n : Nat) (hn : v.length = n) :
    binchars_to_unsigned v n = bits_value v := by
  unfold binchars_to_unsigned
  rw [binchars_to_unsigned_loop_eq v n n 0 (le_refl n) hn, ← hn]
  simp

/-! ## The byte codec -/

theorem char_ofNat_bit (b : Bool) : Char.ofNat ('0'.toNat + (if b = true then 1 else 0)) = bit_char b := by
  cases b <;> rfl

theorem char_to_binchars_eq (c : Nat) (buf : List Char) (h : buf.length = 8) :
    char_to_binchars c buf = value_bits 8 c := by
  unfold char_to_binchars
  simp only []
  rw [foldl_set_range_full _ 8 buf h, foldl_set_range_rev _ 8 _ (by simp), value_bits]
  apply List.map_congr_left
  intro i hi
  have hi : i < 8 := List.mem_range.1 hi
  rw [← char_ofNat_bit]
  congr 2
  rw [List.getD_eq_getElem _ _ (by simpa using hi)]
  simp only [List.getElem_reverse, List.getElem_map, List.getElem_range, List.length_map,
    List.length_range, Nat.one_shiftLeft]
  by_cases hb : c.testBit (8 - 1 - i) = true
  · simp [hb, (and_two_pow_ne_zero c _).2 hb]
  · have : ¬ (c &&& 2 ^ (8 - 1 - i) ≠ 0) := fun hc => hb ((and_two_pow_ne_zero c _).1 hc)
    simp only [this, if_false]
    simp [hb]

/-! ## `strncpy` on bit buffers -/

theorem strncpy_eq_store (dst : List Char) (off : Nat) (src : List Char) (n : Nat)
    (hn : n ≤ src.length) (h : Bits (src.take n)) :
    strncpy dst off src n = store dst off (src.take n) := by
  unfold strncpy
  rw [strncpy_chars_take src n hn h.ne_NUL]

theorem store_zero_full (dst data : List Char) (h : dst.length = data.length) :
    store dst 0 data = data := by
  simp [store, ← h]

theorem length_store (dst : List Char) (off : Nat) (data : List Char)
    (h : off + data.length ≤ dst.length) : (store dst off data).length = dst.length := by
  simp [store]
  omega

theorem store_append (a rest data : List Char) :
    store (a ++ rest) a.length data = a ++ data ++ rest.drop data.length := by
  simp [store]

/-- Copying a whole bit buffer over a buffer of the same length. -/
theorem strncpy_full (dst src : List Char) (n : Nat) (hd : dst.length = n)
    (hs : src.length = n) (h : Bits src) : strncpy dst 0 src n = src := by
  rw [strncpy_eq_store _ _ _ _ (by omega) (h.take n), store_zero_full]
  · simp [← hs]
  · simp [hd, hs]

/-- Copying the first `n` characters of a bit buffer into a buffer of
length `n`. -/
theorem strncpy_head (dst src : List Char) (n : Nat) (hd : dst.length = n)
    (hs : n ≤ src.length) (h : Bits (src.take n)) : strncpy dst 0 src n = src.take n := by
  rw [strncpy_eq_store _ _ _ _ hs h, store_zero_full]
  simp [hd, hs]

theorem length_uninit (n : Nat) : (uninit n).length = n := by
  simp [uninit]

theorem length_bytes_bits (bs : List Nat) : (bytes_bits bs).length = 8 * bs.length := by
  induction bs with
  | nil => simp [bytes_bits]
  | cons b bs ih =>
    simp only [bytes_bits, List.map_cons, List.flatten_cons, List.length_append,
      length_value_bits, List.length_cons] at ih ⊢
    rw [ih]
    ring

theorem Bits_bytes_bits (bs : List Nat) : Bits (bytes_bits bs) := by
  induction bs with
  | nil => intro c hc; simp [bytes_bits] at hc
  | cons b bs ih =>
    simp only [bytes_bits, List.map_cons, List.flatten_cons] at ih ⊢
    exact (Bits_value_bits 8 b).append ih

theorem bytes_bits_append (a b : List Nat) : bytes_bits (a ++ b) = bytes_bits a ++ bytes_bits b := by
  simp [bytes_bits]

theorem chars8_to_binchars_aux (chars8 : List Nat) (buf : List Char)
    (hc : chars8.length = 8) (k : Nat) (hk : k ≤ 8) :
    (List.range k).foldl
      (fun (st : List Char × List Char) i =>
        (char_to_binchars (chars8.getD i 0) st.1,
          strncpy st.2 (i * 8) (char_to_binchars (chars8.getD i 0) st.1) 8))
      (uninit 8, buf)
    = (if k = 0 then uninit 8 else value_bits 8 (chars8.getD (k - 1) 0),
        bytes_bits (chars8.take k) ++ buf.drop (8 * k)) := by
  induction k with
  | zero => simp [bytes_bits]
  | succ k ih =>
    rw [List.range_succ, List.foldl_append, ih (by omega)]
    have hl : (if k = 0 then uninit 8 else value_bits 8 (chars8.getD (k - 1) 0)).length = 8 := by
      split
      · exact length_uninit 8
      · exact length_value_bits 8 _
    have hlt : k < chars8.length := by omega
    simp only [List.foldl_cons, List.foldl_nil, char_to_binchars_eq _ _ hl, Nat.add_sub_cancel,
      Nat.succ_ne_zero, if_false]
    congr 1
    rw [strncpy_eq_store _ _ _ _ (by simp [length_value_bits]) ((Bits_value_bits 8 _).take 8)]
    have hlen : (bytes_bits (chars8.take k)).length = k * 8 := by
      rw [length_bytes_bits, List.length_take]
      omega
    have h8 : List.take 8 (value_bits 8 (chars8.getD k 0)) = value_bits 8 (chars8.getD k 0) := by
      rw [List.take_of_length_le]
      simp [length_value_bits]
    have ht : chars8.take (k + 1) = chars8.take k ++ [chars8.getD k 0] := by
      rw [List.take_succ, List.getElem?_eq_getElem hlt, List.getD_eq_getElem _ _ hlt]
      rfl
    rw [h8, ← hlen, store_append, ht, bytes_bits_append]
    simp [bytes_bits, length_value_bits, List.drop_drop, Nat.mul_succ]

theorem chars8_to_binchars_eq (chars8 : List Nat) (buf : List Char) (hb : buf.length = 64)
    (hc : chars8.length = 8) : chars8_to_binchars chars8 buf = bytes_bits chars8 := by
  unfold chars8_to_binchars
  rw [chars8_to_binchars_aux chars8 buf hc 8 (le_refl 8)]
  simp only []
  rw [List.take_of_length_le (by omega), List.drop_of_length_le (by omega)]
  simp

theorem bits_value_lt (v : List Char) (hv : Bits v) : bits_value v < 2 ^ v.length := by
  have h := bits_value_value_bits v.length (bits_value v)
  rw [value_bits_bits_value v hv] at h
  rw [h]
  exact Nat.mod_lt _ (by positivity)

/-! ## `atol` on a buffer without terminator -/

set_option maxRecDepth 100000 in
theorem byte_of_value_bits :
    ∀ x < 256, (binary_to_int (atol (value_bits 8 x)) % 256).toNat = x := by
  decide!

/-- When no digit follows, the digit loop reads the bit characters `w`
and stops. -/
theorem atol_digits_append (w t : List Char) (hw : Bits w) (ht : no_digit_first t = true)
    (acc : Int) : atol_digits (w ++ t) acc = atol_digits w acc := by
  induction w generalizing acc with
  | nil =>
    cases t with
    | nil => rfl
    | cons c t =>
      have hc : ¬ (48 ≤ c.toNat ∧ c.toNat ≤ 57) := by
        simp only [no_digit_first, Bool.not_eq_true', Bool.and_eq_false_iff,
          decide_eq_false_iff_not] at ht
        intro h
        rcases ht with h1 | h1
        · exact h1 h.1
        · exact h1 h.2
      simp only [List.nil_append, atol_digits, hc, if_false]
  | cons c w ih =>
    have hw2 : Bits w := fun d hd => hw d (List.mem_cons_of_mem _ hd)
    have hc : 48 ≤ c.toNat ∧ c.toNat ≤ 57 := by
      rcases hw c (List.mem_cons_self _ _) with rfl | rfl <;> decide
    simp only [List.cons_append, atol_digits, hc, and_self, if_true]
    exact ih hw2 _

/-- When no digit follows the bit characters `w`, `atol` on the memory
`w ++ t` reads `w` and no more. -/
theorem atol_append (w t : List Char) (hw : Bits w) (hne : w ≠ [])
    (ht : no_digit_first t = true) : atol (w ++ t) = atol w := by
  cases w with
  | nil => exact absurd rfl hne
  | cons c w =>
    have hd := atol_digits_append (c :: w) t hw ht 0
    rcases hw c (List.mem_cons_self _ _) with rfl | rfl
    · have h1 : isspace '0' = false := by decide
      have h2 : ¬ ('0' = '-') := by decide
      have h3 : ¬ ('0' = '+') := by decide
      simp only [atol, List.cons_append, List.dropWhile_cons, h1, h2, h3, if_false,
        Bool.false_eq_true]
      exact hd
    · have h1 : isspace '1' = false := by decide
      have h2 : ¬ ('1' = '-') := by decide
      have h3 : ¬ ('1' = '+') := by decide
      simp only [atol, List.cons_append, List.dropWhile_cons, h1, h2, h3, if_false,
        Bool.false_eq_true]
      exact hd

/-- A chunk of 8 bit characters that no digit follows converts to its
big-endian value. -/
theorem byte_of_chunk (w t : List Char) (hw : Bits w) (hl : w.length = 8)
    (ht : no_digit_first t = true) :
    (binary_to_int (atol (w ++ t)) % 256).toNat = bits_value w := by
  have hlt : bits_value w < 256 := by
    have := bits_value_lt w hw
    rw [hl] at this
    exact this
  have h := byte_of_value_bits (bits_value w) hlt
  rw [← hl, value_bits_bits_value w hw] at h
  rw [atol_append w t hw (by intro h0; rw [h0] at hl; exact absurd hl (by decide)) ht]
  exact h

theorem chunk_of_bits (v : List Char) (hv : Bits v) (hl : v.length = 64) (i : Nat)
    (hi : i < 8) :
    strncpy (uninit 8) 0 (List.drop (i * 8) v) 8 = (v.drop (8 * i)).take 8 := by
  rw [Nat.mul_comm]
  exact strncpy_head _ _ 8 (length_uninit 8) (by simp; omega) ((hv.drop _).take _)

/-- When no digit follows the buffer, the conversion returns the bytes of
the 64 bits. -/
theorem binchars64_to_char8_eq (v : List Char) (plain : List Nat) (mem : Nat → List Char)
    (hv : Bits v) (hl : v.length = 64) (hp : plain.length = 8) (hm : NoDigitAfter mem) :
    binchars64_to_char8 v plain mem = bits_bytes v := by
  unfold binchars64_to_char8 bits_bytes
  simp only []
  rw [foldl_set_range_full _ 8 plain hp]
  apply List.map_congr_left
  intro i hi
  have hi : i < 8 := List.mem_range.1 hi
  rw [chunk_of_bits v hv hl i hi,
    byte_of_chunk _ _ ((hv.drop _).take _) (by simp; omega) (hm i hi)]

/-- Whatever follows the buffer, the conversion stores in place `i` what
`atol` and `binary_to_int` make of the 8 bits of byte `i` followed by the
characters `mem i`. -/
theorem binchars64_to_char8_mem (v : List Char) (plain : List Nat) (mem : Nat → List Char)
    (hv : Bits v) (hl : v.length = 64) (hp : plain.length = 8) :
    binchars64_to_char8 v plain mem
      = (List.range 8).map (fun i =>
          (binary_to_int (atol (value_bits 8 ((bits_bytes v).getD i 0) ++ mem i)) % 256).toNat) := by
  unfold binchars64_to_char8
  simp only []
  rw [foldl_set_range_full _ 8 plain hp]
  apply List.map_congr_left
  intro i hi
  have hi : i < 8 := List.mem_range.1 hi
  have hw : Bits ((v.drop (8 * i)).take 8) := (hv.drop _).take _
  have hwl : ((v.drop (8 * i)).take 8).length = 8 := by simp; omega
  have e := value_bits_bits_value _ hw
  rw [hwl] at e
  have hb : (bits_bytes v).getD i 0 = bits_value ((v.drop (8 * i)).take 8) := by
    unfold bits_bytes
    rw [List.getD_eq_getElem _ _ (by simpa using hi), List.getElem_map, List.getElem_range]
  rw [chunk_of_bits v hv hl i hi, hb, e]

/-- With the memory of `frame_mem`, the result of the conversion is
determined by the 64 bits and the byte `c0`: byte `i` of the result depends
on the bytes before it only, so two results that are consistent with the
memory they imply are equal. -/
theorem frame_mem_result_unique (v : List Char) (plain : List Nat) (c0 : Nat)
    (R R2 : List Nat) (hv : Bits v) (hl : v.length = 64) (hp : plain.length = 8)
    (h1 : binchars64_to_char8 v plain (frame_mem c0 R) = R)
    (h2 : binchars64_to_char8 v plain (frame_mem c0 R2) = R2) : R = R2 := by
  rw [binchars64_to_char8_mem v plain _ hv hl hp] at h1 h2
  have l1 : R.length = 8 := by rw [← h1]; simp
  have l2 : R2.length = 8 := by rw [← h2]; simp
  have g1 : ∀ i < 8, R.getD i 0
      = (binary_to_int (atol (value_bits 8 ((bits_bytes v).getD i 0) ++ frame_mem c0 R i))
          % 256).toNat := by
    intro i hi
    conv_lhs => rw [← h1]
    rw [List.getD_eq_getElem _ _ (by simpa using hi), List.getElem_map, List.getElem_range]
  have g2 : ∀ i < 8, R2.getD i 0
      = (binary_to_int (atol (value_bits 8 ((bits_bytes v).getD i 0) ++ frame_mem c0 R2 i))
          % 256).toNat := by
    intro i hi
    conv_lhs => rw [← h2]
    rw [List.getD_eq_getElem _ _ (by simpa using hi), List.getElem_map, List.getElem_range]
  have key : ∀ i < 8, R.getD i 0 = R2.getD i 0 := by
    intro i
    induction i with
    | zero =>
      intro hi
      rw [g1 0 hi, g2 0 hi]
      rfl
    | succ n ih =>
      intro hi
      rw [g1 (n + 1) hi, g2 (n + 1) hi]
      unfold frame_mem
      rw [if_neg (by omega), if_neg (by omega), Nat.add_sub_cancel, ih (by omega)]
  apply List.ext_getElem (by rw [l1, l2])
  intro i hi1 hi2
  have := key i (by rw [l1] at hi1; exact hi1)
  rw [List.getD_eq_getElem _ _ hi1, List.getD_eq_getElem _ _ hi2] at this
  exact this

theorem char_xor_bit (a b : Char) : char_xor a b = '0' ∨ char_xor a b = '1' := by
  unfold char_xor
  split <;> simp

theorem chunk_bytes_bits (b : List Nat) (i : Nat) (hi : i < b.length) :
    ((bytes_bits b).drop (8 * i)).take 8 = value_bits 8 (b.getD i 0) := by
  induction b generalizing i with
  | nil => simp at hi
  | cons x xs ih =>
    cases i with
    | zero =>
      simp only [bytes_bits, List.map_cons, List.flatten_cons, Nat.mul_zero, List.drop_zero,
        List.getD_cons_zero]
      rw [List.take_append_of_le_length (by simp [length_value_bits]),
        List.take_of_length_le (by simp [length_value_bits])]
    | succ i =>
      have hi2 : i < xs.length := by simpa using hi
      have h := ih i hi2
      simp only [bytes_bits, List.map_cons, List.flatten_cons, List.getD_cons_succ] at h ⊢
      rw [show 8 * (i + 1) = (value_bits 8 x).length + 8 * i by simp [length_value_bits]; ring,
        ← List.drop_drop, List.drop_left, h]

theorem bits_bytes_bytes_bits (b : List Nat) (hb : Bytes8 b) : bits_bytes (bytes_bits b) = b := by
  obtain ⟨hl, hlt⟩ := hb
  unfold bits_bytes
  have : (List.range 8).map (fun i => bits_value (((bytes_bits b).drop (8 * i)).take 8))
      = (List.range b.length).map (fun i => id (b.getD i 0)) := by
    rw [hl]
    apply List.map_congr_left
    intro i hi
    have hi : i < 8 := List.mem_range.1 hi
    have hi2 : i < b.length := by omega
    rw [chunk_bytes_bits b i hi2, bits_value_value_bits, id]
    have : b.getD i 0 < 256 := by
      rw [List.getD_eq_getElem _ _ hi2]
      exact hlt _ (List.getElem_mem _)
    exact Nat.mod_eq_of_lt this
  rw [this, map_range_getD]
  simp

theorem flatten_chunks (v : List Char) (k : Nat) (hk : 8 * k ≤ v.length) :
    ((List.range k).map (fun i => (v.drop (8 * i)).take 8)).flatten = v.take (8 * k) := by
  induction k with
  | zero => simp
  | succ k ih =>
    rw [List.range_succ, List.map_append, List.flatten_append, ih (by omega)]
    simp only [List.map_cons, List.map_nil, List.flatten_cons, List.flatten_nil,
      List.append_nil]
    rw [show 8 * (k + 1) = 8 * k + 8 by ring, List.take_add]

theorem bytes_bits_bits_bytes (v : List Char) (hv : Bits v) (hl : v.length = 64) :
    bytes_bits (bits_bytes v) = v := by
  unfold bytes_bits bits_bytes
  rw [List.map_map]
  have : (List.range 8).map (value_bits 8 ∘ fun i => bits_value ((v.drop (8 * i)).take 8))
      = (List.range 8).map (fun i => (v.drop (8 * i)).take 8) := by
    apply List.map_congr_left
    intro i hi
    have hi : i < 8 := List.mem_range.1 hi
    have hlen : ((v.drop (8 * i)).take 8).length = 8 := by simp; omega
    simp only [Function.comp]
    have h := value_bits_bits_value _ ((hv.drop (8 * i)).take 8)
    rw [hlen] at h
    exact h
  rw [this, flatten_chunks v 8 (by omega), List.take_of_length_le (by omega)]

theorem Bytes8_bits_bytes (v : List Char) (hv : Bits v) : Bytes8 (bits_bytes v) := by
  constructor
  · simp [bits_bytes]
  · intro x hx
    simp only [bits_bytes, List.mem_map, List.mem_range] at hx
    obtain ⟨i, _, rfl⟩ := hx
    have h := bits_value_lt _ ((hv.drop (8 * i)).take 8)
    have hle : ((v.drop (8 * i)).take 8).length ≤ 8 := by simp
    calc bits_value ((v.drop (8 * i)).take 8) < 2 ^ ((v.drop (8 * i)).take 8).length := h
      _ ≤ 2 ^ 8 := Nat.pow_le_pow_right (by decide) hle

/-! ## Permutation loops -/

theorem map_range_zipWith {α β γ : Type} (g : α → β → γ) (a : List α) (b : List β) (n : Nat)
    (ha : a.length = n) (hb : b.length = n) (da : α) (db : β) :
    (List.range n).map (fun i => g (a.getD i da) (b.getD i db)) = List.zipWith g a b := by
  apply List.ext_getElem
  · simp [ha, hb]
  · intro i h1 h2
    simp at h1
    simp [List.getD_eq_getElem, ha, hb, h1]

/-- A loop `out[i] = src[table[i] - 1]` over the whole table is the
selection through the table. -/
theorem select_loop (table : List Nat) (src buf : List Char) (n : Nat)
    (hn : table.length = n) (hb : buf.length = n) :
    (List.range n).foldl
      (fun buf i => buf.set i (src.getD (table.getD i 0 - 1) NUL)) buf
    = select table src := by
  rw [foldl_set_range_full _ n buf hb, ← hn]
  exact map_range_getD table 0 (fun p => src.getD (p - 1) NUL)

theorem length_select (table : List Nat) (src : List Char) :
    (select table src).length = table.length := by
  simp [select]

theorem Bits_select (table : List Nat) (src : List Char) (hs : Bits src)
    (ht : ∀ p ∈ table, p - 1 < src.length) : Bits (select table src) := by
  intro c hc
  simp only [select, List.mem_map] at hc
  obtain ⟨p, hp, rfl⟩ := hc
  rw [List.getD_eq_getElem _ _ (ht p hp)]
  exact hs _ (List.getElem_mem _)

theorem Bits_xor_bits (a b : List Char) : Bits (xor_bits a b) := by
  intro c hc
  simp only [xor_bits, List.mem_iff_getElem, List.getElem_zipWith] at hc
  obtain ⟨i, _, rfl⟩ := hc
  exact char_xor_bit _ _

theorem length_xor_bits (a b : List Char) :
    (xor_bits a b).length = min a.length b.length := by
  simp [xor_bits]

theorem expand_data_to_48bits_eq (R buf : List Char) (hb : buf.length = 48) :
    expand_data_to_48bits R buf 48 = select E R :=
  select_loop E R buf 48 rfl hb

theorem perform_ip_eq (v buf : List Char) (hv : Bits v) (hl : v.length = 64)
    (hb : buf.length = 64) : perform_ip v buf = select IP v := by
  unfold perform_ip
  simp only []
  rw [select_loop IP v (uninit 64) 64 rfl (length_uninit 64)]
  refine strncpy_full _ _ 64 hb (length_select _ _) (Bits_select _ _ hv ?_)
  rw [hl]
  decide

/-! ## The round function -/

theorem length_sbox_bits (x : List Char) (i : Nat) : (sbox_bits x i).length = 4 := by
  simp [sbox_bits, length_value_bits]

theorem Bits_sbox_bits (x : List Char) (i : Nat) : Bits (sbox_bits x i) :=
  Bits_value_bits _ _

theorem f_sbox_step_eq (x sBoxed : List Char) (i : Nat) (hx : Bits x) (hl : x.length = 48)
    (hi : i < 8) : f_sbox_step x sBoxed i = store sBoxed (i * 4) (sbox_bits x i) := by
  unfold f_sbox_step
  simp only []
  have hchunk : strncpy (uninit 6) 0 (List.drop (i * 6) x) 6 = (x.drop (6 * i)).take 6 := by
    rw [Nat.mul_comm]
    exact strncpy_head _ _ 6 (length_uninit 6) (by simp; omega) ((hx.drop _).take _)
  rw [hchunk, binchars_to_unsigned_eq [_, _] 2 rfl, binchars_to_unsigned_eq [_, _, _, _] 4 rfl,
    unsigned_to_binchars_eq _ _ 4 (length_uninit 4)]
  rw [strncpy_eq_store _ _ _ _ (by simp [length_value_bits]) ((Bits_value_bits _ _).take _),
    List.take_of_length_le (by simp [length_value_bits])]
  rfl

theorem f_sbox_loop (x : List Char) (hx : Bits x) (hl : x.length = 48) (k : Nat) (hk : k ≤ 8) :
    (List.range k).foldl (f_sbox_step x) (uninit 32)
      = ((List.range k).map (sbox_bits x)).flatten ++ (uninit 32).drop (4 * k) := by
  induction k with
  | zero => simp
  | succ k ih =>
    rw [List.range_succ, List.foldl_append, ih (by omega)]
    simp only [List.foldl_cons, List.foldl_nil]
    rw [f_sbox_step_eq x _ k hx hl (by omega)]
    have hlen : (((List.range k).map (sbox_bits x)).flatten).length = k * 4 := by
      clear ih
      induction k with
      | zero => simp
      | succ k ih2 =>
        rw [List.range_succ, List.map_append, List.flatten_append, List.length_append,
          ih2 (by omega)]
        simp [length_sbox_bits]
        ring
    rw [← hlen, store_append]
    simp [length_sbox_bits, List.drop_drop, Nat.mul_succ]

theorem f_eq (pk : List (List Char)) (out R : List Char) (round : Nat)
    (hK : (pk.getD round []).length = 48) (ho : out.length = 32) :
    f pk out R round = spec_f R (pk.getD round []) := by
  unfold f spec_f
  simp only []
  rw [expand_data_to_48bits_eq R _ (length_uninit 48),
    foldl_set_range_full _ 48 _ (length_uninit 48),
    map_range_zipWith char_xor (select E R) (pk.getD round []) 48 (length_select _ _) hK,
    show List.zipWith char_xor (select E R) (pk.getD round [])
      = xor_bits (select E R) (pk.getD round []) from rfl]
  have hx : Bits (xor_bits (select E R) (pk.getD round [])) := Bits_xor_bits _ _
  have hxl : (xor_bits (select E R) (pk.getD round [])).length = 48 := by
    rw [length_xor_bits, length_select, hK]
    rfl
  change (List.range 32).foldl _ out = _
  rw [f_sbox_loop _ hx hxl 8 (le_refl 8)]
  have h0 : (uninit 32).drop (4 * 8) = [] := by simp [uninit]
  rw [h0, List.append_nil]
  exact select_loop P _ out 32 rfl ho

/-- The output of `f` whatever the round key row holds: the selection
through `P` of the eight S-box outputs for the character-wise `char_xor`
of the expansion with the key row. -/
theorem f_eq_select (pk : List (List Char)) (out R : List Char) (round : Nat)
    (ho : out.length = 32) :
    f pk out R round
      = select P ((List.range 8).map (sbox_bits ((List.range 48).map (fun i =>
          char_xor ((select E R).getD i NUL) ((pk.getD round []).getD i NUL))))).flatten := by
  unfold f
  simp only []
  rw [expand_data_to_48bits_eq R _ (length_uninit 48),
    foldl_set_range_full _ 48 _ (length_uninit 48)]
  have hx : Bits ((List.range 48).map (fun i =>
      char_xor ((select E R).getD i NUL) ((pk.getD round []).getD i NUL))) := by
    intro c hc
    simp only [List.mem_map] at hc
    obtain ⟨i, _, rfl⟩ := hc
    exact char_xor_bit _ _
  change (List.range 32).foldl _ out = _
  rw [f_sbox_loop _ hx (by simp) 8 (le_refl 8)]
  have h0 : (uninit 32).drop (4 * 8) = [] := by simp [uninit]
  rw [h0, List.append_nil]
  exact select_loop P _ out 32 rfl ho

theorem length_flatten_sbox (x : List Char) (k : Nat) :
    (((List.range k).map (sbox_bits x)).flatten).length = 4 * k := by
  induction k with
  | zero => simp
  | succ k ih =>
    rw [List.range_succ, List.map_append, List.flatten_append, List.length_append, ih]
    simp [length_sbox_bits]
    ring

theorem Bits_flatten_sbox (x : List Char) (k : Nat) :
    Bits ((List.range k).map (sbox_bits x)).flatten := by
  intro c hc
  simp only [List.mem_flatten, List.mem_map] at hc
  obtain ⟨l, ⟨i, _, rfl⟩, hcl⟩ := hc
  exact Bits_sbox_bits x i c hcl

theorem length_f (pk : List (List Char)) (out R : List Char) (round : Nat)
    (ho : out.length = 32) : (f pk out R round).length = 32 := by
  rw [f_eq_select pk out R round ho, length_select]
  rfl

theorem Bits_f (pk : List (List Char)) (out R : List Char) (round : Nat)
    (ho : out.length = 32) : Bits (f pk out R round) := by
  rw [f_eq_select pk out R round ho]
  refine Bits_select _ _ (Bits_flatten_sbox _ 8) ?_
  rw [length_flatten_sbox]
  decide

theorem length_spec_f (R K : List Char) : (spec_f R K).length = 32 := by
  rw [spec_f, length_select]
  rfl

theorem Bits_spec_f (R K : List Char) : Bits (spec_f R K) := by
  unfold spec_f
  refine Bits_select _ _ (Bits_flatten_sbox _ 8) ?_
  rw [length_flatten_sbox]
  decide

/-! ## The block cipher driver -/

theorem xor_loop (a b buf : List Char) (ha : a.length = 32) (hb : b.length = 32)
    (hbuf : buf.length = 32) :
    (List.range 32).foldl (fun r z => r.set z (char_xor (a.getD z NUL) (b.getD z NUL))) buf
      = xor_bits a b := by
  rw [foldl_set_range_full _ 32 buf hbuf]
  exact map_range_zipWith char_xor a b 32 ha hb NUL NUL

/-- The generic iteration of the round loop. -/
theorem crypt_step_succ (pk : List (List Char)) (bm : List Char)
    (st : List Char × List Char) (i : Nat) (h1 : st.1.length = 32) (h2 : st.2.length = 32)
    (hb : Bits st.2) (hi : i ≠ 0) :
    crypt_step pk bm st i = (st.2, xor_bits st.1 (f pk (uninit 32) st.2 i)) := by
  unfold crypt_step
  simp only [hi, if_false]
  have hf := length_f pk (uninit 32) st.2 i (length_uninit 32)
  rw [xor_loop _ _ _ h1 hf (length_uninit 32),
    strncpy_full (uninit 32) st.2 32 (length_uninit 32) h2 hb,
    strncpy_full st.1 st.2 32 h1 h2 hb,
    strncpy_full st.2 _ 32 h2 (by rw [length_xor_bits, h1, hf]; rfl) (Bits_xor_bits _ _)]

/-- The first iteration of the round loop, coded separately in C. -/
theorem crypt_step_zero (pk : List (List Char)) (bm : List Char)
    (st : List Char × List Char) (h1 : st.1.length = 32) (h2 : st.2.length = 32)
    (hbm : Bits bm) (hl : bm.length = 64) :
    crypt_step pk bm st 0
      = (((select IP bm).drop 32),
          xor_bits ((select IP bm).take 32) (f pk (uninit 32) ((select IP bm).drop 32) 0)) := by
  unfold crypt_step
  simp only [if_true]
  have hip : Bits (select IP bm) := Bits_select _ _ hbm (by rw [hl]; decide)
  have hipl : (select IP bm).length = 64 := length_select _ _
  have hr0 : strncpy (uninit 32) 0 ((select IP bm).drop 32) 32 = (select IP bm).drop 32 :=
    strncpy_full _ _ 32 (length_uninit 32) (by simp [hipl]) (hip.drop 32)
  have hl0 : strncpy (uninit 32) 0 (select IP bm) 32 = (select IP bm).take 32 :=
    strncpy_head _ _ 32 (length_uninit 32) (by omega) (hip.take 32)
  have hdl : ((select IP bm).drop 32).length = 32 := by simp [hipl]
  have htl : ((select IP bm).take 32).length = 32 := by simp [hipl]
  have hf := length_f pk (uninit 32) ((select IP bm).drop 32) 0 (length_uninit 32)
  rw [perform_ip_eq bm _ hbm hl (length_uninit 64), hr0, hl0,
    xor_loop _ _ _ htl hf (length_uninit 32),
    strncpy_full (uninit 32) _ 32 (length_uninit 32) hdl (hip.drop 32),
    strncpy_full st.1 _ 32 h1 hdl (hip.drop 32),
    strncpy_full st.2 _ 32 h2 (by rw [length_xor_bits, htl, hf]; rfl) (Bits_xor_bits _ _)]

theorem spec_rounds_zero (F : Nat → List Char → List Char) (LR0 : List Char × List Char) :
    spec_rounds F LR0 0 = LR0 := rfl

theorem spec_rounds_succ (F : Nat → List Char → List Char) (LR0 : List Char × List Char)
    (n : Nat) :
    spec_rounds F LR0 (n + 1)
      = ((spec_rounds F LR0 n).2,
          xor_bits (spec_rounds F LR0 n).1 (F n (spec_rounds F LR0 n).2)) := rfl

/-- The state of the round loop after `k + 1` iterations is
`(L_(k+1), R_(k+1))`, and both halves are 32 bits. -/
theorem crypt_loop (pk : List (List Char)) (bm : List Char) (hbm : Bits bm)
    (hl : bm.length = 64) (k : Nat) :
    (List.range (k + 1)).foldl (crypt_step pk bm) (uninit 32, uninit 32)
        = spec_rounds (fun n R => f pk (uninit 32) R n)
            ((select IP bm).take 32, (select IP bm).drop 32) (k + 1)
      ∧ (spec_rounds (fun n R => f pk (uninit 32) R n)
            ((select IP bm).take 32, (select IP bm).drop 32) (k + 1)).1.length = 32
      ∧ (spec_rounds (fun n R => f pk (uninit 32) R n)
            ((select IP bm).take 32, (select IP bm).drop 32) (k + 1)).2.length = 32
      ∧ Bits (spec_rounds (fun n R => f pk (uninit 32) R n)
            ((select IP bm).take 32, (select IP bm).drop 32) (k + 1)).1
      ∧ Bits (spec_rounds (fun n R => f pk (uninit 32) R n)
            ((select IP bm).take 32, (select IP bm).drop 32) (k + 1)).2 := by
  have hip : Bits (select IP bm) := Bits_select _ _ hbm (by rw [hl]; decide)
  have hipl : (select IP bm).length = 64 := length_select _ _
  induction k with
  | zero =>
    have hf := length_f pk (uninit 32) ((select IP bm).drop 32) 0 (length_uninit 32)
    rw [spec_rounds_succ, spec_rounds_zero]
    dsimp only
    refine ⟨?_, ?_, ?_, ?_, ?_⟩
    · simp only [List.range_succ, List.range_zero, List.nil_append, List.foldl_cons,
        List.foldl_nil]
      rw [crypt_step_zero pk bm _ (length_uninit 32) (length_uninit 32) hbm hl]
    · rw [List.length_drop, hipl]
    · rw [length_xor_bits, hf, List.length_take, hipl]
      rfl
    · exact hip.drop 32
    · exact Bits_xor_bits _ _
  | succ k ih =>
    obtain ⟨h0, h1, h2, h3, h4⟩ := ih
    have hf := length_f pk (uninit 32) (spec_rounds (fun n R => f pk (uninit 32) R n)
      ((select IP bm).take 32, (select IP bm).drop 32) (k + 1)).2 (k + 1) (length_uninit 32)
    rw [spec_rounds_succ _ _ (k + 1)]
    dsimp only
    refine ⟨?_, ?_, ?_, ?_, ?_⟩
    · rw [List.range_succ, List.foldl_append, h0]
      simp only [List.foldl_cons, List.foldl_nil]
      rw [crypt_step_succ pk bm _ (k + 1) h1 h2 h4 (Nat.succ_ne_zero k)]
    · exact h2
    · rw [length_xor_bits, h1, hf]
      rfl
    · exact h4
    · exact Bits_xor_bits _ _

theorem crypt_final_chunk_eq (pk : List (List Char)) (msg : List Nat) (hm : msg.length = 8) :
    crypt_final_chunk pk msg
      = select IP_REVERSED
          ((spec_rounds (fun n R => f pk (uninit 32) R n)
              ((select IP (bytes_bits msg)).take 32, (select IP (bytes_bits msg)).drop 32) 16).2
            ++ (spec_rounds (fun n R => f pk (uninit 32) R n)
              ((select IP (bytes_bits msg)).take 32,
                (select IP (bytes_bits msg)).drop 32) 16).1) := by
  unfold crypt_final_chunk
  simp only []
  rw [chars8_to_binchars_eq msg _ (length_uninit 64) hm]
  obtain ⟨h0, h1, h2, h3, h4⟩ := crypt_loop pk (bytes_bits msg) (Bits_bytes_bits msg)
    (by rw [length_bytes_bits, hm]) 15
  rw [h0]
  generalize spec_rounds (fun n R => f pk (uninit 32) R n)
    ((select IP (bytes_bits msg)).take 32, (select IP (bytes_bits msg)).drop 32) 16 = LR
    at h1 h2 h3 h4
  have hc1 : strncpy (uninit 64) 0 LR.2 32 = LR.2 ++ (uninit 64).drop 32 := by
    rw [strncpy_eq_store _ _ _ _ (by omega) (h4.take 32),
      List.take_of_length_le (by omega)]
    simp [store, h2]
  rw [hc1]
  have hc2 : strncpy (LR.2 ++ (uninit 64).drop 32) 32 LR.1 32 = LR.2 ++ LR.1 := by
    rw [strncpy_eq_store _ _ _ _ (by omega) (h3.take 32),
      List.take_of_length_le (by omega)]
    have := store_append LR.2 ((uninit 64).drop 32) LR.1
    rw [h2] at this
    rw [this]
    simp [uninit, h1]
  rw [hc2]
  exact select_loop IP_REVERSED _ _ 64 rfl (length_uninit 64)

/-- The buffer `final_chunk` of `crypt` holds the 64 bits of the driver of
the specification. -/
theorem crypt_final_chunk_spec (pk : List (List Char)) (msg : List Nat)
    (hm : msg.length = 8) :
    crypt_final_chunk pk msg = spec_crypt_bits (fun n R => f pk (uninit 32) R n) msg :=
  crypt_final_chunk_eq pk msg hm

theorem spec_crypt_eq_bits (F : Nat → List Char → List Char) (p : List Nat) :
    spec_crypt F p = bits_bytes (spec_crypt_bits F p) :=
  rfl

theorem Bits_crypt_final_chunk (pk : List (List Char)) (msg : List Nat)
    (hm : msg.length = 8) :
    Bits (crypt_final_chunk pk msg) ∧ (crypt_final_chunk pk msg).length = 64 := by
  rw [crypt_final_chunk_eq pk msg hm]
  obtain ⟨_, h1, h2, h3, h4⟩ := crypt_loop pk (bytes_bits msg) (Bits_bytes_bits msg)
    (by rw [length_bytes_bits, hm]) 15
  refine ⟨Bits_select _ _ (h4.append h3) ?_, length_select _ _⟩
  rw [List.length_append, h1, h2]
  decide

/-- When no digit follows the buffer of the conversion, `crypt` returns
the bytes of the driver of the specification. -/
theorem crypt_eq (pk : List (List Char)) (msg plain : List Nat) (mem : Nat → List Char)
    (hm : msg.length = 8) (hp : plain.length = 8) (hmem : NoDigitAfter mem) :
    crypt pk msg plain mem = spec_crypt (fun n R => f pk (uninit 32) R n) msg := by
  obtain ⟨hb, hl⟩ := Bits_crypt_final_chunk pk msg hm
  unfold crypt
  rw [binchars64_to_char8_eq _ plain mem hb hl hp hmem, crypt_final_chunk_spec pk msg hm]
  rfl

/-- Whatever follows the buffer of the conversion, `crypt` returns in place
`i` what the conversion makes of byte `i` of the driver of the
specification followed by the characters `mem i`. -/
theorem crypt_mem (pk : List (List Char)) (msg plain : List Nat) (mem : Nat → List Char)
    (hm : msg.length = 8) (hp : plain.length = 8) :
    crypt pk msg plain mem
      = (List.range 8).map (fun i =>
          (binary_to_int (atol (value_bits 8
            ((spec_crypt (fun n R => f pk (uninit 32) R n) msg).getD i 0) ++ mem i)) % 256).toNat) := by
  obtain ⟨hb, hl⟩ := Bits_crypt_final_chunk pk msg hm
  unfold crypt
  rw [binchars64_to_char8_mem _ plain mem hb hl hp, crypt_final_chunk_spec pk msg hm]
  rfl

/-- With the memory of `frame_mem`, the bytes that `crypt` returns are
determined by its arguments and the byte `c0`. -/
theorem crypt_frame_unique (pk : List (List Char)) (msg plain : List Nat) (c0 : Nat)
    (R R2 : List Nat) (hm : msg.length = 8) (hp : plain.length = 8)
    (h1 : crypt pk msg plain (frame_mem c0 R) = R)
    (h2 : crypt pk msg plain (frame_mem c0 R2) = R2) : R = R2 := by
  obtain ⟨hb, hl⟩ := Bits_crypt_final_chunk pk msg hm
  unfold crypt at h1 h2
  exact frame_mem_result_unique _ plain c0 R R2 hb hl hp h1 h2

/-! ## Round key generation -/

theorem store_at (A B C data : List Char) (k : Nat) (hk : A.length = k)
    (hB : B.length = data.length) :
    store (A ++ B ++ C) k data = A ++ data ++ C := by
  subst hk
  unfold store
  have hd : List.drop (A.length + data.length) (A ++ B ++ C) = C :=
    List.drop_left' (by rw [List.length_append, hB])
  have ht : List.take A.length (A ++ B ++ C) = A := by
    rw [List.append_assoc, List.take_left]
  rw [hd, ht]

theorem uninit_add (a b : Nat) : uninit (a + b) = uninit a ++ uninit b := by
  unfold uninit
  exact List.replicate_add a b NUL

theorem Bits.rotate {l : List Char} (h : Bits l) (n : Nat) : Bits (l.rotate n) :=
  fun c hc => h c (List.mem_rotate.1 hc)

/-- The six `strncpy` calls of one iteration of the loop of
`generate_keys`, for the pieces `X1`, `X2` of the left half and `Y1`, `Y2`
of the right half: the row receives `X2 ++ X1 ++ Y2 ++ Y1`. -/
theorem shift_stores (X1 X2 Y1 Y2 row : List Char) (s : Nat) (hs : s ≤ 28)
    (hX1 : X1.length = s) (hX2 : X2.length = 28 - s) (hY1 : Y1.length = s)
    (hY2 : Y2.length = 28 - s) (bX1 : Bits X1) (bX2 : Bits X2) (bY1 : Bits Y1)
    (bY2 : Bits Y2) (hrow : row.length = 56) :
    strncpy (strncpy row 0 (store (store (uninit 56) (28 - s) X1) 0 X2) 28) 28
      ((store (store (store (store (uninit 56) (28 - s) X1) 0 X2) (56 - s) Y1) 28 Y2).drop 28)
      28
    = X2 ++ X1 ++ Y2 ++ Y1 := by
  have hu : uninit 56 = uninit (28 - s) ++ uninit s ++ uninit 28 := by
    rw [← uninit_add, ← uninit_add]
    congr 1
    omega
  have h1 : store (uninit 56) (28 - s) X1 = uninit (28 - s) ++ X1 ++ uninit 28 := by
    rw [hu]
    exact store_at _ _ _ _ _ (length_uninit _) (by rw [length_uninit, hX1])
  have h2 : store (uninit (28 - s) ++ X1 ++ uninit 28) 0 X2 = X2 ++ X1 ++ uninit 28 := by
    have := store_at [] (uninit (28 - s)) (X1 ++ uninit 28) X2 0 rfl
      (by rw [length_uninit, hX2])
    simpa [List.append_assoc] using this
  have hu2 : uninit 28 = uninit (28 - s) ++ uninit s := by
    rw [← uninit_add]
    congr 1
    omega
  have h3 : store (X2 ++ X1 ++ uninit 28) (56 - s) Y1
      = X2 ++ X1 ++ uninit (28 - s) ++ Y1 := by
    rw [hu2]
    have := store_at (X2 ++ X1 ++ uninit (28 - s)) (uninit s) [] Y1 (56 - s)
      (by simp [hX1, hX2, length_uninit]; omega) (by rw [length_uninit, hY1])
    simpa [List.append_assoc] using this
  have h4 : store (X2 ++ X1 ++ uninit (28 - s) ++ Y1) 28 Y2 = X2 ++ X1 ++ Y2 ++ Y1 := by
    have := store_at (X2 ++ X1) (uninit (28 - s)) Y1 Y2 28
      (by simp [hX1, hX2]; omega) (by rw [length_uninit, hY2])
    simpa [List.append_assoc] using this
  have hXl : (X2 ++ X1).length = 28 := by simp [hX1, hX2]; omega
  have hYl : (Y2 ++ Y1).length = 28 := by simp [hY1, hY2]; omega
  rw [h1, h2, h3, h4]
  have ht : (X2 ++ X1 ++ uninit 28).take 28 = X2 ++ X1 := by
    rw [List.take_append_of_le_length (by omega), List.take_of_length_le (by omega)]
  have hrow1 : strncpy row 0 (X2 ++ X1 ++ uninit 28) 28 = X2 ++ X1 ++ row.drop 28 := by
    rw [strncpy_eq_store _ _ _ _ (by simp [length_uninit]; omega)
      (by rw [ht]; exact bX2.append bX1), ht]
    simp [store, hXl]
  have hd : (X2 ++ X1 ++ Y2 ++ Y1).drop 28 = Y2 ++ Y1 := by
    rw [List.append_assoc (X2 ++ X1), ← hXl, List.drop_left]
  rw [hrow1, hd, strncpy_eq_store _ _ _ _ (by omega)
    (by rw [List.take_of_length_le (by omega)]; exact bY2.append bY1),
    List.take_of_length_le (by omega)]
  have := store_at (X2 ++ X1) (row.drop 28) [] (Y2 ++ Y1) 28 hXl
    (by rw [List.length_drop, hrow, hYl])
  simpa [List.append_assoc] using this

theorem getD_set_self {α : Type} (l : List α) (i : Nat) (x d : α) (h : i < l.length) :
    (l.set i x).getD i d = x := by
  rw [List.getD_eq_getElem _ _ (by simpa using h)]
  simp

theorem getD_set_ne {α : Type} (l : List α) (i j : Nat) (x d : α) (h : i ≠ j) :
    (l.set i x).getD j d = l.getD j d := by
  simp [List.getD_eq_getElem?_getD, List.getElem?_set_ne h]

theorem rotate_pieces (C : List Char) (s : Nat) (hC : C.length = 28) (hs : s ≤ 28) :
    (C.drop s).take (28 - s) ++ C.take s = C.rotate s := by
  rw [List.rotate_eq_drop_append_take (by omega), List.take_of_length_le]
  simp [hC]

theorem LEFT_SHIFTS_le : ∀ i < 16, LEFT_SHIFTS.getD i 0 ≤ 28 := by decide

/-- The first iteration of the loop of `generate_keys` stores the rotated
halves of the permuted key in row 0. -/
theorem generate_keys_step_zero (C D : List Char) (rows : List (List Char))
    (hC : C.length = 28) (hD : D.length = 28) (bC : Bits C) (bD : Bits D)
    (hrows : 0 < rows.length) (hrow : (rows.getD 0 []).length = 56) :
    generate_keys_step C D rows 0
      = rows.set 0 (C.rotate (LEFT_SHIFTS.getD 0 0) ++ D.rotate (LEFT_SHIFTS.getD 0 0)) := by
  have hs : LEFT_SHIFTS.getD 0 0 ≤ 28 := LEFT_SHIFTS_le 0 (by decide)
  unfold generate_keys_step
  simp only [if_true]
  generalize LEFT_SHIFTS.getD 0 0 = s at hs
  rw [strncpy_eq_store _ _ C s (by omega) (bC.take s),
    strncpy_eq_store _ _ (C.drop s) (28 - s) (by simp [hC]) ((bC.drop s).take _),
    strncpy_eq_store _ _ D s (by omega) (bD.take s),
    strncpy_eq_store _ _ (D.drop s) (28 - s) (by simp [hD]) ((bD.drop s).take _),
    getD_set_self _ _ _ _ hrows, List.set_set,
    shift_stores (C.take s) ((C.drop s).take (28 - s)) (D.take s) ((D.drop s).take (28 - s))
      _ s hs (by simp [hC, hs]) (by simp [hC]) (by simp [hD, hs]) (by simp [hD])
      (bC.take s) ((bC.drop s).take _) (bD.take s) ((bD.drop s).take _) hrow,
    rotate_pieces C s hC hs, List.append_assoc, rotate_pieces D s hD hs]

/-- A later iteration of the loop of `generate_keys` stores in row `i` the
halves of row `i - 1`, each rotated left by `LEFT_SHIFTS[i]`. -/
theorem generate_keys_step_succ (hl hr C D : List Char) (rows : List (List Char)) (i : Nat)
    (hi0 : i ≠ 0) (hi : i < 16) (hC : C.length = 28) (hD : D.length = 28) (bC : Bits C)
    (bD : Bits D) (hrows : i < rows.length) (hrow : (rows.getD i []).length = 56)
    (hprev : rows.getD (i - 1) [] = C ++ D) :
    generate_keys_step hl hr rows i
      = rows.set i (C.rotate (LEFT_SHIFTS.getD i 0) ++ D.rotate (LEFT_SHIFTS.getD i 0)) := by
  have hs : LEFT_SHIFTS.getD i 0 ≤ 28 := LEFT_SHIFTS_le i hi
  unfold generate_keys_step
  simp only [hi0, if_false]
  generalize LEFT_SHIFTS.getD i 0 = s at hs
  have hne : i ≠ i - 1 := by omega
  rw [getD_set_ne _ _ _ _ _ hne, hprev]
  have e1 : (C ++ D).take s = C.take s := by
    rw [List.take_append_of_le_length (by omega)]
  have e2 : ((C ++ D).drop s).take (28 - s) = (C.drop s).take (28 - s) := by
    rw [List.drop_append_of_le_length (by omega),
      List.take_append_of_le_length (by simp [hC])]
  have e3 : (C ++ D).drop 28 = D := List.drop_left' hC
  have e4 : (C ++ D).drop (28 + s) = D.drop s := by
    rw [← hC, List.drop_append]
  have bCD : Bits (C ++ D) := bC.append bD
  rw [strncpy_eq_store _ _ (C ++ D) s (by simp [hC]; omega) (bCD.take s),
    strncpy_eq_store _ _ ((C ++ D).drop s) (28 - s) (by simp [hC, hD]; omega)
      ((bCD.drop s).take _),
    e3, e4,
    strncpy_eq_store _ _ D s (by omega) (bD.take s),
    strncpy_eq_store _ _ (D.drop s) (28 - s) (by simp [hD]) ((bD.drop s).take _),
    e1, e2,
    getD_set_self _ _ _ _ hrows, List.set_set,
    shift_stores (C.take s) ((C.drop s).take (28 - s)) (D.take s) ((D.drop s).take (28 - s))
      _ s hs (by simp [hC, hs]) (by simp [hC]) (by simp [hD, hs]) (by simp [hD])
      (bC.take s) ((bC.drop s).take _) (bD.take s) ((bD.drop s).take _) hrow,
    rotate_pieces C s hC hs, List.append_assoc, rotate_pieces D s hD hs]

theorem perform_first_permutation_eq (L R bits : List Char) (hL : L.length = 28)
    (hR : R.length = 28) (hb : Bits bits) (hl : bits.length = 64) :
    perform_first_permutation L R bits
      = ((select PC_1 bits).take 28, (select PC_1 bits).drop 28) := by
  unfold perform_first_permutation
  simp only []
  rw [select_loop PC_1 bits (uninit 56) 56 rfl (length_uninit 56)]
  have hs : Bits (select PC_1 bits) := Bits_select _ _ hb (by rw [hl]; decide)
  have hsl : (select PC_1 bits).length = 56 := length_select _ _
  rw [strncpy_head L _ 28 hL (by omega) (hs.take 28),
    strncpy_full R _ 28 hR (by simp [hsl]) (hs.drop 28)]

theorem LEFT_SHIFTS_sum_succ :
    ∀ k < 16, (LEFT_SHIFTS.take (k + 1)).sum = (LEFT_SHIFTS.take k).sum + LEFT_SHIFTS.getD k 0 := by
  decide

/-- Invariant of the loop of `generate_keys`: after `k` iterations the
rows below `k` hold the halves rotated by the accumulated shift, and the
array keeps its shape. -/
theorem generate_keys_loop (C D : List Char) (hC : C.length = 28) (hD : D.length = 28)
    (bC : Bits C) (bD : Bits D) (k : Nat) (hk : k ≤ 16) :
    ((List.range k).foldl (generate_keys_step C D) (List.replicate 16 (uninit 56))).length = 16
    ∧ (∀ j, j < k →
        ((List.range k).foldl (generate_keys_step C D) (List.replicate 16 (uninit 56))).getD j []
          = C.rotate ((LEFT_SHIFTS.take (j + 1)).sum) ++ D.rotate ((LEFT_SHIFTS.take (j + 1)).sum))
    ∧ (∀ j, k ≤ j → j < 16 →
        (((List.range k).foldl (generate_keys_step C D)
          (List.replicate 16 (uninit 56))).getD j []).length = 56) := by
  induction k with
  | zero =>
    refine ⟨by simp, fun j hj => absurd hj (Nat.not_lt_zero j), fun j _ hj => ?_⟩
    simp only [List.range_zero, List.foldl_nil]
    rw [List.getD_eq_getElem _ _ (by simpa using hj), List.getElem_replicate]
    exact length_uninit 56
  | succ k ih =>
    obtain ⟨h1, h2, h3⟩ := ih (by omega)
    rw [List.range_succ, List.foldl_append]
    simp only [List.foldl_cons, List.foldl_nil]
    generalize (List.range k).foldl (generate_keys_step C D) (List.replicate 16 (uninit 56))
      = rows at h1 h2 h3
    have hstep : generate_keys_step C D rows k
        = rows.set k (C.rotate ((LEFT_SHIFTS.take (k + 1)).sum)
            ++ D.rotate ((LEFT_SHIFTS.take (k + 1)).sum)) := by
      by_cases hk0 : k = 0
      · subst hk0
        rw [generate_keys_step_zero C D rows hC hD bC bD (by omega) (h3 0 (le_refl 0) (by omega))]
        rfl
      · have hprev := h2 (k - 1) (by omega)
        rw [show k - 1 + 1 = k by omega] at hprev
        rw [generate_keys_step_succ C D _ _ rows k hk0 (by omega)
          (by rw [List.length_rotate, hC]) (by rw [List.length_rotate, hD])
          (bC.rotate _) (bD.rotate _) (by omega) (h3 k (le_refl k) (by omega)) hprev,
          List.rotate_rotate, List.rotate_rotate, LEFT_SHIFTS_sum_succ k (by omega)]
    rw [hstep]
    refine ⟨by simpa using h1, fun j hj => ?_, fun j hj1 hj2 => ?_⟩
    · by_cases hjk : j = k
      · subst hjk
        exact getD_set_self _ _ _ _ (by omega)
      · rw [getD_set_ne _ _ _ _ _ (fun h => hjk h.symm)]
        exact h2 j (by omega)
    · rw [getD_set_ne _ _ _ _ _ (by omega)]
      exact h3 j (by omega) hj2

theorem generate_keys_shifted_row (key : List Nat) (hk : key.length = 8) (j : Nat)
    (hj : j < 16) :
    (generate_keys_shifted key).getD j []
      = ((select PC_1 (bytes_bits key)).take 28).rotate ((LEFT_SHIFTS.take (j + 1)).sum)
        ++ ((select PC_1 (bytes_bits key)).drop 28).rotate ((LEFT_SHIFTS.take (j + 1)).sum) := by
  unfold generate_keys_shifted
  simp only []
  have hb : Bits (bytes_bits key) := Bits_bytes_bits key
  have hl : (bytes_bits key).length = 64 := by rw [length_bytes_bits, hk]
  have hs : Bits (select PC_1 (bytes_bits key)) := Bits_select _ _ hb (by rw [hl]; decide)
  have hsl : (select PC_1 (bytes_bits key)).length = 56 := length_select _ _
  rw [chars8_to_binchars_eq key _ (length_uninit 64) hk,
    perform_first_permutation_eq _ _ _ (length_uninit 28) (length_uninit 28) hb hl]
  exact (generate_keys_loop _ _ (by simp [hsl]) (by simp [hsl]) (hs.take 28) (hs.drop 28)
    16 (le_refl 16)).2.1 j hj

theorem Bits_shifted_row (key : List Nat) (hk : key.length = 8) (j : Nat) (hj : j < 16) :
    Bits ((generate_keys_shifted key).getD j [])
      ∧ ((generate_keys_shifted key).getD j []).length = 56 := by
  rw [generate_keys_shifted_row key hk j hj]
  have hb : Bits (bytes_bits key) := Bits_bytes_bits key
  have hl : (bytes_bits key).length = 64 := by rw [length_bytes_bits, hk]
  have hs : Bits (select PC_1 (bytes_bits key)) := Bits_select _ _ hb (by rw [hl]; decide)
  have hsl : (select PC_1 (bytes_bits key)).length = 56 := length_select _ _
  constructor
  · exact ((hs.take 28).rotate _).append ((hs.drop 28).rotate _)
  · simp [hsl]

/-- Invariant of the loop of `perform_key_permutation`. -/
theorem perform_key_permutation_loop (keys pk : List (List Char)) (hpk : KeysShape pk)
    (hkeys : ∀ j < 16, Bits (keys.getD j []) ∧ (keys.getD j []).length = 56) (k : Nat)
    (hk : k ≤ 16) :
    (List.range k).foldl
      (fun PERMUTED_KEYS i =>
        PERMUTED_KEYS.set i (strncpy (PERMUTED_KEYS.getD i []) 0
          ((List.range 48).foldl
            (fun permutedKey k =>
              permutedKey.set k ((keys.getD i []).getD (PC_2.getD k 0 - 1) NUL))
            (uninit 48)) 48))
      pk
    = (List.range k).map (fun i => select PC_2 (keys.getD i [])) ++ pk.drop k := by
  induction k with
  | zero => simp
  | succ k ih =>
    rw [List.range_succ k, List.foldl_append, ih (by omega)]
    simp only [List.foldl_cons, List.foldl_nil, List.map_append, List.map_cons, List.map_nil]
    have hlt : k < pk.length := by rw [hpk.1]; omega
    have hrow : (pk.drop k) = pk[k] :: pk.drop (k + 1) := List.drop_eq_getElem_cons hlt
    have hget : ((List.range k).map (fun i => select PC_2 (keys.getD i [])) ++ pk.drop k).getD k []
        = pk[k] := by
      rw [List.getD_eq_getElem?_getD, List.getElem?_append_right (by simp)]
      simp only [List.length_map, List.length_range, Nat.sub_self]
      rw [hrow, List.getElem?_cons_zero, Option.getD_some]
    have hsel : Bits (select PC_2 (keys.getD k [])) :=
      Bits_select _ _ (hkeys k (by omega)).1 (by rw [(hkeys k (by omega)).2]; decide)
    have hsl : (select PC_2 (keys.getD k [])).length = 48 := length_select _ _
    rw [hget, select_loop PC_2 _ (uninit 48) 48 rfl (length_uninit 48),
      strncpy_full _ _ 48 (hpk.2 _ (List.getElem_mem _)) hsl hsel,
      List.set_append_right _ _ (by simp)]
    simp only [List.length_map, List.length_range, Nat.sub_self]
    rw [hrow, List.set_cons_zero, List.append_assoc]
    rfl

theorem generate_keys_eq (key : List Nat) (pk : List (List Char)) (hk : key.length = 8)
    (hpk : KeysShape pk) : generate_keys key pk = spec_keys key := by
  unfold generate_keys perform_key_permutation
  rw [perform_key_permutation_loop _ pk hpk (Bits_shifted_row key hk) 16 (le_refl 16),
    List.drop_of_length_le (by rw [hpk.1]), List.append_nil]
  unfold spec_keys
  apply List.map_congr_left
  intro i hi
  rw [generate_keys_shifted_row key hk i (List.mem_range.1 hi)]
  rfl

/-! ## `reverse_keys` -/

/-- Rows that have the shape of the global array and hold only bits. -/
theorem reverse_keys_loop_spec (fuel : Nat) :
    ∀ (start end_ : Nat) (pk : List (List Char)), KeysShape pk → (∀ row ∈ pk, Bits row) →
      end_ < 16 → end_ + 1 ≤ start + 2 * fuel →
      (KeysShape (reverse_keys_loop fuel start end_ pk)
        ∧ (∀ row ∈ reverse_keys_loop fuel start end_ pk, Bits row))
      ∧ ∀ j, j < 16 → (reverse_keys_loop fuel start end_ pk).getD j []
          = if start ≤ j ∧ j ≤ end_ then pk.getD (start + end_ - j) [] else pk.getD j [] := by
  induction fuel with
  | zero =>
    intro start end_ pk hpk hb _ hf
    refine ⟨⟨hpk, hb⟩, fun j _ => ?_⟩
    have : ¬ (start ≤ j ∧ j ≤ end_) := by omega
    rw [if_neg this]
    rfl
  | succ fuel ih =>
    intro start end_ pk hpk hb he hf
    unfold reverse_keys_loop
    by_cases hlt : start < end_
    · simp only [hlt, if_true]
      have hs : start < pk.length := by rw [hpk.1]; omega
      have hepk : end_ < pk.length := by rw [hpk.1]; omega
      have hrow : ∀ i, i < pk.length → (pk.getD i []).length = 48 ∧ Bits (pk.getD i []) := by
        intro i hi
        rw [List.getD_eq_getElem _ _ hi]
        exact ⟨hpk.2 _ (List.getElem_mem _), hb _ (List.getElem_mem _)⟩
      have hne : start ≠ end_ := by omega
      rw [strncpy_full (uninit 48) _ 48 (length_uninit 48) (hrow start hs).1 (hrow start hs).2,
        strncpy_full _ _ 48 (hrow start hs).1 (hrow end_ hepk).1 (hrow end_ hepk).2,
        getD_set_ne _ _ _ _ _ hne,
        strncpy_full _ _ 48 (hrow end_ hepk).1 (hrow start hs).1 (hrow start hs).2]
      have hpk2 : KeysShape ((pk.set start (pk.getD end_ [])).set end_ (pk.getD start [])) := by
        constructor
        · simp [hpk.1]
        · intro row hrow2
          rcases List.mem_or_eq_of_mem_set hrow2 with h | h
          · rcases List.mem_or_eq_of_mem_set h with h | h
            · exact hpk.2 _ h
            · rw [h]; exact (hrow end_ hepk).1
          · rw [h]; exact (hrow start hs).1
      have hb2 : ∀ row ∈ (pk.set start (pk.getD end_ [])).set end_ (pk.getD start []),
          Bits row := by
        intro row hrow2
        rcases List.mem_or_eq_of_mem_set hrow2 with h | h
        · rcases List.mem_or_eq_of_mem_set h with h | h
          · exact hb _ h
          · rw [h]; exact (hrow end_ hepk).2
        · rw [h]; exact (hrow start hs).2
      obtain ⟨h1, h2⟩ := ih (start + 1) (end_ - 1) _ hpk2 hb2 (by omega) (by omega)
      refine ⟨h1, fun j hj => ?_⟩
      rw [h2 j hj]
      by_cases hj1 : j = start
      · subst hj1
        have c1 : ¬ (j + 1 ≤ j ∧ j ≤ end_ - 1) := by omega
        have c2 : j ≤ j ∧ j ≤ end_ := by omega
        rw [if_neg c1, if_pos c2]
        rw [getD_set_ne _ _ _ _ _ (by omega), getD_set_self _ _ _ _ hs]
        exact congrArg (fun i => List.getD pk i []) (by omega)
      · by_cases hj2 : j = end_
        · subst hj2
          have c1 : ¬ (start + 1 ≤ j ∧ j ≤ j - 1) := by omega
          have c2 : start ≤ j ∧ j ≤ j := by omega
          rw [if_neg c1, if_pos c2]
          rw [getD_set_self _ _ _ _ (by simpa using hepk)]
          exact congrArg (fun i => List.getD pk i []) (by omega)
        · by_cases hmid : start + 1 ≤ j ∧ j ≤ end_ - 1
          · have c2 : start ≤ j ∧ j ≤ end_ := by omega
            rw [if_pos hmid, if_pos c2]
            rw [getD_set_ne _ _ _ _ _ (by omega), getD_set_ne _ _ _ _ _ (by omega)]
            exact congrArg (fun i => List.getD pk i []) (by omega)
          · have c2 : ¬ (start ≤ j ∧ j ≤ end_) := by omega
            rw [if_neg hmid, if_neg c2]
            rw [getD_set_ne _ _ _ _ _ (fun h => hj2 h.symm),
              getD_set_ne _ _ _ _ _ (fun h => hj1 h.symm)]
    · simp only [hlt, if_false]
      refine ⟨⟨hpk, hb⟩, fun j _ => ?_⟩
      by_cases hc : start ≤ j ∧ j ≤ end_
      · rw [if_pos hc]
        exact congrArg (fun i => List.getD pk i []) (by omega)
      · rw [if_neg hc]

theorem reverse_keys_getD (pk : List (List Char)) (hpk : KeysShape pk)
    (hb : ∀ row ∈ pk, Bits row) (j : Nat) (hj : j < 16) :
    (reverse_keys pk).getD j [] = pk.getD (15 - j) [] := by
  have h := (reverse_keys_loop_spec 8 0 15 pk hpk hb (by decide) (by decide)).2 j hj
  have c : 0 ≤ j ∧ j ≤ 15 := by omega
  rw [if_pos c, Nat.zero_add] at h
  exact h

theorem reverse_keys_eq (pk : List (List Char)) (hpk : KeysShape pk)
    (hb : ∀ row ∈ pk, Bits row) : reverse_keys pk = pk.reverse := by
  have hs := (reverse_keys_loop_spec 8 0 15 pk hpk hb (by decide) (by decide)).1.1
  apply List.ext_getElem
  · rw [List.length_reverse, hpk.1]
    exact hs.1
  · intro j h1 h2
    have hj : j < 16 := by
      have : (reverse_keys pk).length = 16 := hs.1
      omega
    have h := reverse_keys_getD pk hpk hb j hj
    rw [← List.getD_eq_getElem _ [] h1, ← List.getD_eq_getElem _ [] h2, h,
      List.getD_eq_getElem?_getD, List.getD_eq_getElem?_getD,
      List.getElem?_reverse (by rw [hpk.1]; exact hj), hpk.1]

/-! ## Bit vectors as numbers -/

theorem bit_char_toNat (b : Bool) : (if bit_char b = '1' then 1 else 0) = b.toNat := by
  cases b <;> simp [bit_char]

theorem getD_value_bits (w x i : Nat) (h : i < w) :
    (value_bits w x).getD i NUL = bit_char (x.testBit (w - 1 - i)) := by
  rw [List.getD_eq_getElem _ _ (by simpa [value_bits] using h)]
  simp [value_bits]

theorem foldl_congr_mem {α β : Type} (g h : β → α → β) (l : List α) (b : β)
    (H : ∀ acc, ∀ a ∈ l, g acc a = h acc a) : l.foldl g b = l.foldl h b := by
  induction l generalizing b with
  | nil => rfl
  | cons a l ih =>
    simp only [List.foldl_cons]
    rw [H b a (by simp)]
    exact ih _ (fun acc x hx => H acc x (by simp [hx]))

theorem bits_value_select (T : List Nat) (w x : Nat) (hT : ∀ p ∈ T, 1 ≤ p ∧ p ≤ w) :
    bits_value (select T (value_bits w x)) = sel_nat T w x := by
  unfold bits_value select sel_nat
  rw [List.foldl_map]
  apply foldl_congr_mem
  intro acc p hp
  obtain ⟨h1, h2⟩ := hT p hp
  show _ = 2 * acc + x / 2 ^ (w - p) % 2
  rw [getD_value_bits w x (p - 1) (by omega), bit_char_toNat, Nat.toNat_testBit]
  congr 3
  congr 1
  omega

theorem select_value_bits (T : List Nat) (w x : Nat) (hT : ∀ p ∈ T, 1 ≤ p ∧ p ≤ w) :
    select T (value_bits w x) = value_bits T.length (sel_nat T w x) := by
  have hb : Bits (select T (value_bits w x)) :=
    Bits_select _ _ (Bits_value_bits w x) (by
      intro p hp
      rw [length_value_bits]
      have := hT p hp
      omega)
  have h := value_bits_bits_value _ hb
  rw [length_select, bits_value_select T w x hT] at h
  exact h.symm

theorem value_bits_mod (n x : Nat) : value_bits n (x % 2 ^ n) = value_bits n x := by
  unfold value_bits
  apply List.map_congr_left
  intro i hi
  have hi : i < n := List.mem_range.1 hi
  have h : n - 1 - i < n := by omega
  rw [Nat.testBit_mod_two_pow]
  simp [h]

theorem sel_nat_lt (T : List Nat) (w x : Nat) : sel_nat T w x < 2 ^ T.length := by
  unfold sel_nat
  induction T using List.reverseRecOn with
  | nil => simp
  | append_singleton l p ih =>
    rw [List.foldl_append, List.length_append, List.length_singleton, pow_succ]
    simp only [List.foldl_cons, List.foldl_nil]
    show 2 * _ + x / 2 ^ (w - p) % 2 < _
    have : x / 2 ^ (w - p) % 2 < 2 := Nat.mod_lt _ (by decide)
    omega

theorem char_xor_bit_char (a b : Bool) : char_xor (bit_char a) (bit_char b) = bit_char (a ^^ b) := by
  cases a <;> cases b <;> decide

theorem xor_value_bits (w x y : Nat) :
    xor_bits (value_bits w x) (value_bits w y) = value_bits w (x ^^^ y) := by
  apply List.ext_getElem
  · simp [xor_bits, value_bits]
  · intro i h1 h2
    simp only [xor_bits, value_bits, List.getElem_zipWith, List.getElem_map,
      List.getElem_range]
    rw [char_xor_bit_char, Nat.testBit_xor]

theorem value_bits_append_aux (a b x y : Nat) (hy : y < 2 ^ b) :
    value_bits a x ++ value_bits b y = value_bits (a + b) (2 ^ b * x + y) := by
  apply List.ext_getElem
  · simp [length_value_bits]
  · intro i h1 h2
    simp only [List.length_append, length_value_bits] at h1
    by_cases hi : i < a
    · rw [List.getElem_append_left (by simpa [length_value_bits] using hi)]
      simp only [value_bits, List.getElem_map, List.getElem_range]
      rw [Nat.testBit_mul_pow_two_add x hy]
      have : ¬ (a + b - 1 - i < b) := by omega
      rw [if_neg this]
      congr 2
      omega
    · rw [List.getElem_append_right (by simpa [length_value_bits] using hi)]
      simp only [value_bits, List.getElem_map, List.getElem_range, List.length_map,
        List.length_range]
      rw [Nat.testBit_mul_pow_two_add x hy]
      have : a + b - 1 - i < b := by omega
      rw [if_pos this]
      congr 2
      omega

theorem value_bits_append (a b x y : Nat) (hy : y < 2 ^ b) :
    value_bits a x ++ value_bits b y = value_bits (a + b) (x * 2 ^ b + y) := by
  rw [Nat.mul_comm x (2 ^ b)]
  exact value_bits_append_aux a b x y hy

theorem take_value_bits (a b x : Nat) :
    (value_bits (a + b) x).take a = value_bits a (x / 2 ^ b) := by
  have h := value_bits_append a b (x / 2 ^ b) (x % 2 ^ b) (Nat.mod_lt _ (by positivity))
  rw [Nat.div_add_mod'] at h
  rw [← h, List.take_left' (length_value_bits _ _)]

theorem drop_value_bits (a b x : Nat) :
    (value_bits (a + b) x).drop a = value_bits b x := by
  have h := value_bits_append a b (x / 2 ^ b) (x % 2 ^ b) (Nat.mod_lt _ (by positivity))
  rw [Nat.div_add_mod'] at h
  rw [← h, List.drop_left' (length_value_bits _ _), value_bits_mod]

/-! ## The round function on numbers -/

theorem S_entries_le : ∀ i < 8, ∀ j < 64, (S.getD i []).getD j 0 ≤ 15 := by decide

theorem S_rows_length : ∀ i < 8, (S.getD i []).length = 64 := by decide

theorem S_getD_le (i j : Nat) : (S.getD i []).getD j 0 ≤ 15 := by
  by_cases hi : i < 8
  · by_cases hj : j < 64
    · exact S_entries_le i hi j hj
    · rw [List.getD_eq_default _ _ (by rw [S_rows_length i hi]; omega)]
      omega
  · rw [List.getD_eq_default S _ (by simp [S]; omega)]
    simp

set_option maxRecDepth 100000 in
theorem S_packed_entries :
    ∀ i < 8, ∀ j < 64, S_packed.getD i 0 / 16 ^ j % 16 = (S.getD i []).getD j 0 := by
  decide!

theorem sbox_nat_lt (x i : Nat) : sbox_nat x i < 16 := by
  unfold sbox_nat
  exact Nat.mod_lt _ (by decide)

theorem group_index : ∀ g < 64,
    bits_value [(value_bits 6 g).getD 0 NUL, (value_bits 6 g).getD 5 NUL] = g / 32 * 2 + g % 2
    ∧ bits_value [(value_bits 6 g).getD 1 NUL, (value_bits 6 g).getD 2 NUL,
        (value_bits 6 g).getD 3 NUL, (value_bits 6 g).getD 4 NUL] = g / 2 % 16 := by
  decide

theorem group_value_bits (X i : Nat) (hi : i < 8) :
    ((value_bits 48 X).drop (6 * i)).take 6 = value_bits 6 (X / 2 ^ (6 * (7 - i)) % 64) := by
  have h1 := drop_value_bits (6 * i) (48 - 6 * i) X
  rw [show 6 * i + (48 - 6 * i) = 48 by omega] at h1
  have h2 := take_value_bits 6 (6 * (7 - i)) X
  rw [show 6 + 6 * (7 - i) = 48 - 6 * i by omega] at h2
  rw [h1, h2]
  exact (value_bits_mod 6 _).symm

theorem sbox_bits_value_bits (X i : Nat) (hi : i < 8) :
    sbox_bits (value_bits 48 X) i = value_bits 4 (sbox_nat X i) := by
  unfold sbox_bits sbox_nat
  simp only []
  rw [group_value_bits X i hi]
  have hg : X / 2 ^ (6 * (7 - i)) % 64 < 64 := Nat.mod_lt _ (by decide)
  obtain ⟨h1, h2⟩ := group_index _ hg
  rw [h1, h2, S_packed_entries i hi _ (by omega)]

theorem flatten_value_bits (s : Nat → Nat) (hs : ∀ i, s i < 16) (k : Nat) :
    ((List.range k).map (fun i => value_bits 4 (s i))).flatten
      = value_bits (4 * k) ((List.range k).foldl (fun acc i => 16 * acc + s i) 0) := by
  induction k with
  | zero => simp [value_bits]
  | succ k ih =>
    rw [List.range_succ, List.map_append, List.flatten_append, ih, List.foldl_append]
    simp only [List.map_cons, List.map_nil, List.flatten_cons, List.flatten_nil,
      List.append_nil, List.foldl_cons, List.foldl_nil]
    rw [value_bits_append _ _ _ _ (hs k), Nat.mul_comm _ (2 ^ 4)]
    rfl

theorem E_entries : ∀ p ∈ E, 1 ≤ p ∧ p ≤ 32 := by decide

theorem P_entries : ∀ p ∈ P, 1 ≤ p ∧ p ≤ 32 := by decide

theorem IP_entries : ∀ p ∈ IP, 1 ≤ p ∧ p ≤ 64 := by decide

theorem IP_REVERSED_entries : ∀ p ∈ IP_REVERSED, 1 ≤ p ∧ p ≤ 64 := by decide

theorem PC_1_entries : ∀ p ∈ PC_1, 1 ≤ p ∧ p ≤ 64 := by decide

theorem PC_2_entries : ∀ p ∈ PC_2, 1 ≤ p ∧ p ≤ 56 := by decide

/-- The round function of the specification on encoded numbers. -/
theorem spec_f_value_bits (R K : Nat) :
    spec_f (value_bits 32 R) (value_bits 48 K) = value_bits 32 (f_nat R K) := by
  unfold spec_f f_nat
  rw [select_value_bits E 32 R E_entries, show E.length = 48 from rfl, xor_value_bits]
  have hmap : (List.range 8).map (sbox_bits (value_bits 48 (sel_nat E 32 R ^^^ K)))
      = (List.range 8).map (fun i => value_bits 4 (sbox_nat (sel_nat E 32 R ^^^ K) i)) := by
    apply List.map_congr_left
    intro i hi
    exact sbox_bits_value_bits _ i (List.mem_range.1 hi)
  rw [hmap, flatten_value_bits _ (fun i => sbox_nat_lt _ i) 8, show 4 * 8 = 32 from rfl,
    select_value_bits P 32 _ P_entries]
  rfl

/-! ## The driver on numbers -/

theorem rounds_nat_append (ks : List Nat) (K : Nat) (LR : Nat × Nat) :
    rounds_nat (ks ++ [K]) LR
      = ((rounds_nat ks LR).2, (rounds_nat ks LR).1 ^^^ f_nat (rounds_nat ks LR).2 K) := by
  simp [rounds_nat, List.foldl_append]

/-- The halves after `n` rounds, on encoded numbers, for round keys that
are the encodings of the numbers `ks`. -/
theorem spec_rounds_value_bits (pk : List (List Char)) (ks : List Nat) (hks : ks.length = 16)
    (hrow : ∀ n < 16, pk.getD n [] = value_bits 48 (ks.getD n 0)) (L R n : Nat)
    (hn : n ≤ 16) :
    spec_rounds (fun n R => f pk (uninit 32) R n) (value_bits 32 L, value_bits 32 R) n
      = (value_bits 32 (rounds_nat (ks.take n) (L, R)).1,
          value_bits 32 (rounds_nat (ks.take n) (L, R)).2) := by
  induction n with
  | zero => rfl
  | succ n ih =>
    have hlt : n < ks.length := by omega
    have ht : ks.take (n + 1) = ks.take n ++ [ks.getD n 0] := by
      rw [List.take_succ, List.getElem?_eq_getElem hlt, List.getD_eq_getElem _ _ hlt]
      rfl
    rw [spec_rounds_succ, ih (by omega), ht, rounds_nat_append]
    dsimp only
    rw [f_eq pk _ _ n (by rw [hrow n (by omega), length_value_bits]) (length_uninit 32),
      hrow n (by omega), spec_f_value_bits, xor_value_bits]

theorem bytes_nat_append (l : List Nat) (x : Nat) :
    bytes_nat (l ++ [x]) = 256 * bytes_nat l + x := by
  simp [bytes_nat, List.foldl_append]

theorem bytes_bits_value_bits (b : List Nat) (hb : ∀ x ∈ b, x < 256) :
    bytes_bits b = value_bits (8 * b.length) (bytes_nat b) := by
  induction b using List.reverseRecOn with
  | nil => simp [bytes_bits, value_bits]
  | append_singleton l x ih =>
    have hx : x < 2 ^ 8 := hb x (by simp)
    rw [bytes_bits_append, ih (fun y hy => hb y (by simp [hy])), bytes_nat_append,
      List.length_append, List.length_singleton, Nat.mul_add, Nat.mul_one,
      Nat.mul_comm 256 _]
    have h1 : bytes_bits [x] = value_bits 8 x := by simp [bytes_bits]
    rw [h1, value_bits_append _ _ _ _ hx]
    rfl

theorem bytes_bits_value_bits8 (b : List Nat) (hb : Bytes8 b) :
    bytes_bits b = value_bits 64 (bytes_nat b) := by
  rw [bytes_bits_value_bits b hb.2, hb.1]

theorem bits_bytes_value_bits (C : Nat) : bits_bytes (value_bits 64 C) = nat_bytes C := by
  unfold bits_bytes nat_bytes
  apply List.map_congr_left
  intro i hi
  have hi : i < 8 := List.mem_range.1 hi
  have h1 := drop_value_bits (8 * i) (64 - 8 * i) C
  rw [show 8 * i + (64 - 8 * i) = 64 by omega] at h1
  have h2 := take_value_bits 8 (8 * (7 - i)) C
  rw [show 8 + 8 * (7 - i) = 64 - 8 * i by omega] at h2
  rw [h1, h2, bits_value_value_bits]
  rfl

/-- The 64 bits of the driver of the specification on encoded numbers. -/
theorem spec_crypt_bits_nat (pk : List (List Char)) (ks : List Nat) (hks : ks.length = 16)
    (hrow : ∀ n < 16, pk.getD n [] = value_bits 48 (ks.getD n 0)) (p : List Nat)
    (hp : Bytes8 p) :
    spec_crypt_bits (fun n R => f pk (uninit 32) R n) p
      = value_bits 64 (crypt_nat ks (bytes_nat p)) := by
  unfold spec_crypt_bits crypt_nat
  simp only []
  rw [bytes_bits_value_bits8 p hp, select_value_bits IP 64 _ IP_entries,
    show IP.length = 32 + 32 from rfl, take_value_bits, drop_value_bits,
    ← value_bits_mod 32 (sel_nat IP 64 (bytes_nat p)),
    spec_rounds_value_bits pk ks hks hrow _ _ 16 (le_refl 16),
    List.take_of_length_le (by omega)]
  dsimp only
  rw [← value_bits_mod 32 (rounds_nat ks _).1,
    value_bits_append 32 32 _ _ (Nat.mod_lt _ (by positivity)),
    select_value_bits IP_REVERSED 64 _ IP_REVERSED_entries]
  rfl

/-- The driver of the specification on encoded numbers. -/
theorem spec_crypt_nat (pk : List (List Char)) (ks : List Nat) (hks : ks.length = 16)
    (hrow : ∀ n < 16, pk.getD n [] = value_bits 48 (ks.getD n 0)) (p : List Nat)
    (hp : Bytes8 p) :
    spec_crypt (fun n R => f pk (uninit 32) R n) p = nat_bytes (crypt_nat ks (bytes_nat p)) := by
  rw [spec_crypt_eq_bits, spec_crypt_bits_nat pk ks hks hrow p hp]
  exact bits_bytes_value_bits _

/-! ## The round keys on numbers -/

theorem rotl28_lt (x r : Nat) (hr : r ≤ 28) (hx : x < 2 ^ 28) : rotl28 x r < 2 ^ 28 := by
  unfold rotl28
  have hA : x % 2 ^ (28 - r) + 1 ≤ 2 ^ (28 - r) := Nat.mod_lt _ (by positivity)
  have hp : 2 ^ (28 - r) * 2 ^ r = 2 ^ 28 := by
    rw [← pow_add]
    congr 1
    omega
  have hB : x / 2 ^ (28 - r) < 2 ^ r := by
    apply Nat.div_lt_of_lt_mul
    rw [hp]
    exact hx
  have hC : (x % 2 ^ (28 - r) + 1) * 2 ^ r ≤ 2 ^ (28 - r) * 2 ^ r :=
    Nat.mul_le_mul_right _ hA
  rw [hp, Nat.add_mul, Nat.one_mul] at hC
  omega

theorem rotate_value_bits (x r : Nat) (hr : r ≤ 28) (hx : x < 2 ^ 28) :
    (value_bits 28 x).rotate r = value_bits 28 (rotl28 x r) := by
  rw [List.rotate_eq_drop_append_take (by rw [length_value_bits]; exact hr)]
  have h1 := drop_value_bits r (28 - r) x
  have h2 := take_value_bits r (28 - r) x
  rw [show r + (28 - r) = 28 by omega] at h1 h2
  have hp : 2 ^ (28 - r) * 2 ^ r = 2 ^ 28 := by
    rw [← pow_add]
    congr 1
    omega
  have hB : x / 2 ^ (28 - r) < 2 ^ r := by
    apply Nat.div_lt_of_lt_mul
    rw [hp]
    exact hx
  rw [h1, h2, ← value_bits_mod (28 - r) x, value_bits_append _ _ _ _ hB,
    show 28 - r + r = 28 by omega]
  rfl

theorem LEFT_SHIFTS_sum_le : ∀ n ≤ 16, (LEFT_SHIFTS.take n).sum ≤ 28 := by decide

/-- Round key `n` of the specification on encoded numbers. -/
theorem spec_round_key_nat (key : List Nat) (hk : Bytes8 key) (n : Nat) (hn : n ≤ 16) :
    spec_round_key key n = value_bits 48 (round_key_nat (bytes_nat key) n) := by
  unfold spec_round_key round_key_nat
  simp only []
  have hr := LEFT_SHIFTS_sum_le n hn
  have hc : sel_nat PC_1 64 (bytes_nat key) < 2 ^ 56 := sel_nat_lt PC_1 64 _
  have hC : sel_nat PC_1 64 (bytes_nat key) / 2 ^ 28 < 2 ^ 28 := by
    apply Nat.div_lt_of_lt_mul
    rw [← pow_add]
    exact hc
  have hD : sel_nat PC_1 64 (bytes_nat key) % 2 ^ 28 < 2 ^ 28 := Nat.mod_lt _ (by positivity)
  rw [bytes_bits_value_bits8 key hk, select_value_bits PC_1 64 _ PC_1_entries,
    show PC_1.length = 28 + 28 from rfl, take_value_bits, drop_value_bits,
    ← value_bits_mod 28 (sel_nat PC_1 64 (bytes_nat key)),
    rotate_value_bits _ _ hr hC, rotate_value_bits _ _ hr hD,
    value_bits_append 28 28 _ _ (rotl28_lt _ _ hr hD),
    select_value_bits PC_2 56 _ PC_2_entries]
  rfl

theorem spec_keys_nat (key : List Nat) (hk : Bytes8 key) :
    spec_keys key = (keys_nat (bytes_nat key)).map (value_bits 48) := by
  unfold spec_keys keys_nat
  rw [List.map_map]
  apply List.map_congr_left
  intro i hi
  have hi : i < 16 := List.mem_range.1 hi
  exact spec_round_key_nat key hk (i + 1) (by omega)

theorem length_keys_nat (X : Nat) : (keys_nat X).length = 16 := by
  simp [keys_nat]

theorem length_spec_keys (key : List Nat) : (spec_keys key).length = 16 := by
  simp [spec_keys]

theorem getD_map_value_bits (ks : List Nat) (n : Nat) (hn : n < ks.length) :
    (ks.map (value_bits 48)).getD n [] = value_bits 48 (ks.getD n 0) := by
  rw [List.getD_eq_getElem _ _ (by simpa using hn), List.getD_eq_getElem _ _ hn,
    List.getElem_map]

theorem keys_rows_nat (k : List Nat) (hk : Bytes8 k) :
    ∀ n < 16, (spec_keys k).getD n [] = value_bits 48 ((keys_nat (bytes_nat k)).getD n 0) := by
  intro n hn
  rw [spec_keys_nat k hk]
  exact getD_map_value_bits _ n (by rw [length_keys_nat]; exact hn)

theorem crypt_chunk_e_unfold (p k r : List Nat) (pk : List (List Char))
    (mem : Nat → List Char) :
    crypt_chunk p k 'e' r pk mem
      = (crypt (generate_keys k pk) p r mem, generate_keys k pk) := by
  unfold crypt_chunk
  dsimp only
  rw [if_neg (by decide)]

theorem crypt_chunk_d_unfold (p k r : List Nat) (pk : List (List Char))
    (mem : Nat → List Char) :
    crypt_chunk p k 'd' r pk mem
      = (crypt (reverse_keys (generate_keys k pk)) p r mem,
          reverse_keys (generate_keys k pk)) := by
  unfold crypt_chunk
  dsimp only
  rw [if_pos rfl]

/-- Whatever follows the buffer of the conversion, encryption by
`crypt_chunk` returns in place `i` what the conversion makes of byte `i`
of the cipher on numbers followed by the characters `mem i`. -/
theorem crypt_chunk_e_mem (p k r : List Nat) (pk : List (List Char)) (mem : Nat → List Char)
    (hp : Bytes8 p) (hk : Bytes8 k) (hr : r.length = 8) (hpk : KeysShape pk) :
    (crypt_chunk p k 'e' r pk mem).1
      = (List.range 8).map (fun i =>
          (binary_to_int (atol (value_bits 8
            ((nat_bytes (crypt_nat (keys_nat (bytes_nat k)) (bytes_nat p))).getD i 0)
              ++ mem i)) % 256).toNat) := by
  rw [crypt_chunk_e_unfold]
  dsimp only
  rw [generate_keys_eq k pk hk.1 hpk, crypt_mem _ p r mem hp.1 hr,
    spec_crypt_nat _ _ (length_keys_nat _) (keys_rows_nat k hk) p hp]

/-- With the memory of `frame_mem`, the bytes that `crypt_chunk` returns
are determined by its arguments and the byte `c0`. -/
theorem crypt_chunk_frame_unique (p k : List Nat) (mode : Char) (r : List Nat)
    (pk : List (List Char)) (c0 : Nat) (R R2 : List Nat) (hp : p.length = 8)
    (hr : r.length = 8) (h1 : (crypt_chunk p k mode r pk (frame_mem c0 R)).1 = R)
    (h2 : (crypt_chunk p k mode r pk (frame_mem c0 R2)).1 = R2) : R = R2 := by
  unfold crypt_chunk at h1 h2
  exact crypt_frame_unique _ p r c0 R R2 hp hr h1 h2

/-! ## Inverse permutations and the inversion of the rounds -/

theorem getD_select (U : List Nat) (v : List Char) (j : Nat) (hj : j < U.length) :
    (select U v).getD j NUL = v.getD (U.getD j 0 - 1) NUL := by
  rw [List.getD_eq_getElem _ _ (by rw [length_select]; exact hj), List.getD_eq_getElem U _ hj]
  simp [select]

/-- Selecting through `U` and then through `T` gives the vector back when
`U` sends every position named by `T` back to its index. -/
theorem select_select_inv (T U : List Nat) (v : List Char) (hT : T.length = v.length)
    (h : ∀ i < T.length, T.getD i 0 - 1 < U.length ∧ U.getD (T.getD i 0 - 1) 0 - 1 = i) :
    select T (select U v) = v := by
  apply List.ext_getElem
  · rw [length_select, hT]
  · intro i h1 h2
    have hi : i < T.length := by rw [hT]; exact h2
    obtain ⟨ha, hb⟩ := h i hi
    have e := getD_select T (select U v) i hi
    rw [getD_select U v _ ha, hb, List.getD_eq_getElem _ _ h1, List.getD_eq_getElem _ _ h2] at e
    exact e

theorem IP_after_IP_REVERSED :
    ∀ i < IP.length, IP.getD i 0 - 1 < IP_REVERSED.length
      ∧ IP_REVERSED.getD (IP.getD i 0 - 1) 0 - 1 = i := by
  decide

theorem IP_REVERSED_after_IP :
    ∀ i < IP_REVERSED.length, IP_REVERSED.getD i 0 - 1 < IP.length
      ∧ IP.getD (IP_REVERSED.getD i 0 - 1) 0 - 1 = i := by
  decide

theorem select_IP_IP_REVERSED (v : List Char) (hv : v.length = 64) :
    select IP (select IP_REVERSED v) = v :=
  select_select_inv IP IP_REVERSED v (by rw [hv]; rfl) IP_after_IP_REVERSED

theorem select_IP_REVERSED_IP (v : List Char) (hv : v.length = 64) :
    select IP_REVERSED (select IP v) = v :=
  select_select_inv IP_REVERSED IP v (by rw [hv]; rfl) IP_REVERSED_after_IP

theorem char_xor_cancel (a b : Char) (ha : a = '0' ∨ a = '1') (hb : b = '0' ∨ b = '1') :
    char_xor (char_xor a b) b = a := by
  rcases ha with rfl | rfl <;> rcases hb with rfl | rfl <;> decide

theorem xor_bits_cancel (a b : List Char) (ha : Bits a) (hb : Bits b)
    (hl : a.length = b.length) : xor_bits (xor_bits a b) b = a := by
  apply List.ext_getElem
  · simp [xor_bits, hl]
  · intro i h1 h2
    have h3 : i < b.length := by rw [← hl]; exact h2
    simp only [xor_bits, List.getElem_zipWith]
    exact char_xor_cancel _ _ (ha _ (List.getElem_mem _)) (hb _ (List.getElem_mem _))

/-- Both halves stay 32-bit vectors through the rounds. -/
theorem spec_rounds_bits (F : Nat → List Char → List Char)
    (hF : ∀ n R, Bits (F n R) ∧ (F n R).length = 32) (L R : List Char) (hL : Bits L)
    (hR : Bits R) (lL : L.length = 32) (lR : R.length = 32) (n : Nat) :
    (Bits (spec_rounds F (L, R) n).1 ∧ (spec_rounds F (L, R) n).1.length = 32)
      ∧ Bits (spec_rounds F (L, R) n).2 ∧ (spec_rounds F (L, R) n).2.length = 32 := by
  induction n with
  | zero => exact ⟨⟨hL, lL⟩, hR, lR⟩
  | succ n ih =>
    obtain ⟨⟨h1, h2⟩, h3, h4⟩ := ih
    rw [spec_rounds_succ]
    dsimp only
    refine ⟨⟨h3, h4⟩, Bits_xor_bits _ _, ?_⟩
    rw [length_xor_bits, h2, (hF n _).2]
    rfl

/-- Running the rounds with the round functions in reverse order on the
swapped halves undoes the rounds. -/
theorem spec_rounds_inverse (F G : Nat → List Char → List Char) (N : Nat)
    (hFG : ∀ n < N, ∀ R, G n R = F (N - 1 - n) R)
    (hF : ∀ n R, Bits (F n R) ∧ (F n R).length = 32) (L R : List Char) (hL : Bits L)
    (hR : Bits R) (lL : L.length = 32) (lR : R.length = 32) (n : Nat) (hn : n ≤ N) :
    spec_rounds G ((spec_rounds F (L, R) N).2, (spec_rounds F (L, R) N).1) n
      = ((spec_rounds F (L, R) (N - n)).2, (spec_rounds F (L, R) (N - n)).1) := by
  induction n with
  | zero => rfl
  | succ n ih =>
    rw [spec_rounds_succ, ih (by omega)]
    dsimp only
    have hm : N - n = (N - 1 - n) + 1 := by omega
    have hm2 : N - (n + 1) = N - 1 - n := by omega
    rw [hFG n (by omega), hm2, hm, spec_rounds_succ]
    dsimp only
    obtain ⟨⟨h1, h2⟩, h3, h4⟩ := spec_rounds_bits F hF L R hL hR lL lR (N - 1 - n)
    rw [xor_bits_cancel _ _ h1 (hF _ _).1 (by rw [h2, (hF _ _).2])]

theorem length_bits_bytes (v : List Char) : (bits_bytes v).length = 8 := by
  simp [bits_bytes]

/-- The driver with the round functions in reverse order inverts the
driver. -/
theorem spec_crypt_inverse (F G : Nat → List Char → List Char)
    (hFG : ∀ n < 16, ∀ R, G n R = F (16 - 1 - n) R)
    (hF : ∀ n R, Bits (F n R) ∧ (F n R).length = 32) (p : List Nat) (hp : Bytes8 p) :
    spec_crypt G (spec_crypt F p) = p := by
  have hb : Bits (bytes_bits p) := Bits_bytes_bits p
  have hl : (bytes_bits p).length = 64 := by rw [length_bytes_bits, hp.1]
  have hip : Bits (select IP (bytes_bits p)) := Bits_select _ _ hb (by rw [hl]; decide)
  have hipl : (select IP (bytes_bits p)).length = 64 := length_select _ _
  have hL := hip.take 32
  have hR := hip.drop 32
  have lL : ((select IP (bytes_bits p)).take 32).length = 32 := by simp [hipl]
  have lR : ((select IP (bytes_bits p)).drop 32).length = 32 := by simp [hipl]
  obtain ⟨⟨h1, h2⟩, h3, h4⟩ := spec_rounds_bits F hF _ _ hL hR lL lR 16
  have hinv := spec_rounds_inverse F G 16 hFG hF _ _ hL hR lL lR 16 (le_refl 16)
  rw [Nat.sub_self, spec_rounds_zero] at hinv
  dsimp only at hinv
  unfold spec_crypt
  simp only []
  generalize spec_rounds F ((select IP (bytes_bits p)).take 32,
    (select IP (bytes_bits p)).drop 32) 16 = X at h1 h2 h3 h4 hinv
  have hcat : (X.2 ++ X.1).length = 64 := by rw [List.length_append, h2, h4]
  have hsel : Bits (select IP_REVERSED (X.2 ++ X.1)) :=
    Bits_select _ _ (h3.append h1) (by rw [hcat]; decide)
  rw [bytes_bits_bits_bytes _ hsel (length_select _ _), select_IP_IP_REVERSED _ hcat,
    List.take_left' h4, List.drop_left' h4, hinv]
  dsimp only
  rw [List.take_append_drop, select_IP_REVERSED_IP _ hl, bits_bytes_bytes_bits p hp]

/-! ## `crypt_chunk` in both modes -/

theorem Bits_spec_round_key (key : List Nat) (hk : key.length = 8) (n : Nat) :
    Bits (spec_round_key key n) ∧ (spec_round_key key n).length = 48 := by
  have hb : Bits (bytes_bits key) := Bits_bytes_bits key
  have hl : (bytes_bits key).length = 64 := by rw [length_bytes_bits, hk]
  have hs : Bits (select PC_1 (bytes_bits key)) := Bits_select _ _ hb (by rw [hl]; decide)
  have hsl : (select PC_1 (bytes_bits key)).length = 56 := length_select _ _
  unfold spec_round_key
  simp only []
  refine ⟨Bits_select _ _ (((hs.take 28).rotate _).append ((hs.drop 28).rotate _)) ?_,
    length_select _ _⟩
  have : (((select PC_1 (bytes_bits key)).take 28).rotate (LEFT_SHIFTS.take n).sum
      ++ ((select PC_1 (bytes_bits key)).drop 28).rotate (LEFT_SHIFTS.take n).sum).length
      = 56 := by
    simp [hsl]
  rw [this]
  decide

theorem getD_spec_keys (key : List Nat) (n : Nat) (hn : n < 16) :
    (spec_keys key).getD n [] = spec_round_key key (n + 1) := by
  unfold spec_keys
  rw [List.getD_eq_getElem _ _ (by simpa using hn)]
  simp

theorem KeysShape_spec_keys (key : List Nat) : KeysShape (spec_keys key) := by
  constructor
  · simp [spec_keys]
  · intro row hrow
    simp only [spec_keys, List.mem_map] at hrow
    obtain ⟨i, _, rfl⟩ := hrow
    exact length_select _ _

theorem Bits_spec_keys (key : List Nat) (hk : key.length = 8) :
    ∀ row ∈ spec_keys key, Bits row := by
  intro row hrow
  simp only [spec_keys, List.mem_map] at hrow
  obtain ⟨i, _, rfl⟩ := hrow
  exact (Bits_spec_round_key key hk _).1

/-- The output of `f` depends on `PERMUTED_KEYS` through the row of the
round only, and not on the prior content of the output buffer. -/
theorem f_congr_row (pk pk2 : List (List Char)) (out out2 R : List Char) (n m : Nat)
    (ho : out.length = 32) (ho2 : out2.length = 32) (h : pk.getD n [] = pk2.getD m []) :
    f pk out R n = f pk2 out2 R m := by
  rw [f_eq_select pk out R n ho, f_eq_select pk2 out2 R m ho2, h]

theorem spec_rounds_congr (F G : Nat → List Char → List Char) (LR : List Char × List Char)
    (N : Nat) (h : ∀ n < N, ∀ R, F n R = G n R) :
    spec_rounds F LR N = spec_rounds G LR N := by
  induction N with
  | zero => rfl
  | succ N ih =>
    rw [spec_rounds_succ, spec_rounds_succ, ih (fun n hn => h n (by omega)), h N (by omega)]

theorem spec_crypt_congr (F G : Nat → List Char → List Char) (p : List Nat)
    (h : ∀ n < 16, ∀ R, F n R = G n R) : spec_crypt F p = spec_crypt G p := by
  unfold spec_crypt
  simp only []
  rw [spec_rounds_congr F G _ 16 h]

theorem spec_crypt_bits_congr (F G : Nat → List Char → List Char) (p : List Nat)
    (h : ∀ n < 16, ∀ R, F n R = G n R) : spec_crypt_bits F p = spec_crypt_bits G p := by
  unfold spec_crypt_bits
  simp only []
  rw [spec_rounds_congr F G _ 16 h]

theorem f_bits_length (pk : List (List Char)) (g : Nat → Nat) :
    ∀ n R, Bits ((fun n R => f pk (uninit 32) R (g n)) n R)
      ∧ ((fun n R => f pk (uninit 32) R (g n)) n R).length = 32 :=
  fun n R => ⟨Bits_f pk _ R (g n) (length_uninit 32), length_f pk _ R (g n) (length_uninit 32)⟩

theorem Bits_spec_crypt_bits (F : Nat → List Char → List Char)
    (hF : ∀ n R, Bits (F n R) ∧ (F n R).length = 32) (p : List Nat) (hp : p.length = 8) :
    Bits (spec_crypt_bits F p) ∧ (spec_crypt_bits F p).length = 64 := by
  have hb : Bits (bytes_bits p) := Bits_bytes_bits p
  have hl : (bytes_bits p).length = 64 := by rw [length_bytes_bits, hp]
  have hip : Bits (select IP (bytes_bits p)) := Bits_select _ _ hb (by rw [hl]; decide)
  have hipl : (select IP (bytes_bits p)).length = 64 := length_select _ _
  obtain ⟨⟨h1, h2⟩, h3, h4⟩ := spec_rounds_bits F hF _ _ (hip.take 32) (hip.drop 32)
    (show ((select IP (bytes_bits p)).take 32).length = 32 by simp [hipl])
    (show ((select IP (bytes_bits p)).drop 32).length = 32 by simp [hipl]) 16
  unfold spec_crypt_bits
  simp only []
  refine ⟨Bits_select _ _ (h3.append h1) ?_, length_select _ _⟩
  rw [List.length_append, h2, h4]
  decide

theorem Bytes8_spec_crypt (F : Nat → List Char → List Char)
    (hF : ∀ n R, Bits (F n R) ∧ (F n R).length = 32) (p : List Nat) (hp : p.length = 8) :
    Bytes8 (spec_crypt F p) := by
  rw [spec_crypt_eq_bits]
  exact Bytes8_bits_bytes _ (Bits_spec_crypt_bits F hF p hp).1

theorem length_spec_crypt (F : Nat → List Char → List Char) (p : List Nat) :
    (spec_crypt F p).length = 8 :=
  length_bits_bytes _

/-- Mode `'e'`, whatever follows the buffer of the conversion: the 64
bits handed to `binchars64_to_char8` are those of the driver of the
specification with round key `n` in round `n`. -/
theorem crypt_chunk_e_bits (p k r : List Nat) (pk : List (List Char)) (mem : Nat → List Char)
    (hp : p.length = 8) (hk : k.length = 8) (hpk : KeysShape pk) :
    crypt_chunk p k 'e' r pk mem
      = (binchars64_to_char8
          (spec_crypt_bits (fun n R => f (spec_keys k) (uninit 32) R n) p) r mem,
          spec_keys k) := by
  rw [crypt_chunk_e_unfold, generate_keys_eq k pk hk hpk]
  unfold crypt
  rw [crypt_final_chunk_spec _ p hp]

/-- Mode `'d'`, whatever follows the buffer of the conversion: the 64
bits handed to `binchars64_to_char8` are those of the driver of the
specification with the round keys in reverse order. -/
theorem crypt_chunk_d_bits (p k r : List Nat) (pk : List (List Char)) (mem : Nat → List Char)
    (hp : p.length = 8) (hk : k.length = 8) (hpk : KeysShape pk) :
    crypt_chunk p k 'd' r pk mem
      = (binchars64_to_char8
          (spec_crypt_bits (fun n R => f (spec_keys k) (uninit 32) R (15 - n)) p) r mem,
          (spec_keys k).reverse) := by
  have h1 : spec_crypt_bits (fun n R => f (reverse_keys (spec_keys k)) (uninit 32) R n) p
      = spec_crypt_bits (fun n R => f (spec_keys k) (uninit 32) R (15 - n)) p := by
    apply spec_crypt_bits_congr
    intro n hn R
    exact f_congr_row _ _ _ _ R n (15 - n) (length_uninit 32) (length_uninit 32)
      (reverse_keys_getD _ (KeysShape_spec_keys k) (Bits_spec_keys k hk) n hn)
  rw [crypt_chunk_d_unfold, generate_keys_eq k pk hk hpk]
  unfold crypt
  rw [crypt_final_chunk_spec _ p hp, h1,
    reverse_keys_eq _ (KeysShape_spec_keys k) (Bits_spec_keys k hk)]

/-- When no digit follows the buffer, the conversion gives the bytes of
the driver of the specification. -/
theorem conversion_eq (F : Nat → List Char → List Char)
    (hF : ∀ n R, Bits (F n R) ∧ (F n R).length = 32) (p r : List Nat) (mem : Nat → List Char)
    (hp : p.length = 8) (hr : r.length = 8) (hmem : NoDigitAfter mem) :
    binchars64_to_char8 (spec_crypt_bits F p) r mem = spec_crypt F p := by
  obtain ⟨hb, hl⟩ := Bits_spec_crypt_bits F hF p hp
  rw [binchars64_to_char8_eq _ r mem hb hl hr hmem, spec_crypt_eq_bits]

/-- Mode `'e'` when no digit follows the buffer of the conversion. -/
theorem crypt_chunk_e (p k r : List Nat) (pk : List (List Char)) (mem : Nat → List Char)
    (hp : p.length = 8) (hk : k.length = 8) (hr : r.length = 8) (hpk : KeysShape pk)
    (hmem : NoDigitAfter mem) :
    crypt_chunk p k 'e' r pk mem
      = (spec_crypt (fun n R => f (spec_keys k) (uninit 32) R n) p, spec_keys k) := by
  rw [crypt_chunk_e_bits p k r pk mem hp hk hpk,
    conversion_eq (fun n R => f (spec_keys k) (uninit 32) R n)
      (f_bits_length (spec_keys k) id) p r mem hp hr hmem]

/-- Mode `'d'` when no digit follows the buffer of the conversion. -/
theorem crypt_chunk_d (p k r : List Nat) (pk : List (List Char)) (mem : Nat → List Char)
    (hp : p.length = 8) (hk : k.length = 8) (hr : r.length = 8) (hpk : KeysShape pk)
    (hmem : NoDigitAfter mem) :
    crypt_chunk p k 'd' r pk mem
      = (spec_crypt (fun n R => f (spec_keys k) (uninit 32) R (15 - n)) p,
          (spec_keys k).reverse) := by
  rw [crypt_chunk_d_bits p k r pk mem hp hk hpk,
    conversion_eq (fun n R => f (spec_keys k) (uninit 32) R (15 - n))
      (f_bits_length (spec_keys k) (fun n => 15 - n)) p r mem hp hr hmem]

theorem spec_decrypt_encrypt (k p : List Nat) (hp : Bytes8 p) :
    spec_crypt (fun n R => f (spec_keys k) (uninit 32) R (15 - n))
        (spec_crypt (fun n R => f (spec_keys k) (uninit 32) R n) p) = p :=
  spec_crypt_inverse _ _ (fun _ _ _ => rfl) (f_bits_length (spec_keys k) id) p hp

theorem spec_encrypt_decrypt (k c : List Nat) (hc : Bytes8 c) :
    spec_crypt (fun n R => f (spec_keys k) (uninit 32) R n)
        (spec_crypt (fun n R => f (spec_keys k) (uninit 32) R (15 - n)) c) = c := by
  refine spec_crypt_inverse _ _ (fun n hn R => ?_)
    (f_bits_length (spec_keys k) (fun n => 15 - n)) c hc
  dsimp only
  exact congrArg (fun i => f (spec_keys k) (uninit 32) R i) (by omega)

/-- Decrypting the encryption gives the block back when no digit follows
the buffer of the conversion in either call. -/
theorem crypt_chunk_d_e (p k r1 r2 : List Nat) (pk1 pk2 : List (List Char))
    (mem1 mem2 : Nat → List Char) (hp : Bytes8 p) (hk : k.length = 8) (hr1 : r1.length = 8)
    (hr2 : r2.length = 8) (hpk1 : KeysShape pk1) (hpk2 : KeysShape pk2)
    (hm1 : NoDigitAfter mem1) (hm2 : NoDigitAfter mem2) :
    (crypt_chunk (crypt_chunk p k 'e' r1 pk1 mem1).1 k 'd' r2 pk2 mem2).1 = p := by
  rw [crypt_chunk_e p k r1 pk1 mem1 hp.1 hk hr1 hpk1 hm1]
  dsimp only
  rw [crypt_chunk_d _ k r2 pk2 mem2 (length_spec_crypt _ _) hk hr2 hpk2 hm2]
  exact spec_decrypt_encrypt k p hp

/-- Encrypting the decryption gives the block back when no digit follows
the buffer of the conversion in either call. -/
theorem crypt_chunk_e_d (c k r1 r2 : List Nat) (pk1 pk2 : List (List Char))
    (mem1 mem2 : Nat → List Char) (hc : Bytes8 c) (hk : k.length = 8) (hr1 : r1.length = 8)
    (hr2 : r2.length = 8) (hpk1 : KeysShape pk1) (hpk2 : KeysShape pk2)
    (hm1 : NoDigitAfter mem1) (hm2 : NoDigitAfter mem2) :
    (crypt_chunk (crypt_chunk c k 'd' r1 pk1 mem1).1 k 'e' r2 pk2 mem2).1 = c := by
  rw [crypt_chunk_d c k r1 pk1 mem1 hc.1 hk hr1 hpk1 hm1]
  dsimp only
  rw [crypt_chunk_e _ k r2 pk2 mem2 (length_spec_crypt _ _) hk hr2 hpk2 hm2]
  exact spec_encrypt_decrypt k c hc

/-- The result of `crypt_chunk` is 8 bytes when no digit follows the
buffer of the conversion. -/
theorem Bytes8_crypt_chunk (p k : List Nat) (mode : Char) (r : List Nat)
    (pk : List (List Char)) (mem : Nat → List Char) (hp : p.length = 8) (hr : r.length = 8)
    (hmem : NoDigitAfter mem) : Bytes8 (crypt_chunk p k mode r pk mem).1 := by
  unfold crypt_chunk
  dsimp only
  rw [crypt_eq _ p r mem hp hr hmem]
  exact Bytes8_spec_crypt _ (f_bits_length _ id) p hp

/-- The rows of the reversed round keys are the bits of the reversed
numbers. -/
theorem keys_rows_nat_reverse (k : List Nat) (hk : Bytes8 k) :
    ∀ n < 16, (spec_keys k).reverse.getD n []
      = value_bits 48 ((keys_nat (bytes_nat k)).reverse.getD n 0) := by
  intro n hn
  rw [spec_keys_nat k hk, ← List.map_reverse]
  exact getD_map_value_bits _ n (by rw [List.length_reverse, length_keys_nat]; exact hn)

/-- The driver of the specification with the round keys in reverse order,
on numbers. -/
theorem spec_crypt_reverse_nat (p k : List Nat) (hp : Bytes8 p) (hk : Bytes8 k) :
    spec_crypt (fun n R => f (spec_keys k) (uninit 32) R (15 - n)) p
      = nat_bytes (crypt_nat (keys_nat (bytes_nat k)).reverse (bytes_nat p)) := by
  have h1 : spec_crypt (fun n R => f (spec_keys k) (uninit 32) R (15 - n)) p
      = spec_crypt (fun n R => f (spec_keys k).reverse (uninit 32) R n) p := by
    apply spec_crypt_congr
    intro n hn R
    refine f_congr_row _ _ _ _ R (15 - n) n (length_uninit 32) (length_uninit 32) ?_
    rw [← reverse_keys_eq _ (KeysShape_spec_keys k) (Bits_spec_keys k hk.1)]
    exact (reverse_keys_getD _ (KeysShape_spec_keys k) (Bits_spec_keys k hk.1) n hn).symm
  rw [h1]
  exact spec_crypt_nat _ _ (by rw [List.length_reverse, length_keys_nat])
    (keys_rows_nat_reverse k hk) p hp

/-- When no digit follows the buffer of the conversion, decryption by
`crypt_chunk` computes what the cipher on numbers computes with the round
keys reversed. -/
theorem crypt_chunk_d_nat (p k r : List Nat) (pk : List (List Char)) (mem : Nat → List Char)
    (hp : Bytes8 p) (hk : Bytes8 k) (hr : r.length = 8) (hpk : KeysShape pk)
    (hmem : NoDigitAfter mem) :
    (crypt_chunk p k 'd' r pk mem).1
      = nat_bytes (crypt_nat (keys_nat (bytes_nat k)).reverse (bytes_nat p)) := by
  rw [crypt_chunk_d p k r pk mem hp.1 hk.1 hr hpk hmem]
  exact spec_crypt_reverse_nat p k hp hk

/-- The round keys that `crypt_chunk` leaves do not depend on what follows
the buffer of the conversion. -/
theorem crypt_chunk_keys (p k : List Nat) (mode : Char) (r : List Nat) (pk : List (List Char))
    (mem : Nat → List Char) (hk : k.length = 8) (hpk : KeysShape pk) :
    KeysShape (crypt_chunk p k mode r pk mem).2 := by
  unfold crypt_chunk
  dsimp only
  rw [generate_keys_eq k pk hk hpk]
  split
  · rw [reverse_keys_eq _ (KeysShape_spec_keys k) (Bits_spec_keys k hk)]
    have h := KeysShape_spec_keys k
    exact ⟨by rw [List.length_reverse]; exact h.1, fun row hrow => h.2 row (List.mem_reverse.1 hrow)⟩
  · exact KeysShape_spec_keys k

/-- Whatever follows the buffer of the conversion, decryption by
`crypt_chunk` returns in place `i` what the conversion makes of byte `i`
of the cipher on numbers, with the round keys reversed, followed by the
characters `mem i`. -/
theorem crypt_chunk_d_mem (p k r : List Nat) (pk : List (List Char)) (mem : Nat → List Char)
    (hp : Bytes8 p) (hk : Bytes8 k) (hr : r.length = 8) (hpk : KeysShape pk) :
    (crypt_chunk p k 'd' r pk mem).1
      = (List.range 8).map (fun i =>
          (binary_to_int (atol (value_bits 8
            ((nat_bytes (crypt_nat (keys_nat (bytes_nat k)).reverse (bytes_nat p))).getD i 0)
              ++ mem i)) % 256).toNat) := by
  obtain ⟨hb, hl⟩ := Bits_spec_crypt_bits (fun n R => f (spec_keys k) (uninit 32) R (15 - n))
    (f_bits_length (spec_keys k) (fun n => 15 - n)) p hp.1
  rw [crypt_chunk_d_bits p k r pk mem hp.1 hk.1 hpk]
  dsimp only
  rw [binchars64_to_char8_mem _ r mem hb hl hr, ← spec_crypt_eq_bits,
    spec_crypt_reverse_nat p k hp hk]

/-! ## Bit positions of the byte codec -/

theorem getD_bytes_bits (b : List Nat) (i j : Nat) (hi : i < b.length) (hj : j < 8) :
    (bytes_bits b).getD (8 * i + j) NUL = bit_char ((b.getD i 0).testBit (7 - j)) := by
  have h := chunk_bytes_bits b i hi
  have hlen : 8 * i + j < (bytes_bits b).length := by
    rw [length_bytes_bits]
    omega
  have e : (((bytes_bits b).drop (8 * i)).take 8).getD j NUL
      = (bytes_bits b).getD (8 * i + j) NUL := by
    rw [List.getD_eq_getElem _ _ (by simp; omega), List.getD_eq_getElem _ _ hlen]
    simp
  rw [← e, h, getD_value_bits 8 _ j hj]

/-! ## The check bits of the key -/

theorem PC_1_skips_check_bits : ∀ p ∈ PC_1, 1 ≤ p ∧ p ≤ 64 ∧ (p - 1) % 8 ≠ 7 := by decide

theorem select_congr (T : List Nat) (v w : List Char)
    (h : ∀ p ∈ T, v.getD (p - 1) NUL = w.getD (p - 1) NUL) : select T v = select T w := by
  unfold select
  exact List.map_congr_left h

/-- Keys that agree except in the least significant bit of some bytes
have the same image under `PC_1`. -/
theorem select_PC_1_congr (k1 k2 : List Nat) (h1 : k1.length = 8) (h2 : k2.length = 8)
    (h : ∀ i < 8, k1.getD i 0 / 2 = k2.getD i 0 / 2) :
    select PC_1 (bytes_bits k1) = select PC_1 (bytes_bits k2) := by
  apply select_congr
  intro p hp
  obtain ⟨ha, hb, hc⟩ := PC_1_skips_check_bits p hp
  have hpos : p - 1 = 8 * ((p - 1) / 8) + (p - 1) % 8 := (Nat.div_add_mod _ _).symm
  have hi : (p - 1) / 8 < 8 := by omega
  have hj : (p - 1) % 8 < 8 := by omega
  rw [hpos, getD_bytes_bits k1 _ _ (by omega) hj, getD_bytes_bits k2 _ _ (by omega) hj]
  have hs : 7 - (p - 1) % 8 = (6 - (p - 1) % 8) + 1 := by omega
  rw [hs, Nat.testBit_succ, Nat.testBit_succ, h _ hi]

theorem spec_keys_congr (k1 k2 : List Nat) (h1 : k1.length = 8) (h2 : k2.length = 8)
    (h : ∀ i < 8, k1.getD i 0 / 2 = k2.getD i 0 / 2) : spec_keys k1 = spec_keys k2 := by
  unfold spec_keys spec_round_key
  simp only []
  rw [select_PC_1_congr k1 k2 h1 h2 h]

/-! ## Big-endian value as a sum -/

theorem bits_value_eq_sum (v : List Char) :
    bits_value v
      = ((List.range v.length).map
          (fun i => (if v.getD i NUL = '1' then 1 else 0) * 2 ^ (v.length - 1 - i))).sum := by
  induction v using List.reverseRecOn with
  | nil => simp [bits_value]
  | append_singleton l c ih =>
    have hmap : (List.range l.length).map
        (fun i => (if (l ++ [c]).getD i NUL = '1' then 1 else 0)
          * 2 ^ (l.length + 1 - 1 - i))
        = (List.range l.length).map
          (fun i => 2 * ((if l.getD i NUL = '1' then 1 else 0) * 2 ^ (l.length - 1 - i))) := by
      apply List.map_congr_left
      intro i hi
      have hi : i < l.length := List.mem_range.1 hi
      rw [List.getD_append _ _ _ _ hi,
        show l.length + 1 - 1 - i = (l.length - 1 - i) + 1 by omega, pow_succ]
      ring
    have hlast : (l ++ [c]).getD l.length NUL = c := by
      rw [List.getD_append_right _ _ _ _ (le_refl _)]
      simp
    rw [bits_value_append_singleton, List.length_append, List.length_singleton,
      List.range_succ, List.map_append, List.sum_append, hmap, List.sum_map_mul_left, ← ih]
    simp only [List.map_cons, List.map_nil, List.sum_cons, List.sum_nil, hlast]
    simp

/-! ## Complementation -/

theorem Bits_not_bits (v : List Char) : Bits (not_bits v) := by
  intro c hc
  simp only [not_bits, List.mem_map] at hc
  obtain ⟨d, _, rfl⟩ := hc
  exact char_xor_bit _ _

theorem length_not_bits (v : List Char) : (not_bits v).length = v.length := by
  simp [not_bits]

theorem not_bits_append (a b : List Char) : not_bits (a ++ b) = not_bits a ++ not_bits b := by
  simp [not_bits]

theorem not_bits_take (a : List Char) (n : Nat) : not_bits (a.take n) = (not_bits a).take n := by
  simp [not_bits, List.map_take]

theorem not_bits_drop (a : List Char) (n : Nat) : not_bits (a.drop n) = (not_bits a).drop n := by
  simp [not_bits, List.map_drop]

theorem not_bits_rotate (a : List Char) (n : Nat) :
    not_bits (a.rotate n) = (not_bits a).rotate n := by
  simp [not_bits, List.map_rotate]

set_option maxRecDepth 100000 in
theorem value_bits_complement :
    ∀ x < 256, value_bits 8 (x ^^^ 255) = not_bits (value_bits 8 x) := by
  decide!

set_option maxRecDepth 100000 in
theorem complement_lt : ∀ x < 256, x ^^^ 255 < 256 := by decide!

theorem bytes_bits_complement (b : List Nat) (hb : ∀ x ∈ b, x < 256) :
    bytes_bits (complement b) = not_bits (bytes_bits b) := by
  induction b with
  | nil => rfl
  | cons x xs ih =>
    have h1 : bytes_bits (complement (x :: xs))
        = value_bits 8 (x ^^^ 255) ++ bytes_bits (complement xs) := by
      simp [bytes_bits, complement]
    have h2 : bytes_bits (x :: xs) = value_bits 8 x ++ bytes_bits xs := by
      simp [bytes_bits]
    rw [h1, h2, not_bits_append, ih (fun y hy => hb y (by simp [hy])),
      value_bits_complement x (hb x (by simp))]

theorem Bytes8_complement (b : List Nat) (hb : Bytes8 b) : Bytes8 (complement b) := by
  constructor
  · simp [complement, hb.1]
  · intro x hx
    simp only [complement, List.mem_map] at hx
    obtain ⟨y, hy, rfl⟩ := hx
    exact complement_lt y (hb.2 y hy)

theorem select_not_bits (T : List Nat) (v : List Char) (hT : ∀ p ∈ T, p - 1 < v.length) :
    select T (not_bits v) = not_bits (select T v) := by
  unfold select not_bits
  rw [List.map_map]
  apply List.map_congr_left
  intro p hp
  have h := hT p hp
  simp only [Function.comp]
  rw [List.getD_eq_getElem _ _ (by simpa using h), List.getD_eq_getElem _ _ h,
    List.getElem_map]

theorem char_xor_not_not (a b : Char) (ha : a = '0' ∨ a = '1') (hb : b = '0' ∨ b = '1') :
    char_xor (char_xor a '1') (char_xor b '1') = char_xor a b := by
  rcases ha with rfl | rfl <;> rcases hb with rfl | rfl <;> decide

theorem char_xor_not_left (a b : Char) (ha : a = '0' ∨ a = '1') (hb : b = '0' ∨ b = '1') :
    char_xor (char_xor a '1') b = char_xor (char_xor a b) '1' := by
  rcases ha with rfl | rfl <;> rcases hb with rfl | rfl <;> decide

theorem xor_bits_not_not (a b : List Char) (ha : Bits a) (hb : Bits b) :
    xor_bits (not_bits a) (not_bits b) = xor_bits a b := by
  apply List.ext_getElem
  · simp [xor_bits, not_bits]
  · intro i h1 h2
    simp only [xor_bits, not_bits, List.getElem_zipWith, List.getElem_map]
    exact char_xor_not_not _ _ (ha _ (List.getElem_mem _)) (hb _ (List.getElem_mem _))

theorem xor_bits_not_left (a b : List Char) (ha : Bits a) (hb : Bits b) :
    xor_bits (not_bits a) b = not_bits (xor_bits a b) := by
  apply List.ext_getElem
  · simp [xor_bits, not_bits]
  · intro i h1 h2
    simp only [xor_bits, not_bits, List.getElem_zipWith, List.getElem_map]
    exact char_xor_not_left _ _ (ha _ (List.getElem_mem _)) (hb _ (List.getElem_mem _))

/-- The round function does not change when its input and its round key
are both complemented. -/
theorem spec_f_not_bits (R K : List Char) (hR : Bits R) (lR : R.length = 32) (hK : Bits K) :
    spec_f (not_bits R) (not_bits K) = spec_f R K := by
  unfold spec_f
  rw [select_not_bits E R (by rw [lR]; decide),
    xor_bits_not_not _ _ (Bits_select _ _ hR (by rw [lR]; decide)) hK]

/-- The round keys of the complemented key are the complements of the
round keys. -/
theorem spec_round_key_complement (k : List Nat) (hk : Bytes8 k) (n : Nat) :
    spec_round_key (complement k) n = not_bits (spec_round_key k n) := by
  have hl : (bytes_bits k).length = 64 := by rw [length_bytes_bits, hk.1]
  have hsl : (select PC_1 (bytes_bits k)).length = 56 := length_select _ _
  unfold spec_round_key
  simp only []
  rw [bytes_bits_complement k hk.2, select_not_bits PC_1 _ (by rw [hl]; decide),
    ← not_bits_take, ← not_bits_drop, ← not_bits_rotate, ← not_bits_rotate, ← not_bits_append,
    select_not_bits PC_2 _ (by
      have : (((select PC_1 (bytes_bits k)).take 28).rotate (LEFT_SHIFTS.take n).sum
          ++ ((select PC_1 (bytes_bits k)).drop 28).rotate (LEFT_SHIFTS.take n).sum).length
          = 56 := by
        simp [hsl]
      rw [this]
      decide)]

/-- Rounds on complemented halves with round functions that absorb the
complement give the complemented halves. -/
theorem spec_rounds_not_bits (F G : Nat → List Char → List Char) (N : Nat)
    (hFG : ∀ n < N, ∀ R, Bits R → R.length = 32 → F n (not_bits R) = G n R)
    (hG : ∀ n R, Bits (G n R) ∧ (G n R).length = 32) (L R : List Char) (hL : Bits L)
    (hR : Bits R) (lL : L.length = 32) (lR : R.length = 32) (n : Nat) (hn : n ≤ N) :
    spec_rounds F (not_bits L, not_bits R) n
      = (not_bits (spec_rounds G (L, R) n).1, not_bits (spec_rounds G (L, R) n).2) := by
  induction n with
  | zero => rfl
  | succ n ih =>
    obtain ⟨⟨h1, h2⟩, h3, h4⟩ := spec_rounds_bits G hG L R hL hR lL lR n
    rw [spec_rounds_succ, ih (by omega), spec_rounds_succ]
    dsimp only
    rw [hFG n (by omega) _ h3 h4, xor_bits_not_left _ _ h1 (hG n _).1]

theorem bits_value_not_bits (w : List Char) (hw : Bits w) (hl : w.length = 8) :
    bits_value (not_bits w) = bits_value w ^^^ 255 := by
  have hlt : bits_value w < 256 := by
    have := bits_value_lt w hw
    rw [hl] at this
    exact this
  have h := value_bits_bits_value w hw
  rw [hl] at h
  have e : not_bits w = value_bits 8 (bits_value w ^^^ 255) := by
    rw [value_bits_complement _ hlt, h]
  rw [e, bits_value_value_bits]
  exact Nat.mod_eq_of_lt (complement_lt _ hlt)

theorem bits_bytes_not_bits (v : List Char) (hv : Bits v) (hl : v.length = 64) :
    bits_bytes (not_bits v) = complement (bits_bytes v) := by
  unfold bits_bytes complement
  rw [List.map_map]
  apply List.map_congr_left
  intro i hi
  have hi : i < 8 := List.mem_range.1 hi
  simp only [Function.comp]
  rw [← not_bits_drop, ← not_bits_take,
    bits_value_not_bits _ ((hv.drop _).take _) (by simp; omega)]

/-- The driver on the complemented block with round functions that absorb
the complement gives the complemented result. -/
theorem spec_crypt_complement (F G : Nat → List Char → List Char)
    (hFG : ∀ n < 16, ∀ R, Bits R → R.length = 32 → F n (not_bits R) = G n R)
    (hG : ∀ n R, Bits (G n R) ∧ (G n R).length = 32) (p : List Nat) (hp : Bytes8 p) :
    spec_crypt F (complement p) = complement (spec_crypt G p) := by
  have hb : Bits (bytes_bits p) := Bits_bytes_bits p
  have hl : (bytes_bits p).length = 64 := by rw [length_bytes_bits, hp.1]
  have hip : Bits (select IP (bytes_bits p)) := Bits_select _ _ hb (by rw [hl]; decide)
  have hipl : (select IP (bytes_bits p)).length = 64 := length_select _ _
  have lL : ((select IP (bytes_bits p)).take 32).length = 32 := by simp [hipl]
  have lR : ((select IP (bytes_bits p)).drop 32).length = 32 := by simp [hipl]
  obtain ⟨⟨h1, h2⟩, h3, h4⟩ := spec_rounds_bits G hG _ _ (hip.take 32) (hip.drop 32) lL lR 16
  have hr := spec_rounds_not_bits F G 16 hFG hG _ _ (hip.take 32) (hip.drop 32) lL lR 16
    (le_refl 16)
  unfold spec_crypt
  simp only []
  rw [bytes_bits_complement p hp.2, select_not_bits IP _ (by rw [hl]; decide),
    ← not_bits_take, ← not_bits_drop, hr]
  dsimp only
  generalize spec_rounds G ((select IP (bytes_bits p)).take 32,
    (select IP (bytes_bits p)).drop 32) 16 = X at h1 h2 h3 h4
  have hcat : (X.2 ++ X.1).length = 64 := by rw [List.length_append, h2, h4]
  rw [← not_bits_append, select_not_bits IP_REVERSED _ (by rw [hcat]; decide),
    bits_bytes_not_bits _ (Bits_select _ _ (h3.append h1) (by rw [hcat]; decide))
      (show (select IP_REVERSED (X.2 ++ X.1)).length = 64 from length_select _ _)]

/-- The round functions of the complemented key absorb the complement. -/
theorem f_complement (k : List Nat) (hk : Bytes8 k) :
    ∀ n < 16, ∀ R, Bits R → R.length = 32 →
      f (spec_keys (complement k)) (uninit 32) (not_bits R) n
        = f (spec_keys k) (uninit 32) R n := by
  intro n hn R hR lR
  have hck := Bytes8_complement k hk
  have hrow := Bits_spec_round_key k hk.1 (n + 1)
  have hrow2 := Bits_spec_round_key (complement k) hck.1 (n + 1)
  rw [f_eq _ _ _ n (by rw [getD_spec_keys _ n hn]; exact hrow2.2) (length_uninit 32),
    f_eq _ _ _ n (by rw [getD_spec_keys _ n hn]; exact hrow.2) (length_uninit 32),
    getD_spec_keys _ n hn, getD_spec_keys _ n hn, spec_round_key_complement k hk,
    spec_f_not_bits R _ hR lR hrow.1]

theorem spec_complement (p k : List Nat) (hp : Bytes8 p) (hk : Bytes8 k) :
    spec_crypt (fun n R => f (spec_keys (complement k)) (uninit 32) R n) (complement p)
      = complement (spec_crypt (fun n R => f (spec_keys k) (uninit 32) R n) p) :=
  spec_crypt_complement (fun n R => f (spec_keys (complement k)) (uninit 32) R n)
    (fun n R => f (spec_keys k) (uninit 32) R n) (f_complement k hk)
    (f_bits_length (spec_keys k) id) p hp

/-- Complementation property of `crypt_chunk` in mode `'e'` when no digit
follows the buffer of the conversion in either call. -/
theorem crypt_chunk_complement (p k r1 r2 : List Nat) (pk1 pk2 : List (List Char))
    (mem1 mem2 : Nat → List Char) (hp : Bytes8 p) (hk : Bytes8 k) (hr1 : r1.length = 8)
    (hr2 : r2.length = 8) (hpk1 : KeysShape pk1) (hpk2 : KeysShape pk2)
    (hm1 : NoDigitAfter mem1) (hm2 : NoDigitAfter mem2) :
    (crypt_chunk (complement p) (complement k) 'e' r1 pk1 mem1).1
      = complement (crypt_chunk p k 'e' r2 pk2 mem2).1 := by
  have hcp := Bytes8_complement p hp
  have hck := Bytes8_complement k hk
  rw [crypt_chunk_e _ _ r1 pk1 mem1 hcp.1 hck.1 hr1 hpk1 hm1,
    crypt_chunk_e p k r2 pk2 mem2 hp.1 hk.1 hr2 hpk2 hm2]
  exact spec_complement p k hp hk

/-! ## Flipping one bit of a byte sequence -/

theorem bits_value_lt_pow (v : List Char) : bits_value v < 2 ^ v.length := by
  induction v using List.reverseRecOn with
  | nil => simp [bits_value]
  | append_singleton l c ih =>
    rw [bits_value_append_singleton, List.length_append, List.length_singleton, pow_succ]
    split <;> omega

theorem f_row_le (x : List Char) (i : Nat) : f_row x i ≤ 3 := by
  unfold f_row
  simp only []
  rw [binchars_to_unsigned_eq [_, _] 2 rfl]
  have h := bits_value_lt_pow
    [(strncpy (uninit 6) 0 (List.drop (i * 6) x) 6).getD 0 NUL,
      (strncpy (uninit 6) 0 (List.drop (i * 6) x) 6).getD 5 NUL]
  simp only [List.length_cons, List.length_nil] at h
  omega

theorem f_cols_le (x : List Char) (i : Nat) : f_cols x i ≤ 15 := by
  unfold f_cols
  simp only []
  rw [binchars_to_unsigned_eq [_, _, _, _] 4 rfl]
  have h := bits_value_lt_pow
    [(strncpy (uninit 6) 0 (List.drop (i * 6) x) 6).getD 1 NUL,
      (strncpy (uninit 6) 0 (List.drop (i * 6) x) 6).getD 2 NUL,
      (strncpy (uninit 6) 0 (List.drop (i * 6) x) 6).getD 3 NUL,
      (strncpy (uninit 6) 0 (List.drop (i * 6) x) 6).getD 4 NUL]
  simp only [List.length_cons, List.length_nil] at h
  omega

theorem f_uses_sValInt (pk : List (List Char)) (out R : List Char) (round : Nat) :
    f pk out R round
      = (List.range 32).foldl
          (fun fOutput i =>
            fOutput.set i
              (((List.range 8).foldl
                (fun sBoxed i =>
                  strncpy sBoxed (i * 4)
                    (unsigned_to_binchars (f_sValInt (f_xored pk R round) i) (uninit 4) 4) 4)
                (uninit 32)).getD (P.getD i 0 - 1) NUL))
          out :=
  rfl

theorem four_bit_round_trip (s : Nat) (hs : s ≤ 15) :
    binchars_to_unsigned (unsigned_to_binchars s (uninit 4) 4) 4 = s := by
  rw [unsigned_to_binchars_eq s _ 4 (length_uninit 4),
    binchars_to_unsigned_eq _ 4 (length_value_bits 4 s), bits_value_value_bits]
  exact Nat.mod_eq_of_lt (by omega)

/-! ## The last round key -/

theorem LEFT_SHIFTS_sum : LEFT_SHIFTS.sum = 28 := by decide

theorem generate_keys_shifted_last (k : List Nat) (hk : k.length = 8) :
    (generate_keys_shifted k).getD 15 [] = select PC_1 (bytes_bits k) := by
  have hsl : (select PC_1 (bytes_bits k)).length = 56 := length_select _ _
  rw [generate_keys_shifted_row k hk 15 (by decide),
    show (LEFT_SHIFTS.take (15 + 1)).sum = 28 from by decide]
  have h1 : ((select PC_1 (bytes_bits k)).take 28).length = 28 := by simp [hsl]
  have h2 : ((select PC_1 (bytes_bits k)).drop 28).length = 28 := by simp [hsl]
  have r1 := List.rotate_length ((select PC_1 (bytes_bits k)).take 28)
  have r2 := List.rotate_length ((select PC_1 (bytes_bits k)).drop 28)
  rw [h1] at r1
  rw [h2] at r2
  rw [r1, r2, List.take_append_drop]

/-! ## Every non-check bit of the key reaches a round key -/

set_option maxRecDepth 100000 in
theorem keys_nat_main :
    keys_nat (bytes_nat main_key)
      = [88152800176834, 88702421345095, 229437806642316, 247004211460043, 246935491375145,
        246919588896098, 181223771908410, 182876803259984, 42139329993280, 52026311493436,
        16775489592972, 34366614433969, 34125815966253, 29860989909394, 27679128879927,
        89251780182976] := by
  decide!

set_option maxRecDepth 100000 in
/-- Encryption of `"12345678"` under the key of `main`. -/
theorem crypt_nat_digits :
    nat_bytes (crypt_nat
      [88152800176834, 88702421345095, 229437806642316, 247004211460043, 246935491375145,
        246919588896098, 181223771908410, 182876803259984, 42139329993280, 52026311493436,
        16775489592972, 34366614433969, 34125815966253, 29860989909394, 27679128879927,
        89251780182976]
      (bytes_nat [49, 50, 51, 52, 53, 54, 55, 56]))
      = [150, 208, 2, 136, 120, 213, 140, 137] := by
  decide!

set_option maxRecDepth 100000 in
/-- Decryption of the ciphertext of `"12345678"` under the key of `main`. -/
theorem crypt_nat_digits_inverse :
    nat_bytes (crypt_nat
      [88152800176834, 88702421345095, 229437806642316, 247004211460043, 246935491375145,
        246919588896098, 181223771908410, 182876803259984, 42139329993280, 52026311493436,
        16775489592972, 34366614433969, 34125815966253, 29860989909394, 27679128879927,
        89251780182976].reverse
      (bytes_nat [150, 208, 2, 136, 120, 213, 140, 137]))
      = [49, 50, 51, 52, 53, 54, 55, 56] := by
  decide!

set_option maxRecDepth 100000 in
/-- The block whose ciphertext under the key of `main` is `"12345678"`. -/
theorem crypt_nat_to_digits :
    nat_bytes (crypt_nat
      [88152800176834, 88702421345095, 229437806642316, 247004211460043, 246935491375145,
        246919588896098, 181223771908410, 182876803259984, 42139329993280, 52026311493436,
        16775489592972, 34366614433969, 34125815966253, 29860989909394, 27679128879927,
        89251780182976]
      (bytes_nat [245, 232, 233, 235, 129, 242, 139, 115]))
      = [49, 50, 51, 52, 53, 54, 55, 56] := by
  decide!

set_option maxRecDepth 100000 in
/-- The complement of that block under the complement of the key. -/
theorem crypt_nat_to_digits_complement :
    nat_bytes (crypt_nat (keys_nat (bytes_nat (complement main_key)))
      (bytes_nat (complement [245, 232, 233, 235, 129, 242, 139, 115])))
      = [206, 205, 204, 203, 202, 201, 200, 199] := by
  decide!

set_option maxRecDepth 100000 in
/-- Encryption of `"1e3k5q7w"` under the key of `main`. -/
theorem crypt_nat_garbled_digits :
    nat_bytes (crypt_nat
      [88152800176834, 88702421345095, 229437806642316, 247004211460043, 246935491375145,
        246919588896098, 181223771908410, 182876803259984, 42139329993280, 52026311493436,
        16775489592972, 34366614433969, 34125815966253, 29860989909394, 27679128879927,
        89251780182976]
      (bytes_nat [49, 101, 51, 107, 53, 113, 55, 119]))
      = [141, 44, 15, 60, 121, 7, 188, 41] := by
  decide!

set_option maxRecDepth 100000 in
/-- Two plain texts whose ciphertexts under the key of `main` are
`31 00 00 00 00 00 00 00` and `31 80 00 00 00 00 00 00`. -/
theorem crypt_nat_main_pair :
    nat_bytes (crypt_nat
      [88152800176834, 88702421345095, 229437806642316, 247004211460043, 246935491375145,
        246919588896098, 181223771908410, 182876803259984, 42139329993280, 52026311493436,
        16775489592972, 34366614433969, 34125815966253, 29860989909394, 27679128879927,
        89251780182976]
      (bytes_nat [140, 98, 127, 255, 161, 125, 205, 10]))
      = [49, 0, 0, 0, 0, 0, 0, 0]
    ∧ nat_bytes (crypt_nat
      [88152800176834, 88702421345095, 229437806642316, 247004211460043, 246935491375145,
        246919588896098, 181223771908410, 182876803259984, 42139329993280, 52026311493436,
        16775489592972, 34366614433969, 34125815966253, 29860989909394, 27679128879927,
        89251780182976]
      (bytes_nat [252, 8, 246, 32, 203, 251, 222, 182]))
      = [49, 128, 0, 0, 0, 0, 0, 0] := by
  decide!

/-! ## Evaluations under the all-zero key -/

set_option maxRecDepth 100000 in
theorem keys_nat_zero :
    keys_nat (bytes_nat [0, 0, 0, 0, 0, 0, 0, 0]) = List.replicate 16 0 := by
  decide!

set_option maxRecDepth 100000 in
/-- The block whose ciphertext under the all-zero key is `"12345678"`, and
the ciphertext of `"1e3k5q7w"` under that key. -/
theorem crypt_nat_zero_digits :
    nat_bytes (crypt_nat (List.replicate 16 0) (bytes_nat [98, 221, 142, 74, 97, 78, 26, 249]))
      = [49, 50, 51, 52, 53, 54, 55, 56]
    ∧ nat_bytes (crypt_nat (List.replicate 16 0)
        (bytes_nat [49, 101, 51, 107, 53, 113, 55, 119]))
      = [149, 209, 102, 106, 107, 170, 232, 189] := by
  decide!

/-! ## The all-zero key -/

theorem value_bits_zero : value_bits 48 0 = List.replicate 48 '0' := by decide

/-- The round keys of the all-zero key: 16 rows of 48 characters `'0'`. -/
theorem spec_keys_zero :
    spec_keys [0, 0, 0, 0, 0, 0, 0, 0] = List.replicate 16 (List.replicate 48 '0') := by
  rw [spec_keys_nat _ (by decide), keys_nat_zero, List.map_replicate, value_bits_zero]

theorem getD_replicate_rows (row : List Char) (i : Nat) (hi : i < 16) :
    (List.replicate 16 row).getD i [] = row := by
  rw [List.getD_eq_getElem _ _ (by simpa using hi), List.getElem_replicate]

/-- Under the all-zero key, mode `'d'` computes what mode `'e'` computes
and leaves the same round keys, whatever follows the buffer of the
conversion. -/
theorem crypt_chunk_zero_d_eq_e (p r : List Nat) (pk : List (List Char))
    (mem : Nat → List Char) (hp : p.length = 8) (hpk : KeysShape pk) :
    crypt_chunk p [0, 0, 0, 0, 0, 0, 0, 0] 'd' r pk mem
      = crypt_chunk p [0, 0, 0, 0, 0, 0, 0, 0] 'e' r pk mem := by
  have h1 : spec_crypt_bits
        (fun n R => f (spec_keys [0, 0, 0, 0, 0, 0, 0, 0]) (uninit 32) R (15 - n)) p
      = spec_crypt_bits (fun n R => f (spec_keys [0, 0, 0, 0, 0, 0, 0, 0]) (uninit 32) R n) p := by
    apply spec_crypt_bits_congr
    intro n hn R
    refine f_congr_row _ _ _ _ R (15 - n) n (length_uninit 32) (length_uninit 32) ?_
    rw [spec_keys_zero, getD_replicate_rows _ _ (by omega), getD_replicate_rows _ _ hn]
  rw [crypt_chunk_d_bits p [0, 0, 0, 0, 0, 0, 0, 0] r pk mem hp rfl hpk,
    crypt_chunk_e_bits p [0, 0, 0, 0, 0, 0, 0, 0] r pk mem hp rfl hpk, h1,
    spec_keys_zero, List.reverse_replicate]

/-- Under the all-zero key, encrypting twice gives the block back when no
digit follows the buffer of the conversion in either call. -/
theorem crypt_chunk_zero_twice (p r1 r2 : List Nat) (pk1 pk2 : List (List Char))
    (mem1 mem2 : Nat → List Char) (hp : Bytes8 p) (hr1 : r1.length = 8) (hr2 : r2.length = 8)
    (hpk1 : KeysShape pk1) (hpk2 : KeysShape pk2) (hm1 : NoDigitAfter mem1)
    (hm2 : NoDigitAfter mem2) :
    (crypt_chunk (crypt_chunk p [0, 0, 0, 0, 0, 0, 0, 0] 'e' r1 pk1 mem1).1
        [0, 0, 0, 0, 0, 0, 0, 0] 'e' r2 pk2 mem2).1 = p := by
  rw [← crypt_chunk_zero_d_eq_e _ r2 pk2 mem2
    (Bytes8_crypt_chunk p [0, 0, 0, 0, 0, 0, 0, 0] 'e' r1 pk1 mem1 hp.1 hr1 hm1).1 hpk2]
  exact crypt_chunk_d_e p [0, 0, 0, 0, 0, 0, 0, 0] r1 r2 pk1 pk2 mem1 mem2 hp rfl hr1 hr2 hpk1
    hpk2 hm1 hm2

/-! ## Encryption as a bijection -/

/-- Two different blocks have different ciphertexts when no digit follows
the buffer of the conversion. -/
theorem crypt_chunk_e_injective (p q k r1 r2 : List Nat) (pk1 pk2 : List (List Char))
    (mem1 mem2 : Nat → List Char) (hp : Bytes8 p) (hq : Bytes8 q) (hk : k.length = 8)
    (hr1 : r1.length = 8) (hr2 : r2.length = 8) (hpk1 : KeysShape pk1) (hpk2 : KeysShape pk2)
    (hm1 : NoDigitAfter mem1) (hm2 : NoDigitAfter mem2)
    (h : (crypt_chunk p k 'e' r1 pk1 mem1).1 = (crypt_chunk q k 'e' r2 pk2 mem2).1) :
    p = q := by
  have e1 := crypt_chunk_d_e p k r1 r1 pk1 pk1 mem1 mem1 hp hk hr1 hr1 hpk1 hpk1 hm1 hm1
  have e2 := crypt_chunk_d_e q k r2 r1 pk2 pk1 mem2 mem1 hq hk hr2 hr1 hpk2 hpk1 hm2 hm1
  rw [h] at e1
  rw [← e1, e2]

/-- Every block is the ciphertext of a block when no digit follows the
buffer of the conversion. -/
theorem crypt_chunk_e_surjective (c k r : List Nat) (pk : List (List Char))
    (mem : Nat → List Char) (hc : Bytes8 c) (hk : k.length = 8) (hr : r.length = 8)
    (hpk : KeysShape pk) (hm : NoDigitAfter mem) :
    ∃ p, Bytes8 p ∧ (crypt_chunk p k 'e' r pk mem).1 = c :=
  ⟨(crypt_chunk c k 'd' r pk mem).1, Bytes8_crypt_chunk c k 'd' r pk mem hc.1 hr hm,
    crypt_chunk_e_d c k r r pk pk mem mem hc hk hr hr hpk hpk hm hm⟩

/-- The bit codec gives every 8-byte sequence back when no digit follows
the buffer of the conversion. -/
theorem codec_no_digit (b : List Nat) (buf : List Char) (plain : List Nat)
    (mem : Nat → List Char) (hb : Bytes8 b) (hbuf : buf.length = 64) (hp : plain.length = 8)
    (hm : NoDigitAfter mem) :
    binchars64_to_char8 (chars8_to_binchars b buf) plain mem = b := by
  rw [chars8_to_binchars_eq b buf hbuf hb.1,
    binchars64_to_char8_eq _ plain mem (Bits_bytes_bits b) (by rw [length_bytes_bits, hb.1]) hp
      hm]
  exact bits_bytes_bytes_bits b hb

/-! ## The properties of the specification

The bytes that `crypt_chunk` returns pass through `binchars64_to_char8`,
which reads the memory that follows its buffer. A property that does not
depend on that memory is stated for every `mem`. A property of the
returned bytes that needs `NoDigitAfter` is evaluated on an input on which
it fails, next to the same input when no digit follows the buffer; the
general statements under `NoDigitAfter` are the lemmas `crypt_chunk_d_e`,
`crypt_chunk_e_d`, `crypt_chunk_complement`, `crypt_chunk_e_injective`,
`crypt_chunk_e_surjective`, `crypt_chunk_zero_twice`, `crypt_eq` and
`codec_no_digit` above. -/

set_option maxRecDepth 100000 in
/-- C1, evaluated on the key `"12345678"` and the block `"12345678"`, with
`PERMUTED_KEYS` passed from the first call to the second as in `main`.
When no digit follows the buffer `bits` of `binchars64_to_char8`,
decrypting the encryption returns the block. In the stack frame of an
unoptimised build (`frame_mem`), where the byte converted last follows
the buffer, the encryption returns `96 D0 02 88 78 D5 8C 89`, as it
should, and decrypting it returns `31 65 33 6B 35 71 37 77`, the text
`"1e3k5q7w"`, not `"12345678"`: each byte that comes after a digit
character has been read with that digit appended. -/
theorem round_trip_digit_after :
    (crypt_chunk
        (crypt_chunk [0x31, 0x32, 0x33, 0x34, 0x35, 0x36, 0x37, 0x38] main_key 'e'
          (List.replicate 8 0) (List.replicate 16 (uninit 48)) (fun _ => [])).1
        main_key 'd' (List.replicate 8 0)
        (crypt_chunk [0x31, 0x32, 0x33, 0x34, 0x35, 0x36, 0x37, 0x38] main_key 'e'
          (List.replicate 8 0) (List.replicate 16 (uninit 48)) (fun _ => [])).2
        (fun _ => [])).1
        = [0x31, 0x32, 0x33, 0x34, 0x35, 0x36, 0x37, 0x38]
      ∧ (crypt_chunk [0x31, 0x32, 0x33, 0x34, 0x35, 0x36, 0x37, 0x38] main_key 'e'
          (List.replicate 8 0) (List.replicate 16 (uninit 48))
          (frame_mem 0 [0x96, 0xD0, 0x02, 0x88, 0x78, 0xD5, 0x8C, 0x89])).1
        = [0x96, 0xD0, 0x02, 0x88, 0x78, 0xD5, 0x8C, 0x89]
      ∧ (crypt_chunk
          (crypt_chunk [0x31, 0x32, 0x33, 0x34, 0x35, 0x36, 0x37, 0x38] main_key 'e'
            (List.replicate 8 0) (List.replicate 16 (uninit 48))
            (frame_mem 0 [0x96, 0xD0, 0x02, 0x88, 0x78, 0xD5, 0x8C, 0x89])).1
          main_key 'd' (List.replicate 8 0)
          (crypt_chunk [0x31, 0x32, 0x33, 0x34, 0x35, 0x36, 0x37, 0x38] main_key 'e'
            (List.replicate 8 0) (List.replicate 16 (uninit 48))
            (frame_mem 0 [0x96, 0xD0, 0x02, 0x88, 0x78, 0xD5, 0x8C, 0x89])).2
          (frame_mem 0 [0x31, 0x65, 0x33, 0x6B, 0x35, 0x71, 0x37, 0x77])).1
        = [0x31, 0x65, 0x33, 0x6B, 0x35, 0x71, 0x37, 0x77]
      ∧ [0x31, 0x65, 0x33, 0x6B, 0x35, 0x71, 0x37, 0x77]
        ≠ [0x31, 0x32, 0x33, 0x34, 0x35, 0x36, 0x37, 0x38] := by
  have he : (crypt_chunk [0x31, 0x32, 0x33, 0x34, 0x35, 0x36, 0x37, 0x38] main_key 'e'
      (List.replicate 8 0) (List.replicate 16 (uninit 48))
      (frame_mem 0 [0x96, 0xD0, 0x02, 0x88, 0x78, 0xD5, 0x8C, 0x89])).1
      = [0x96, 0xD0, 0x02, 0x88, 0x78, 0xD5, 0x8C, 0x89] := by
    rw [crypt_chunk_e_mem _ main_key _ _ _ (by decide) (by decide) (by decide) (by decide),
      keys_nat_main, crypt_nat_digits]
    decide!
  refine ⟨?_, he, ?_, by decide⟩
  · exact crypt_chunk_d_e _ main_key _ _ _ _ _ _ (by decide) (by decide) (by decide)
      (by decide) (by decide) (crypt_chunk_keys _ _ _ _ _ _ (by decide) (by decide))
      (by decide) (by decide)
  · rw [he, crypt_chunk_d_mem _ main_key _ _ _ (by decide) (by decide) (by decide)
      (crypt_chunk_keys _ _ _ _ _ _ (by decide) (by decide)), keys_nat_main,
      crypt_nat_digits_inverse]
    decide!

/-- C3: for every 8-byte key `k`, after `generate_keys(k)` followed by
`reverse_keys()`, `PERMUTED_KEYS[i]` is the forward round key of index
`15 - i` for every `i` in `0..15`; `crypt_chunk` in mode `'d'` runs the
routine `crypt` on these rows, so that it computes what mode `'e'`
computes with round `n` (from 1 to 16) using the forward round key of
index `16 - n` in place of `n - 1`: this holds for the 64 bits that
`crypt` hands to `binchars64_to_char8` whatever follows the buffer of
that conversion in memory, and for the bytes returned when no digit
follows it. -/
theorem reverse_keys_after_generate_keys (p k r : List Nat) (pk : List (List Char))
    (mem : Nat → List Char) (hp : Bytes8 p) (hk : Bytes8 k) (hr : r.length = 8)
    (hpk : KeysShape pk) :
    (∀ i < 16,
        (reverse_keys (generate_keys k pk)).getD i [] = (generate_keys k pk).getD (15 - i) [])
      ∧ crypt_chunk p k 'd' r pk mem
        = (crypt (reverse_keys (generate_keys k pk)) p r mem,
            reverse_keys (generate_keys k pk))
      ∧ crypt_chunk p k 'e' r pk mem = (crypt (generate_keys k pk) p r mem, generate_keys k pk)
      ∧ crypt_final_chunk (generate_keys k pk) p
        = spec_crypt_bits (fun n R => f (generate_keys k pk) (uninit 32) R n) p
      ∧ crypt_final_chunk (reverse_keys (generate_keys k pk)) p
        = spec_crypt_bits (fun n R => f (generate_keys k pk) (uninit 32) R (15 - n)) p
      ∧ (NoDigitAfter mem →
          (crypt_chunk p k 'e' r pk mem).1
            = spec_crypt (fun n R => f (generate_keys k pk) (uninit 32) R n) p
          ∧ (crypt_chunk p k 'd' r pk mem).1
            = spec_crypt (fun n R => f (generate_keys k pk) (uninit 32) R (15 - n)) p) := by
  have hg := generate_keys_eq k pk hk.1 hpk
  refine ⟨fun i hi => ?_, crypt_chunk_d_unfold p k r pk mem, crypt_chunk_e_unfold p k r pk mem,
    crypt_final_chunk_spec _ p hp.1, ?_, fun hmem => ⟨?_, ?_⟩⟩
  · rw [hg]
    exact reverse_keys_getD _ (KeysShape_spec_keys k) (Bits_spec_keys k hk.1) i hi
  · rw [crypt_final_chunk_spec _ p hp.1, hg]
    apply spec_crypt_bits_congr
    intro n hn R
    exact f_congr_row _ _ _ _ R n (15 - n) (length_uninit 32) (length_uninit 32)
      (reverse_keys_getD _ (KeysShape_spec_keys k) (Bits_spec_keys k hk.1) n hn)
  · rw [crypt_chunk_e p k r pk mem hp.1 hk.1 hr hpk hmem, hg]
  · rw [crypt_chunk_d p k r pk mem hp.1 hk.1 hr hpk hmem, hg]

theorem reverse_keys_after_generate_keys_witness :
    (∀ i < 16,
        (reverse_keys (generate_keys main_key (List.replicate 16 (uninit 48)))).getD i []
          = (generate_keys main_key (List.replicate 16 (uninit 48))).getD (15 - i) [])
      ∧ crypt_chunk main_msg main_key 'd' (List.replicate 8 0) (List.replicate 16 (uninit 48))
          (fun _ => [])
        = (crypt (reverse_keys (generate_keys main_key (List.replicate 16 (uninit 48))))
            main_msg (List.replicate 8 0) (fun _ => []),
          reverse_keys (generate_keys main_key (List.replicate 16 (uninit 48))))
      ∧ crypt_chunk main_msg main_key 'e' (List.replicate 8 0) (List.replicate 16 (uninit 48))
          (fun _ => [])
        = (crypt (generate_keys main_key (List.replicate 16 (uninit 48))) main_msg
            (List.replicate 8 0) (fun _ => []),
          generate_keys main_key (List.replicate 16 (uninit 48)))
      ∧ crypt_final_chunk (generate_keys main_key (List.replicate 16 (uninit 48))) main_msg
        = spec_crypt_bits
            (fun n R => f (generate_keys main_key (List.replicate 16 (uninit 48))) (uninit 32) R n)
            main_msg
      ∧ crypt_final_chunk
          (reverse_keys (generate_keys main_key (List.replicate 16 (uninit 48)))) main_msg
        = spec_crypt_bits
            (fun n R =>
              f (generate_keys main_key (List.replicate 16 (uninit 48))) (uninit 32) R (15 - n))
            main_msg
      ∧ (NoDigitAfter (fun _ => []) →
          (crypt_chunk main_msg main_key 'e' (List.replicate 8 0)
              (List.replicate 16 (uninit 48)) (fun _ => [])).1
            = spec_crypt
                (fun n R =>
                  f (generate_keys main_key (List.replicate 16 (uninit 48))) (uninit 32) R n)
                main_msg
          ∧ (crypt_chunk main_msg main_key 'd' (List.replicate 8 0)
              (List.replicate 16 (uninit 48)) (fun _ => [])).1
            = spec_crypt
                (fun n R =>
                  f (generate_keys main_key (List.replicate 16 (uninit 48))) (uninit 32) R
                    (15 - n))
                main_msg) :=
  reverse_keys_after_generate_keys main_msg main_key (List.replicate 8 0)
    (List.replicate 16 (uninit 48)) (fun _ => []) (by decide) (by decide) (by decide)
    (by decide)

/-- C4: for every 8-byte key `k` and every `n` in `1..16`, the round key
that `generate_keys` stores at `PERMUTED_KEYS[n-1]` is `PC_2` applied to
`C_n` followed by `D_n`, where `C_0` followed by `D_0` is `PC_1` applied
to the 64 bits of `k` (most significant bit of each byte first) and `C_n`,
`D_n` are `C_0`, `D_0` each rotated left, as 28-bit words, by
`LEFT_SHIFTS[0] + ... + LEFT_SHIFTS[n-1]` positions. -/
theorem generate_keys_round_key (k : List Nat) (pk : List (List Char)) (hk : Bytes8 k)
    (hpk : KeysShape pk) (n : Nat) (h1 : 1 ≤ n) (h16 : n ≤ 16) :
    (generate_keys k pk).getD (n - 1) []
      = select PC_2
          (((select PC_1 (bytes_bits k)).take 28).rotate (LEFT_SHIFTS.take n).sum
            ++ ((select PC_1 (bytes_bits k)).drop 28).rotate (LEFT_SHIFTS.take n).sum) := by
  rw [generate_keys_eq k pk hk.1 hpk, getD_spec_keys k (n - 1) (by omega),
    show n - 1 + 1 = n by omega]
  rfl

theorem generate_keys_round_key_witness :
    (generate_keys main_key (List.replicate 16 (uninit 48))).getD (3 - 1) []
      = select PC_2
          (((select PC_1 (bytes_bits main_key)).take 28).rotate (LEFT_SHIFTS.take 3).sum
            ++ ((select PC_1 (bytes_bits main_key)).drop 28).rotate (LEFT_SHIFTS.take 3).sum) :=
  generate_keys_round_key main_key (List.replicate 16 (uninit 48)) (by decide) (by decide) 3
    (by decide) (by decide)

set_option maxRecDepth 100000 in
/-- C5, evaluated on the block `F5 E8 E9 EB 81 F2 8B 73` with the round
keys of the key `"12345678"` in `PERMUTED_KEYS`: the bytes of
`IP_REVERSED` applied to `R_16` followed by `L_16` (the recurrence of the
claim is `spec_rounds`) are `31 32 33 34 35 36 37 38`; the separately
coded first iteration of the loop computes `(L_1, R_1)` from `(L_0, R_0)`
by the rule of the recurrence; the bytes are those of the 64 bits that
`crypt` hands to `binchars64_to_char8`, and `crypt` returns them when no
digit follows the buffer `bits` of that conversion. In the stack frame of
an unoptimised build (`frame_mem`) `crypt` returns
`31 65 33 6B 35 71 37 77` instead. -/
theorem crypt_digit_after :
    bits_bytes (select IP_REVERSED
        ((spec_rounds
            (fun n R => f (generate_keys main_key (List.replicate 16 (uninit 48))) (uninit 32) R n)
            ((select IP (bytes_bits [0xF5, 0xE8, 0xE9, 0xEB, 0x81, 0xF2, 0x8B, 0x73])).take 32,
              (select IP (bytes_bits [0xF5, 0xE8, 0xE9, 0xEB, 0x81, 0xF2, 0x8B, 0x73])).drop 32)
            16).2
          ++ (spec_rounds
            (fun n R => f (generate_keys main_key (List.replicate 16 (uninit 48))) (uninit 32) R n)
            ((select IP (bytes_bits [0xF5, 0xE8, 0xE9, 0xEB, 0x81, 0xF2, 0x8B, 0x73])).take 32,
              (select IP (bytes_bits [0xF5, 0xE8, 0xE9, 0xEB, 0x81, 0xF2, 0x8B, 0x73])).drop 32)
            16).1))
        = [0x31, 0x32, 0x33, 0x34, 0x35, 0x36, 0x37, 0x38]
      ∧ crypt_step (generate_keys main_key (List.replicate 16 (uninit 48)))
          (chars8_to_binchars [0xF5, 0xE8, 0xE9, 0xEB, 0x81, 0xF2, 0x8B, 0x73] (uninit 64))
          (uninit 32, uninit 32) 0
        = ((select IP (bytes_bits [0xF5, 0xE8, 0xE9, 0xEB, 0x81, 0xF2, 0x8B, 0x73])).drop 32,
            xor_bits
              ((select IP (bytes_bits [0xF5, 0xE8, 0xE9, 0xEB, 0x81, 0xF2, 0x8B, 0x73])).take 32)
              (f (generate_keys main_key (List.replicate 16 (uninit 48))) (uninit 32)
                ((select IP (bytes_bits [0xF5, 0xE8, 0xE9, 0xEB, 0x81, 0xF2, 0x8B, 0x73])).drop 32)
                0))
      ∧ bits_bytes
          (crypt_final_chunk (generate_keys main_key (List.replicate 16 (uninit 48)))
            [0xF5, 0xE8, 0xE9, 0xEB, 0x81, 0xF2, 0x8B, 0x73])
        = [0x31, 0x32, 0x33, 0x34, 0x35, 0x36, 0x37, 0x38]
      ∧ crypt (generate_keys main_key (List.replicate 16 (uninit 48)))
          [0xF5, 0xE8, 0xE9, 0xEB, 0x81, 0xF2, 0x8B, 0x73] (List.replicate 8 0) (fun _ => [])
        = [0x31, 0x32, 0x33, 0x34, 0x35, 0x36, 0x37, 0x38]
      ∧ crypt (generate_keys main_key (List.replicate 16 (uninit 48)))
          [0xF5, 0xE8, 0xE9, 0xEB, 0x81, 0xF2, 0x8B, 0x73] (List.replicate 8 0)
          (frame_mem 0 [0x31, 0x65, 0x33, 0x6B, 0x35, 0x71, 0x37, 0x77])
        = [0x31, 0x65, 0x33, 0x6B, 0x35, 0x71, 0x37, 0x77]
      ∧ [0x31, 0x65, 0x33, 0x6B, 0x35, 0x71, 0x37, 0x77]
        ≠ [0x31, 0x32, 0x33, 0x34, 0x35, 0x36, 0x37, 0x38] := by
  have hs : spec_crypt
      (fun n R => f (generate_keys main_key (List.replicate 16 (uninit 48))) (uninit 32) R n)
      [0xF5, 0xE8, 0xE9, 0xEB, 0x81, 0xF2, 0x8B, 0x73]
      = [0x31, 0x32, 0x33, 0x34, 0x35, 0x36, 0x37, 0x38] := by
    rw [generate_keys_eq main_key _ (by decide) (by decide),
      spec_crypt_nat _ _ (length_keys_nat _) (keys_rows_nat main_key (by decide)) _ (by decide),
      keys_nat_main, crypt_nat_to_digits]
  refine ⟨hs, ?_, ?_, ?_, ?_, by decide⟩
  · rw [chars8_to_binchars_eq _ _ (length_uninit 64) (by decide)]
    exact crypt_step_zero _ _ _ (length_uninit 32) (length_uninit 32) (Bits_bytes_bits _)
      (by decide)
  · rw [crypt_final_chunk_spec _ _ (by decide), ← spec_crypt_eq_bits]
    exact hs
  · rw [crypt_eq _ _ _ _ (by decide) (by decide) (by decide)]
    exact hs
  · rw [crypt_mem _ _ _ _ (by decide) (by decide), hs]
    decide!

/-- C6: for every 32-element half block `R` and 48-element round key `K`
of `'0'`/`'1'` values, `f` returns table `P` applied to the
concatenation, for `i = 0..7` in order, of the 4-bit big-endian encoding
of `S[i][row*16+col]`, where group `i` is elements `6i..6i+5` of
`E(R) XOR K`, `row` is the 2-bit number formed by the first and last bits
of the group and `col` the 4-bit number formed by its middle four bits
(this is `sbox_bits`). -/
theorem f_round_function (pk : List (List Char)) (out R K : List Char) (round : Nat)
    (hK : pk.getD round [] = K) (_hR : Bits R) (_lR : R.length = 32) (_bK : Bits K)
    (lK : K.length = 48) (ho : out.length = 32) :
    f pk out R round
      = select P ((List.range 8).map (sbox_bits (xor_bits (select E R) K))).flatten := by
  subst hK
  exact f_eq pk out R round lK ho

theorem f_round_function_witness :
    f (List.replicate 16 (value_bits 48 5)) (uninit 32) (value_bits 32 9) 0
      = select P ((List.range 8).map
          (sbox_bits (xor_bits (select E (value_bits 32 9)) (value_bits 48 5)))).flatten :=
  f_round_function (List.replicate 16 (value_bits 48 5)) (uninit 32) (value_bits 32 9)
    (value_bits 48 5) 0 rfl (by decide) (by decide) (by decide) (by decide) (by decide)

/-- C7: only the 56 non-check bits of the key are used. Table `PC_1`
holds each of the 56 key bit positions other than 8, 16, ..., 64 exactly
once and none of those eight; hence for every two 8-byte keys that differ
only in the least significant bit of some bytes, `generate_keys` produces
the same round keys and `crypt_chunk` returns the same result, and leaves
the same round keys, for every block and mode (and whatever the memory
that follows the buffer of `binchars64_to_char8` holds). -/
theorem check_bits_unused (k1 k2 : List Nat) (pk1 pk2 : List (List Char)) (h1 : Bytes8 k1)
    (h2 : Bytes8 k2) (h : ∀ i < 8, k1.getD i 0 / 2 = k2.getD i 0 / 2) (hpk1 : KeysShape pk1)
    (hpk2 : KeysShape pk2) :
    (∀ q, 1 ≤ q → q ≤ 64 → PC_1.count q = if q % 8 = 0 then 0 else 1)
      ∧ generate_keys k1 pk1 = generate_keys k2 pk2
      ∧ ∀ (p : List Nat) (mode : Char) (r : List Nat) (mem : Nat → List Char),
          crypt_chunk p k1 mode r pk1 mem = crypt_chunk p k2 mode r pk2 mem := by
  have hg : generate_keys k1 pk1 = generate_keys k2 pk2 := by
    rw [generate_keys_eq k1 pk1 h1.1 hpk1, generate_keys_eq k2 pk2 h2.1 hpk2,
      spec_keys_congr k1 k2 h1.1 h2.1 h]
  refine ⟨by decide, hg, fun p mode r mem => ?_⟩
  unfold crypt_chunk
  dsimp only
  rw [hg]

theorem check_bits_unused_witness :
    (∀ q, 1 ≤ q → q ≤ 64 → PC_1.count q = if q % 8 = 0 then 0 else 1)
      ∧ generate_keys main_key (List.replicate 16 (uninit 48))
        = generate_keys [48, 51, 50, 53, 52, 55, 54, 57] (List.replicate 16 (uninit 48))
      ∧ ∀ (p : List Nat) (mode : Char) (r : List Nat) (mem : Nat → List Char),
          crypt_chunk p main_key mode r (List.replicate 16 (uninit 48)) mem
            = crypt_chunk p [48, 51, 50, 53, 52, 55, 54, 57] mode r
                (List.replicate 16 (uninit 48)) mem :=
  check_bits_unused main_key [48, 51, 50, 53, 52, 55, 54, 57] (List.replicate 16 (uninit 48))
    (List.replicate 16 (uninit 48)) (by decide) (by decide) (by decide) (by decide) (by decide)

set_option maxRecDepth 100000 in
/-- C9, evaluated: `binchars64_to_char8(chars8_to_binchars(b))` is `b`
for the bytes `50, 97, 0, 255, 128, 1, 49, 200` when no digit follows the
buffer `bits` in memory. In the stack frame of an unoptimised build
(`frame_mem`), with the character `'0'` left in the variable `c` by
earlier calls, the result for these bytes is `100, 97, 0, 255, 128, 1,
49, 145`: the byte 50 is read with the digit `'0'` appended and the byte
200 with the digit `'1'`, the byte 49 converted before it. In the same
frame the bytes of `"12345678"` come back as `"1e3k5q7w"`. -/
theorem codec_digit_after :
    binchars64_to_char8 (chars8_to_binchars [50, 97, 0, 255, 128, 1, 49, 200] (uninit 64))
        (List.replicate 8 0) (fun _ => []) = [50, 97, 0, 255, 128, 1, 49, 200]
      ∧ binchars64_to_char8 (chars8_to_binchars [50, 97, 0, 255, 128, 1, 49, 200] (uninit 64))
          (List.replicate 8 0) (frame_mem 48 [100, 97, 0, 255, 128, 1, 49, 145])
        = [100, 97, 0, 255, 128, 1, 49, 145]
      ∧ binchars64_to_char8
          (chars8_to_binchars [0x31, 0x32, 0x33, 0x34, 0x35, 0x36, 0x37, 0x38] (uninit 64))
          (List.replicate 8 0) (frame_mem 0 [0x31, 0x65, 0x33, 0x6B, 0x35, 0x71, 0x37, 0x77])
        = [0x31, 0x65, 0x33, 0x6B, 0x35, 0x71, 0x37, 0x77]
      ∧ [0x31, 0x65, 0x33, 0x6B, 0x35, 0x71, 0x37, 0x77]
        ≠ [0x31, 0x32, 0x33, 0x34, 0x35, 0x36, 0x37, 0x38] := by
  decide!

/-- C10: for every length `n` from 1 to 30 and every vector `v` of `n`
`'0'`/`'1'` elements, `unsigned_to_binchars(binchars_to_unsigned(v, n), n)
= v`, whatever the output buffer of `n` elements held before; the
intermediate value is below `2 ^ 31`, so it fits the C type `int`. -/
theorem unsigned_round_trip (v buf : List Char) (n : Nat) (_h1 : 1 ≤ n) (h30 : n ≤ 30)
    (hl : v.length = n) (hv : Bits v) (hbuf : buf.length = n) :
    binchars_to_unsigned v n < 2 ^ 31
      ∧ unsigned_to_binchars (binchars_to_unsigned v n) buf n = v := by
  rw [binchars_to_unsigned_eq v n hl, unsigned_to_binchars_eq _ buf n hbuf]
  constructor
  · have h := bits_value_lt v hv
    rw [hl] at h
    exact lt_of_lt_of_le h (Nat.pow_le_pow_right (by decide) (by omega))
  · rw [← hl]
    exact value_bits_bits_value v hv

theorem unsigned_round_trip_witness :
    binchars_to_unsigned ['1', '0', '1', '1'] 4 < 2 ^ 31
      ∧ unsigned_to_binchars (binchars_to_unsigned ['1', '0', '1', '1'] 4) (uninit 4) 4
        = ['1', '0', '1', '1'] :=
  unsigned_round_trip ['1', '0', '1', '1'] (uninit 4) 4 (by decide) (by decide) (by decide)
    (by decide) (by decide)

/-- C11: for every 8-byte input and all `i`, `j` in `0..7`, element
`i*8+j` of `chars8_to_binchars(bytes)` is `'1'` exactly when bit `j` of
byte `i`, counted from the most significant bit, is set, and `'0'`
otherwise. -/
theorem chars8_to_binchars_bit (b : List Nat) (buf : List Char) (hb : Bytes8 b)
    (hbuf : buf.length = 64) (i j : Nat) (hi : i < 8) (hj : j < 8) :
    (chars8_to_binchars b buf).getD (i * 8 + j) NUL
      = if (b.getD i 0).testBit (7 - j) then '1' else '0' := by
  rw [chars8_to_binchars_eq b buf hbuf hb.1, Nat.mul_comm i 8,
    getD_bytes_bits b i j (by rw [hb.1]; exact hi) hj]
  rfl

theorem chars8_to_binchars_bit_witness :
    (chars8_to_binchars main_msg (uninit 64)).getD (2 * 8 + 6) NUL
      = if (main_msg.getD 2 0).testBit (7 - 6) then '1' else '0' :=
  chars8_to_binchars_bit main_msg (uninit 64) (by decide) (by decide) 2 6 (by decide)
    (by decide)

/-- C12: for every length `n` from 1 to 30 and every vector `v` of `n`
elements, `binchars_to_unsigned(v, n)` is the unsigned big-endian value
of `v`, the sum over `i` of `bit(v[i]) * 2^(n-1-i)` where `bit` is 1 for
`'1'` and 0 otherwise, and it is below `2 ^ n`, hence within the C type
`int`. -/
theorem binchars_to_unsigned_value (v : List Char) (n : Nat) (_h1 : 1 ≤ n) (h30 : n ≤ 30)
    (hl : v.length = n) :
    binchars_to_unsigned v n
        = ((List.range n).map
            (fun i => (if v.getD i NUL = '1' then 1 else 0) * 2 ^ (n - 1 - i))).sum
      ∧ binchars_to_unsigned v n < 2 ^ n ∧ 2 ^ n < 2 ^ 31 := by
  rw [binchars_to_unsigned_eq v n hl]
  refine ⟨?_, ?_, Nat.pow_lt_pow_right (by decide) (by omega)⟩
  · have h := bits_value_eq_sum v
    rw [hl] at h
    exact h
  · have h := bits_value_lt_pow v
    rw [hl] at h
    exact h

theorem binchars_to_unsigned_value_witness :
    binchars_to_unsigned ['1', '0', '1', '1'] 4
        = ((List.range 4).map
            (fun i =>
              (if ['1', '0', '1', '1'].getD i NUL = '1' then 1 else 0) * 2 ^ (4 - 1 - i))).sum
      ∧ binchars_to_unsigned ['1', '0', '1', '1'] 4 < 2 ^ 4 ∧ 2 ^ 4 < 2 ^ 31 :=
  binchars_to_unsigned_value ['1', '0', '1', '1'] 4 (by decide) (by decide) (by decide)

/-- C13: round-key generation does not depend on earlier calls: for every
8-byte key `k` and every two prior contents of `PERMUTED_KEYS`,
`generate_keys(k)` leaves the same array, 16 rows of 48 elements that are
all `'0'` or `'1'`, so every element is overwritten and the round keys
depend on `k` only. -/
theorem generate_keys_independent (k : List Nat) (pk1 pk2 : List (List Char)) (hk : Bytes8 k)
    (hpk1 : KeysShape pk1) (hpk2 : KeysShape pk2) :
    generate_keys k pk1 = generate_keys k pk2
      ∧ KeysShape (generate_keys k pk1)
      ∧ ∀ row ∈ generate_keys k pk1, Bits row := by
  rw [generate_keys_eq k pk1 hk.1 hpk1, generate_keys_eq k pk2 hk.1 hpk2]
  exact ⟨rfl, KeysShape_spec_keys k, Bits_spec_keys k hk.1⟩

theorem generate_keys_independent_witness :
    generate_keys main_key (List.replicate 16 (uninit 48))
        = generate_keys main_key (List.replicate 16 (List.replicate 48 'x'))
      ∧ KeysShape (generate_keys main_key (List.replicate 16 (uninit 48)))
      ∧ ∀ row ∈ generate_keys main_key (List.replicate 16 (uninit 48)), Bits row :=
  generate_keys_independent main_key (List.replicate 16 (uninit 48))
    (List.replicate 16 (List.replicate 48 'x')) (by decide) (by decide) (by decide)

/-- C15: `IP_REVERSED` is the inverse permutation of `IP`: for every
64-element vector `v`, selecting through `IP` and then through
`IP_REVERSED` returns `v`, and selecting through `IP_REVERSED` and then
through `IP` returns `v`; for every `i` in `1..64`, the entry of
`IP_REVERSED` at position `IP[i]` is `i` and the entry of `IP` at
position `IP_REVERSED[i]` is `i` (positions counted from 1). -/
theorem IP_REVERSED_inverse (v : List Char) (hv : v.length = 64) :
    select IP_REVERSED (select IP v) = v
      ∧ select IP (select IP_REVERSED v) = v
      ∧ ∀ i, 1 ≤ i → i ≤ 64 →
          IP_REVERSED.getD (IP.getD (i - 1) 0 - 1) 0 = i
            ∧ IP.getD (IP_REVERSED.getD (i - 1) 0 - 1) 0 = i :=
  ⟨select_IP_REVERSED_IP v hv, select_IP_IP_REVERSED v hv, by decide⟩

theorem IP_REVERSED_inverse_witness :
    select IP_REVERSED (select IP (bytes_bits main_msg)) = bytes_bits main_msg
      ∧ select IP (select IP_REVERSED (bytes_bits main_msg)) = bytes_bits main_msg
      ∧ ∀ i, 1 ≤ i → i ≤ 64 →
          IP_REVERSED.getD (IP.getD (i - 1) 0 - 1) 0 = i
            ∧ IP.getD (IP_REVERSED.getD (i - 1) 0 - 1) 0 = i :=
  IP_REVERSED_inverse (bytes_bits main_msg) (by decide)

/-- C16: no S-box lookup in `f` is out of range. The function `f` looks
up exactly the values `f_sValInt` of its buffer `xored`; for every input,
every round, every content of the round keys and each of the eight
groups, `row` lies in `0..3`, `cols` in `0..15`, the index
`row*16+cols` in `0..63`, inside row `i` of `S`, and the value looked up
in `0..15`, so that `binchars_to_unsigned` gives it back from its
4-element encoding by `unsigned_to_binchars`. -/
theorem sbox_lookup_in_range (pk : List (List Char)) (out R : List Char) (round i : Nat)
    (hi : i < 8) :
    f pk out R round
        = (List.range 32).foldl
            (fun fOutput i =>
              fOutput.set i
                (((List.range 8).foldl
                  (fun sBoxed i =>
                    strncpy sBoxed (i * 4)
                      (unsigned_to_binchars (f_sValInt (f_xored pk R round) i) (uninit 4) 4) 4)
                  (uninit 32)).getD (P.getD i 0 - 1) NUL))
            out
      ∧ f_row (f_xored pk R round) i ≤ 3
      ∧ f_cols (f_xored pk R round) i ≤ 15
      ∧ f_row (f_xored pk R round) i * 16 + f_cols (f_xored pk R round) i ≤ 63
      ∧ f_row (f_xored pk R round) i * 16 + f_cols (f_xored pk R round) i
          < (S.getD i []).length
      ∧ f_sValInt (f_xored pk R round) i
          = (S.getD i []).getD
              (f_row (f_xored pk R round) i * 16 + f_cols (f_xored pk R round) i) 0
      ∧ f_sValInt (f_xored pk R round) i ≤ 15
      ∧ binchars_to_unsigned
          (unsigned_to_binchars (f_sValInt (f_xored pk R round) i) (uninit 4) 4) 4
          = f_sValInt (f_xored pk R round) i := by
  have hr := f_row_le (f_xored pk R round) i
  have hc := f_cols_le (f_xored pk R round) i
  have hs : f_sValInt (f_xored pk R round) i ≤ 15 := S_getD_le _ _
  refine ⟨f_uses_sValInt pk out R round, hr, hc, by omega, ?_, rfl, hs,
    four_bit_round_trip _ hs⟩
  rw [S_rows_length i hi]
  omega

theorem sbox_lookup_in_range_witness :
    f (List.replicate 16 (value_bits 48 5)) (uninit 32) (value_bits 32 9) 0
        = (List.range 32).foldl
            (fun fOutput i =>
              fOutput.set i
                (((List.range 8).foldl
                  (fun sBoxed i =>
                    strncpy sBoxed (i * 4)
                      (unsigned_to_binchars
                        (f_sValInt
                          (f_xored (List.replicate 16 (value_bits 48 5)) (value_bits 32 9) 0) i)
                        (uninit 4) 4) 4)
                  (uninit 32)).getD (P.getD i 0 - 1) NUL))
            (uninit 32)
      ∧ f_row (f_xored (List.replicate 16 (value_bits 48 5)) (value_bits 32 9) 0) 7 ≤ 3
      ∧ f_cols (f_xored (List.replicate 16 (value_bits 48 5)) (value_bits 32 9) 0) 7 ≤ 15
      ∧ f_row (f_xored (List.replicate 16 (value_bits 48 5)) (value_bits 32 9) 0) 7 * 16
          + f_cols (f_xored (List.replicate 16 (value_bits 48 5)) (value_bits 32 9) 0) 7 ≤ 63
      ∧ f_row (f_xored (List.replicate 16 (value_bits 48 5)) (value_bits 32 9) 0) 7 * 16
          + f_cols (f_xored (List.replicate 16 (value_bits 48 5)) (value_bits 32 9) 0) 7
          < (S.getD 7 []).length
      ∧ f_sValInt (f_xored (List.replicate 16 (value_bits 48 5)) (value_bits 32 9) 0) 7
          = (S.getD 7 []).getD
              (f_row (f_xored (List.replicate 16 (value_bits 48 5)) (value_bits 32 9) 0) 7 * 16
                + f_cols (f_xored (List.replicate 16 (value_bits 48 5)) (value_bits 32 9) 0) 7)
              0
      ∧ f_sValInt (f_xored (List.replicate 16 (value_bits 48 5)) (value_bits 32 9) 0) 7 ≤ 15
      ∧ binchars_to_unsigned
          (unsigned_to_binchars
            (f_sValInt (f_xored (List.replicate 16 (value_bits 48 5)) (value_bits 32 9) 0) 7)
            (uninit 4) 4) 4
          = f_sValInt (f_xored (List.replicate 16 (value_bits 48 5)) (value_bits 32 9) 0) 7 :=
  sbox_lookup_in_range (List.replicate 16 (value_bits 48 5)) (uninit 32) (value_bits 32 9) 0 7
    (by decide)

/-- C17: the rotation state is cumulative and closes the cycle: the 16
entries of `LEFT_SHIFTS` sum to 28, so for every key the row of
`shifted_keys` written by the 16th iteration holds the unrotated halves
`C_0` and `D_0`, and the last round key (`PERMUTED_KEYS[15]` after
`generate_keys`) is `PC_2` applied to `PC_1` of the key bits with no
rotation. -/
theorem last_round_key_unrotated (k : List Nat) (pk : List (List Char)) (hk : Bytes8 k)
    (hpk : KeysShape pk) :
    LEFT_SHIFTS.length = 16 ∧ LEFT_SHIFTS.sum = 28
      ∧ ((generate_keys_shifted k).getD 15 []).take 28 = (select PC_1 (bytes_bits k)).take 28
      ∧ ((generate_keys_shifted k).getD 15 []).drop 28 = (select PC_1 (bytes_bits k)).drop 28
      ∧ (generate_keys k pk).getD 15 [] = select PC_2 (select PC_1 (bytes_bits k)) := by
  have h := generate_keys_shifted_last k hk.1
  refine ⟨rfl, LEFT_SHIFTS_sum, by rw [h], by rw [h], ?_⟩
  rw [generate_keys_eq k pk hk.1 hpk, getD_spec_keys k 15 (by decide), ← h,
    generate_keys_shifted_row k hk.1 15 (by decide)]
  rfl

theorem last_round_key_unrotated_witness :
    LEFT_SHIFTS.length = 16 ∧ LEFT_SHIFTS.sum = 28
      ∧ ((generate_keys_shifted main_key).getD 15 []).take 28
          = (select PC_1 (bytes_bits main_key)).take 28
      ∧ ((generate_keys_shifted main_key).getD 15 []).drop 28
          = (select PC_1 (bytes_bits main_key)).drop 28
      ∧ (generate_keys main_key (List.replicate 16 (uninit 48))).getD 15 []
          = select PC_2 (select PC_1 (bytes_bits main_key)) :=
  last_round_key_unrotated main_key (List.replicate 16 (uninit 48)) (by decide) (by decide)

/-- C18: every working vector holds only bits: for every 8-byte key and
8-byte block, each of the 16 round keys written by `generate_keys` (48
elements), each output of `f` (32 elements), each left and right half
after every round (32 elements) and the final 64-element chunk that
`crypt` hands to `binchars64_to_char8` consist solely of the characters
`'0'` and `'1'`. -/
theorem working_vectors_are_bits (k p : List Nat) (pk0 : List (List Char)) (hk : Bytes8 k)
    (hp : Bytes8 p) (hpk0 : KeysShape pk0) :
    (∀ row ∈ generate_keys k pk0, Bits row ∧ row.length = 48)
      ∧ (∀ (pk : List (List Char)) (out R : List Char) (round : Nat), out.length = 32 →
          Bits (f pk out R round) ∧ (f pk out R round).length = 32)
      ∧ (∀ (pk : List (List Char)) (n : Nat),
          (Bits ((List.range (n + 1)).foldl
              (crypt_step pk (chars8_to_binchars p (uninit 64))) (uninit 32, uninit 32)).1
            ∧ ((List.range (n + 1)).foldl
              (crypt_step pk (chars8_to_binchars p (uninit 64))) (uninit 32, uninit 32)).1.length
              = 32)
          ∧ Bits ((List.range (n + 1)).foldl
              (crypt_step pk (chars8_to_binchars p (uninit 64))) (uninit 32, uninit 32)).2
            ∧ ((List.range (n + 1)).foldl
              (crypt_step pk (chars8_to_binchars p (uninit 64))) (uninit 32, uninit 32)).2.length
              = 32)
      ∧ ∀ pk : List (List Char),
          Bits (crypt_final_chunk pk p) ∧ (crypt_final_chunk pk p).length = 64 := by
  have hb : Bits (bytes_bits p) := Bits_bytes_bits p
  have hl : (bytes_bits p).length = 64 := by rw [length_bytes_bits, hp.1]
  refine ⟨fun row hrow => ?_, fun pk out R round ho => ⟨Bits_f pk out R round ho,
    length_f pk out R round ho⟩, fun pk n => ?_, fun pk => ?_⟩
  · rw [generate_keys_eq k pk0 hk.1 hpk0] at hrow
    exact ⟨Bits_spec_keys k hk.1 row hrow, (KeysShape_spec_keys k).2 row hrow⟩
  · rw [chars8_to_binchars_eq p _ (length_uninit 64) hp.1]
    obtain ⟨h0, h1, h2, h3, h4⟩ := crypt_loop pk (bytes_bits p) hb hl n
    rw [h0]
    exact ⟨⟨h3, h1⟩, h4, h2⟩
  · rw [crypt_final_chunk_eq pk p hp.1]
    obtain ⟨_, h1, h2, h3, h4⟩ := crypt_loop pk (bytes_bits p) hb hl 15
    refine ⟨Bits_select _ _ (h4.append h3) ?_, length_select _ _⟩
    rw [List.length_append, h1, h2]
    decide

theorem working_vectors_are_bits_witness :
    (∀ row ∈ generate_keys main_key (List.replicate 16 (uninit 48)),
        Bits row ∧ row.length = 48)
      ∧ (∀ (pk : List (List Char)) (out R : List Char) (round : Nat), out.length = 32 →
          Bits (f pk out R round) ∧ (f pk out R round).length = 32)
      ∧ (∀ (pk : List (List Char)) (n : Nat),
          (Bits ((List.range (n + 1)).foldl
              (crypt_step pk (chars8_to_binchars main_msg (uninit 64)))
              (uninit 32, uninit 32)).1
            ∧ ((List.range (n + 1)).foldl
              (crypt_step pk (chars8_to_binchars main_msg (uninit 64)))
              (uninit 32, uninit 32)).1.length = 32)
          ∧ Bits ((List.range (n + 1)).foldl
              (crypt_step pk (chars8_to_binchars main_msg (uninit 64)))
              (uninit 32, uninit 32)).2
            ∧ ((List.range (n + 1)).foldl
              (crypt_step pk (chars8_to_binchars main_msg (uninit 64)))
              (uninit 32, uninit 32)).2.length = 32)
      ∧ ∀ pk : List (List Char),
          Bits (crypt_final_chunk pk main_msg) ∧ (crypt_final_chunk pk main_msg).length = 64 :=
  working_vectors_are_bits main_key main_msg (List.replicate 16 (uninit 48)) (by decide)
    (by decide) (by decide)

set_option maxRecDepth 100000 in
/-- C19, evaluated on the key `"12345678"` and the block
`F5 E8 E9 EB 81 F2 8B 73`, whose ciphertext is `"12345678"`: encrypting
the complement of the block under the complement of the key gives the
complement of the ciphertext when no digit follows the buffer `bits` of
`binchars64_to_char8`. In the stack frame of an unoptimised build
(`frame_mem`), `crypt_chunk(p, k, 'e')` is `31 65 33 6B 35 71 37 77` and
`crypt_chunk(~p, ~k, 'e')` is `CE CD CC CB CA C9 C8 C7`, which is not its
complement `CE 9A CC 94 CA 8E C8 88`. -/
theorem complementation_digit_after :
    (crypt_chunk (complement [0xF5, 0xE8, 0xE9, 0xEB, 0x81, 0xF2, 0x8B, 0x73])
        (complement main_key) 'e' (List.replicate 8 0) (List.replicate 16 (uninit 48))
        (fun _ => [])).1
        = complement
          (crypt_chunk [0xF5, 0xE8, 0xE9, 0xEB, 0x81, 0xF2, 0x8B, 0x73] main_key 'e'
            (List.replicate 8 0) (List.replicate 16 (uninit 48)) (fun _ => [])).1
      ∧ (crypt_chunk [0xF5, 0xE8, 0xE9, 0xEB, 0x81, 0xF2, 0x8B, 0x73] main_key 'e'
          (List.replicate 8 0) (List.replicate 16 (uninit 48))
          (frame_mem 0 [0x31, 0x65, 0x33, 0x6B, 0x35, 0x71, 0x37, 0x77])).1
        = [0x31, 0x65, 0x33, 0x6B, 0x35, 0x71, 0x37, 0x77]
      ∧ (crypt_chunk (complement [0xF5, 0xE8, 0xE9, 0xEB, 0x81, 0xF2, 0x8B, 0x73])
          (complement main_key) 'e' (List.replicate 8 0) (List.replicate 16 (uninit 48))
          (frame_mem 0 [0xCE, 0xCD, 0xCC, 0xCB, 0xCA, 0xC9, 0xC8, 0xC7])).1
        = [0xCE, 0xCD, 0xCC, 0xCB, 0xCA, 0xC9, 0xC8, 0xC7]
      ∧ complement [0x31, 0x65, 0x33, 0x6B, 0x35, 0x71, 0x37, 0x77]
        = [0xCE, 0x9A, 0xCC, 0x94, 0xCA, 0x8E, 0xC8, 0x88]
      ∧ [0xCE, 0xCD, 0xCC, 0xCB, 0xCA, 0xC9, 0xC8, 0xC7]
        ≠ complement [0x31, 0x65, 0x33, 0x6B, 0x35, 0x71, 0x37, 0x77] := by
  refine ⟨?_, ?_, ?_, by decide, by decide⟩
  · exact crypt_chunk_complement _ main_key _ _ _ _ _ _ (by decide) (by decide) (by decide)
      (by decide) (by decide) (by decide) (by decide) (by decide)
  · rw [crypt_chunk_e_mem _ main_key _ _ _ (by decide) (by decide) (by decide) (by decide),
      keys_nat_main, crypt_nat_to_digits]
    decide!
  · rw [crypt_chunk_e_mem _ _ _ _ _ (by decide) (by decide) (by decide) (by decide),
      crypt_nat_to_digits_complement]
    decide!

set_option maxRecDepth 100000 in
/-- C20, evaluated under the key `"12345678"`. When no digit follows the
buffer `bits` of `binchars64_to_char8`, encrypting the decryption of the
block `96 D0 02 88 78 D5 8C 89` returns that block. In the stack frame
of an unoptimised build (`frame_mem`), the decryption of that block is
`31 65 33 6B 35 71 37 77` and encrypting it returns
`8D 2C 0F 3C 79 07 BC 29`; and the two different plain texts
`8C 62 7F FF A1 7D CD 0A` and `FC 08 F6 20 CB FB DE B6` have the same
ciphertext `31 01 00 00 00 00 00 00`. -/
theorem encrypt_decrypt_digit_after :
    (crypt_chunk
        (crypt_chunk [0x96, 0xD0, 0x02, 0x88, 0x78, 0xD5, 0x8C, 0x89] main_key 'd'
          (List.replicate 8 0) (List.replicate 16 (uninit 48)) (fun _ => [])).1
        main_key 'e' (List.replicate 8 0) (List.replicate 16 (uninit 48)) (fun _ => [])).1
        = [0x96, 0xD0, 0x02, 0x88, 0x78, 0xD5, 0x8C, 0x89]
      ∧ (crypt_chunk [0x96, 0xD0, 0x02, 0x88, 0x78, 0xD5, 0x8C, 0x89] main_key 'd'
          (List.replicate 8 0) (List.replicate 16 (uninit 48))
          (frame_mem 0 [0x31, 0x65, 0x33, 0x6B, 0x35, 0x71, 0x37, 0x77])).1
        = [0x31, 0x65, 0x33, 0x6B, 0x35, 0x71, 0x37, 0x77]
      ∧ (crypt_chunk
          (crypt_chunk [0x96, 0xD0, 0x02, 0x88, 0x78, 0xD5, 0x8C, 0x89] main_key 'd'
            (List.replicate 8 0) (List.replicate 16 (uninit 48))
            (frame_mem 0 [0x31, 0x65, 0x33, 0x6B, 0x35, 0x71, 0x37, 0x77])).1
          main_key 'e' (List.replicate 8 0) (List.replicate 16 (uninit 48))
          (frame_mem 0 [0x8D, 0x2C, 0x0F, 0x3C, 0x79, 0x07, 0xBC, 0x29])).1
        = [0x8D, 0x2C, 0x0F, 0x3C, 0x79, 0x07, 0xBC, 0x29]
      ∧ [0x8D, 0x2C, 0x0F, 0x3C, 0x79, 0x07, 0xBC, 0x29]
        ≠ [0x96, 0xD0, 0x02, 0x88, 0x78, 0xD5, 0x8C, 0x89]
      ∧ (crypt_chunk [0x8C, 0x62, 0x7F, 0xFF, 0xA1, 0x7D, 0xCD, 0x0A] main_key 'e'
          (List.replicate 8 0) (List.replicate 16 (uninit 48))
          (frame_mem 0 [0x31, 0x01, 0, 0, 0, 0, 0, 0])).1 = [0x31, 0x01, 0, 0, 0, 0, 0, 0]
      ∧ (crypt_chunk [0xFC, 0x08, 0xF6, 0x20, 0xCB, 0xFB, 0xDE, 0xB6] main_key 'e'
          (List.replicate 8 0) (List.replicate 16 (uninit 48))
          (frame_mem 0 [0x31, 0x01, 0, 0, 0, 0, 0, 0])).1 = [0x31, 0x01, 0, 0, 0, 0, 0, 0]
      ∧ [0x8C, 0x62, 0x7F, 0xFF, 0xA1, 0x7D, 0xCD, 0x0A]
        ≠ [0xFC, 0x08, 0xF6, 0x20, 0xCB, 0xFB, 0xDE, 0xB6] := by
  have hd : (crypt_chunk [0x96, 0xD0, 0x02, 0x88, 0x78, 0xD5, 0x8C, 0x89] main_key 'd'
      (List.replicate 8 0) (List.replicate 16 (uninit 48))
      (frame_mem 0 [0x31, 0x65, 0x33, 0x6B, 0x35, 0x71, 0x37, 0x77])).1
      = [0x31, 0x65, 0x33, 0x6B, 0x35, 0x71, 0x37, 0x77] := by
    rw [crypt_chunk_d_mem _ main_key _ _ _ (by decide) (by decide) (by decide) (by decide),
      keys_nat_main, crypt_nat_digits_inverse]
    decide!
  refine ⟨?_, hd, ?_, by decide, ?_, ?_, by decide⟩
  · exact crypt_chunk_e_d _ main_key _ _ _ _ _ _ (by decide) (by decide) (by decide)
      (by decide) (by decide) (by decide) (by decide) (by decide)
  · rw [hd, crypt_chunk_e_mem _ main_key _ _ _ (by decide) (by decide) (by decide) (by decide),
      keys_nat_main, crypt_nat_garbled_digits]
    decide!
  · rw [crypt_chunk_e_mem _ main_key _ _ _ (by decide) (by decide) (by decide) (by decide),
      keys_nat_main, crypt_nat_main_pair.1]
    decide!
  · rw [crypt_chunk_e_mem _ main_key _ _ _ (by decide) (by decide) (by decide) (by decide),
      keys_nat_main, crypt_nat_main_pair.2]
    decide!

set_option maxRecDepth 100000 in
/-- C21, evaluated on the block `62 DD 8E 4A 61 4E 1A F9`:
`generate_keys` on the all-zero 8-byte key leaves 16 identical round
keys, 48 characters `'0'` each, and mode `'d'` returns what mode `'e'`
returns, whatever follows the buffer `bits` of `binchars64_to_char8` in
memory. Encrypting the block twice returns it when no digit follows that
buffer. In the stack frame of an unoptimised build (`frame_mem`) the
first encryption returns `31 65 33 6B 35 71 37 77` in place of
`"12345678"`, and the second one `95 D1 66 6A 6B AA E8 BD`, not the
block. -/
theorem zero_key_digit_after :
    generate_keys [0, 0, 0, 0, 0, 0, 0, 0] (List.replicate 16 (uninit 48))
        = List.replicate 16 (List.replicate 48 '0')
      ∧ (∀ mem : Nat → List Char,
          crypt_chunk [0x62, 0xDD, 0x8E, 0x4A, 0x61, 0x4E, 0x1A, 0xF9] [0, 0, 0, 0, 0, 0, 0, 0]
              'd' (List.replicate 8 0) (List.replicate 16 (uninit 48)) mem
            = crypt_chunk [0x62, 0xDD, 0x8E, 0x4A, 0x61, 0x4E, 0x1A, 0xF9]
                [0, 0, 0, 0, 0, 0, 0, 0] 'e' (List.replicate 8 0)
                (List.replicate 16 (uninit 48)) mem)
      ∧ (crypt_chunk
          (crypt_chunk [0x62, 0xDD, 0x8E, 0x4A, 0x61, 0x4E, 0x1A, 0xF9] [0, 0, 0, 0, 0, 0, 0, 0]
            'e' (List.replicate 8 0) (List.replicate 16 (uninit 48)) (fun _ => [])).1
          [0, 0, 0, 0, 0, 0, 0, 0] 'e' (List.replicate 8 0) (List.replicate 16 (uninit 48))
          (fun _ => [])).1 = [0x62, 0xDD, 0x8E, 0x4A, 0x61, 0x4E, 0x1A, 0xF9]
      ∧ (crypt_chunk [0x62, 0xDD, 0x8E, 0x4A, 0x61, 0x4E, 0x1A, 0xF9] [0, 0, 0, 0, 0, 0, 0, 0]
          'e' (List.replicate 8 0) (List.replicate 16 (uninit 48))
          (frame_mem 0 [0x31, 0x65, 0x33, 0x6B, 0x35, 0x71, 0x37, 0x77])).1
        = [0x31, 0x65, 0x33, 0x6B, 0x35, 0x71, 0x37, 0x77]
      ∧ (crypt_chunk
          (crypt_chunk [0x62, 0xDD, 0x8E, 0x4A, 0x61, 0x4E, 0x1A, 0xF9] [0, 0, 0, 0, 0, 0, 0, 0]
            'e' (List.replicate 8 0) (List.replicate 16 (uninit 48))
            (frame_mem 0 [0x31, 0x65, 0x33, 0x6B, 0x35, 0x71, 0x37, 0x77])).1
          [0, 0, 0, 0, 0, 0, 0, 0] 'e' (List.replicate 8 0) (List.replicate 16 (uninit 48))
          (frame_mem 0 [0x95, 0xD1, 0x66, 0x6A, 0x6B, 0xAA, 0xE8, 0xBD])).1
        = [0x95, 0xD1, 0x66, 0x6A, 0x6B, 0xAA, 0xE8, 0xBD]
      ∧ [0x95, 0xD1, 0x66, 0x6A, 0x6B, 0xAA, 0xE8, 0xBD]
        ≠ [0x62, 0xDD, 0x8E, 0x4A, 0x61, 0x4E, 0x1A, 0xF9] := by
  have he : (crypt_chunk [0x62, 0xDD, 0x8E, 0x4A, 0x61, 0x4E, 0x1A, 0xF9]
      [0, 0, 0, 0, 0, 0, 0, 0] 'e' (List.replicate 8 0) (List.replicate 16 (uninit 48))
      (frame_mem 0 [0x31, 0x65, 0x33, 0x6B, 0x35, 0x71, 0x37, 0x77])).1
      = [0x31, 0x65, 0x33, 0x6B, 0x35, 0x71, 0x37, 0x77] := by
    rw [crypt_chunk_e_mem _ _ _ _ _ (by decide) (by decide) (by decide) (by decide),
      keys_nat_zero, crypt_nat_zero_digits.1]
    decide!
  refine ⟨?_, fun mem => crypt_chunk_zero_d_eq_e _ _ _ mem (by decide) (by decide), ?_, he,
    ?_, by decide⟩
  · rw [generate_keys_eq [0, 0, 0, 0, 0, 0, 0, 0] _ rfl (by decide), spec_keys_zero]
  · exact crypt_chunk_zero_twice _ _ _ _ _ _ _ (by decide) (by decide) (by decide) (by decide)
      (by decide) (by decide) (by decide)
  · rw [he, crypt_chunk_e_mem _ _ _ _ _ (by decide) (by decide) (by decide) (by decide),
      keys_nat_zero, crypt_nat_zero_digits.2]
    decide!

/-- C22: `unsigned_to_binchars` returns no status and truncates: for every
length `n` from 1 to 30 and every non-negative `int` value, the `n`
characters it stores are `'0'` or `'1'`, and
`binchars_to_unsigned(unsigned_to_binchars(value, n), n) = value mod 2^n`,
which is `value` exactly when `value < 2^n`. -/
theorem unsigned_to_binchars_truncates (value n : Nat) (buf : List Char) (_h1 : 1 ≤ n)
    (_h30 : n ≤ 30) (_hv : value < 2 ^ 31) (hbuf : buf.length = n) :
    (Bits (unsigned_to_binchars value buf n) ∧ (unsigned_to_binchars value buf n).length = n)
      ∧ binchars_to_unsigned (unsigned_to_binchars value buf n) n = value % 2 ^ n
      ∧ (binchars_to_unsigned (unsigned_to_binchars value buf n) n = value
          ↔ value < 2 ^ n) := by
  rw [unsigned_to_binchars_eq value buf n hbuf,
    binchars_to_unsigned_eq _ n (length_value_bits n value), bits_value_value_bits]
  exact ⟨⟨Bits_value_bits n value, length_value_bits n value⟩, rfl,
    Nat.mod_eq_iff_lt (by positivity)⟩

theorem unsigned_to_binchars_truncates_witness :
    (Bits (unsigned_to_binchars 45 (uninit 4) 4)
        ∧ (unsigned_to_binchars 45 (uninit 4) 4).length = 4)
      ∧ binchars_to_unsigned (unsigned_to_binchars 45 (uninit 4) 4) 4 = 45 % 2 ^ 4
      ∧ (binchars_to_unsigned (unsigned_to_binchars 45 (uninit 4) 4) 4 = 45 ↔ 45 < 2 ^ 4) :=
  unsigned_to_binchars_truncates 45 4 (uninit 4) (by decide) (by decide) (by decide)
    (by decide)

end DES
